import Mathlib

/-!
Transparent pricing: commitment aggregation, flat and Merkle variants.

A shallow embedding of `merkle/merkle.go`, `cmd/merkle/main.go`,
`bp/transparent_pricing_bp.go` and the `checkProofs` of `transparent_pricing_merkle.go`.

* Go pointers to `Node` are addresses (natural numbers) into an explicit heap (`Heap`);
  a pointer that may be nil is an `Option Nat`, with `none` for nil.
* A `*big.Int` is a mathematical integer. A Go `int64`, and a Go `int` (64 bits wide),
  is the mathematical integer it stands for; a sum, difference or product that the
  source computes on readings, thresholds and margins in `int` or `int64` is wrapped
  around by `wrap64`. Counts of nodes (`L`, `Height`, `Index`, lengths of slices) stay far
  below `2^63` in any run and are computed exactly.
* A `[]byte` field holding a JSON encoding is represented by what it decodes to:
  `some v` for the encoding of `v`, `none` for bytes that do not decode.
* A result of `none` at the top level of a function stands for a run that does not
  return a value: a run-time abort (nil dereference, index out of range) or, for the
  functions taking `fuel`, a recursion that is still going after `fuel` rounds.
-/

namespace Zkrp

/-! ## The range-proof backend (package `bulletproofs`, `util`, `p256`) -/

/-- Modelled from the spec: a `bulletproofs.ProofBPRP`, seen through its two public
commitments `P1.V` and `P2.V`. -/
structure ProofBPRP (P : Type) where
  P1V : P
  P2V : P
deriving DecidableEq

/-- Modelled from the spec: the parts of the packages `bulletproofs`, `util` and `p256`
that the code uses and whose sources are not at hand: the base point `G`, the second
generator `H` (`params.BP1.H = params.BP2.H`), the constant
`bulletproofs.MAX_RANGE_END`, the verdict `Verify` of `proof.Verify()` on a proof that
has just been decoded, and `selfSum a`, the point that `Add(a, a)` hands back (section 3
of the spec: adding a commitment to itself is not supported by the backend). -/
structure Backend (P : Type) where
  G : P
  H : P
  MAX_RANGE_END : Int
  Verify : ProofBPRP P → Bool
  selfSum : P → P

/-- Modelled from the spec: `util.CommitG1(x, r, H)`, the Pedersen commitment
`x·G + r·H` of section 3 of the spec. -/
def CommitG1 {P : Type} [AddCommGroup P] (B : Backend P) (x r : Int) : P :=
  x • B.G + r • B.H

/-- Modelled from the spec: the parameters returned by `bulletproofs.SetupGeneric(a, b)`;
only the interval bounds matter here. -/
structure Params where
  A : Int
  B : Int

/-- Modelled from the spec: `bulletproofs.SetupGeneric(a, b)`. -/
def SetupGeneric (a b : Int) : Params := ⟨a, b⟩

/-- Modelled from the spec: `bulletproofs.ProveGeneric(x, params, r)`, whose `P1.V`
commits to `x - b + MAX_RANGE_END` and whose `P2.V` commits to `x - a`, both under
blinding `r`. -/
def ProveGeneric {P : Type} [AddCommGroup P] (B : Backend P) (x : Int) (p : Params)
    (r : Int) : ProofBPRP P :=
  ⟨CommitG1 B (x - p.B + B.MAX_RANGE_END) r, CommitG1 B (x - p.A) r⟩

/-- Modelled from the spec: `proof.Verify()` of package `bulletproofs` called on a
variable that holds the proof `pr`. The call works in place on the points that the proof
holds, so that a decoded value passes it once at most: `again` says that a call has been
made on the value before, and then the verdict is `false`. -/
def verifyInPlace {P : Type} (B : Backend P) (pr : ProofBPRP P) (again : Bool) : Bool :=
  !again && B.Verify pr

/-- Modelled from the spec: `p.Add(a, b)` of package `p256` as the backend computes it:
the sum in the group, except that the backend cannot add a point to itself (section 3 of
the spec, and the comment in `checkSumProof` of `bp/transparent_pricing_bp.go`) and hands
`selfSum a` back for `Add(a, a)`; a nil operand (a failed decode) aborts the call. -/
def backendAdd {P : Type} [AddCommGroup P] [DecidableEq P] (B : Backend P)
    (a b : Option P) : Option P :=
  match a, b with
  | some x, some y => some (if x = y then B.selfSum x else x + y)
  | _, _ => none

/-- Modelled from the spec: `p.Add(a, b)` of package `p256` in the commitment model that
the claims about the tree variant are stated in, where `Add` is the addition of the
group; a nil operand (a failed decode) aborts the call. -/
def pointAdd {P : Type} [AddCommGroup P] (a b : Option P) : Option P :=
  match a, b with
  | some x, some y => some (x + y)
  | _, _ => none

/-- Modelled from the spec: `a.Equals(b)` of package `p256` on decoded points; a nil
operand aborts the call. -/
def pointEquals {P : Type} [DecidableEq P] (a b : Option P) : Option Bool :=
  match a, b with
  | some x, some y => some (decide (x = y))
  | _, _ => none

/-! ## Machine integers -/

/-- The `int64` that Go arithmetic yields where the exact result is `x`: the integer in
`-2^63 .. 2^63 - 1` that differs from `x` by a multiple of `2^64`. -/
def wrap64 (x : Int) : Int := (x + 2 ^ 63) % 2 ^ 64 - 2 ^ 63

/-! ## `merkle.Node`, `merkle.Path` and the heap -/

/-- The struct `Node` of `merkle.go`; the default values are the Go zero values. -/
structure Node (P : Type) where
  Parent : Option Nat := none
  Left : Option Nat := none
  Right : Option Nat := none
  IsLeaf : Bool := false
  Index : Int := 0
  Height : Int := 0
  L : Int := 0
  C1 : Option P := none
  C2 : Option P := none
  Pi : Option (ProofBPRP P) := none

/-- The store of allocated nodes: `cell p` is the node at address `p`, `next` the first
address not handed out yet. -/
structure Heap (P : Type) where
  next : Nat
  cell : Nat → Node P

/-- Allocation of a fresh node (`&Node{...}`). -/
def Heap.alloc {P : Type} (h : Heap P) (n : Node P) : Nat × Heap P :=
  (h.next, ⟨h.next + 1, Function.update h.cell h.next n⟩)

/-- Assignment through a pointer: the node at `p` becomes `f` of itself. -/
def Heap.modify {P : Type} (h : Heap P) (p : Nat) (f : Node P → Node P) : Heap P :=
  ⟨h.next, Function.update h.cell p (f (h.cell p))⟩

/-- The empty store. -/
def Heap.empty (P : Type) : Heap P := ⟨0, fun _ => {}⟩

/-- Go indexing `s[i]` at a signed index: out of range (an abort) when `i` is negative
or not below `len(s)`. -/
def index? {α : Type} (s : List α) (i : Int) : Option α :=
  if i < 0 then none else s[i.toNat]?

/-- The struct `Path` of `merkle.go`. -/
structure Path where
  Core : List Nat
  Edge : List Nat
deriving DecidableEq

/-! ## Building the tree -/

/-- The function `buildLeaf` of `merkle.go`. -/
def buildLeaf {P : Type} [AddCommGroup P] (B : Backend P) (h : Heap P)
    (reading seed d : Int) : Nat × Heap P :=
  let p := SetupGeneric 0 d
  let proof := ProveGeneric B reading p seed
  h.alloc { C1 := some proof.P1V, C2 := some proof.P2V, Pi := some proof,
            L := 1, IsLeaf := true, Height := 0 }

/-- The four slices `nodes`, `values`, `sizes`, `seeds` that the loop of
`buildIntermediate` fills for the next level. -/
structure Level where
  nodes : List Nat
  values : List Int
  sizes : List Int
  seeds : List Int
deriving DecidableEq

/-- The `for i := 0; i < len(ns); i += 2` loop of `buildIntermediate`, from index `i`
on; `gas` bounds the number of rounds still to run. The result is `Sum.inl n` when the
loop body executed `return n`, and `Sum.inr lv` when the loop ran to its end with the
slices `lv`. -/
def buildIntermediateLoop {P : Type} [AddCommGroup P] (B : Backend P) (d : Int)
    (ns : List Nat) (vs ls rs : List Int) :
    Nat → Nat → Level → Heap P → Option (Sum Nat Level × Heap P)
  | 0, i, acc, h => if i < ns.length then none else some (Sum.inr acc, h)
  | gas + 1, i, acc, h =>
    if i < ns.length then
      if i + 1 = ns.length then
        match ns[i]?, vs[i]?, ls[i]?, rs[i]? with
        | some n, some v, some l, some r =>
          let acc1 : Level :=
            ⟨acc.nodes ++ [n], acc.values ++ [v], acc.sizes ++ [l], acc.seeds ++ [r]⟩
          if ns.length = 2 then some (Sum.inl n, h)
          else buildIntermediateLoop B d ns vs ls rs gas (i + 2) acc1 h
        | _, _, _, _ => none
      else
        match vs[i]?, vs[i+1]?, rs[i]?, rs[i+1]?, ns[i]?, ns[i+1]?, ls[i]?, ls[i+1]? with
        | some v0, some v1, some r0, some r1, some leftNode, some rightNode,
            some l0, some l1 =>
          let sumV := wrap64 (v0 + v1)
          let sumR := r0 + r1
          let newL := l0 + l1
          let height := (h.cell leftNode).Height + 1
          let p := SetupGeneric 0 (wrap64 (d * newL))
          let proof := ProveGeneric B sumV p sumR
          let (n, h1) := h.alloc
            { Left := some leftNode, Right := some rightNode,
              C1 := some proof.P1V, C2 := some proof.P2V, Pi := some proof,
              L := newL, IsLeaf := false, Height := height }
          let acc1 : Level :=
            ⟨acc.nodes ++ [n], acc.values ++ [sumV], acc.sizes ++ [newL],
             acc.seeds ++ [sumR]⟩
          let h2 := h1.modify leftNode (fun x => { x with Parent := some n })
          let h3 := h2.modify rightNode (fun x => { x with Parent := some n })
          if ns.length = 2 then some (Sum.inl n, h3)
          else buildIntermediateLoop B d ns vs ls rs gas (i + 2) acc1 h3
        | _, _, _, _, _, _, _, _ => none
    else some (Sum.inr acc, h)

/-- The function `buildIntermediate` of `merkle.go`; `fuel` bounds the depth of the
recursion. -/
def buildIntermediate {P : Type} [AddCommGroup P] (B : Backend P) :
    Nat → Heap P → List Nat → List Int → List Int → List Int → Int →
    Option (Nat × Heap P)
  | 0, _, _, _, _, _, _ => none
  | fuel + 1, h, ns, vs, ls, rs, d =>
    match buildIntermediateLoop B d ns vs ls rs ns.length 0 ⟨[], [], [], []⟩ h with
    | none => none
    | some (Sum.inl n, h1) => some (n, h1)
    | some (Sum.inr lv, h1) =>
      buildIntermediate B fuel h1 lv.nodes lv.values lv.sizes lv.seeds d

/-- The slices `leaves`, `values`, `sizes`, `seeds` of `BuildTree`; an entry of `leaves`
is `none` while it is still the nil pointer. -/
structure LeafSlices where
  leaves : List (Option Nat)
  values : List Int
  sizes : List Int
  seeds : List Int
deriving DecidableEq

/-- The body of the `for k := range vs` loop of `BuildTree`, for the key `k`
(`len` is `len(vs)`); a key outside `0..len-1` is an index out of range. -/
def BuildTree.step {P : Type} [AddCommGroup P] (B : Backend P) (vs rs : Nat → Int)
    (d : Int) (len : Nat) (st : LeafSlices × Heap P) (k : Nat) :
    Option (LeafSlices × Heap P) :=
  if k < len then
    let values := st.1.values.set k (vs k)
    let seeds := st.1.seeds.set k (rs k)
    let (n, h1) := buildLeaf B st.2 (vs k) (rs k) d
    let leaves := st.1.leaves.set k (some n)
    let sizes := st.1.sizes.set k 1
    let h2 := h1.modify n (fun x => { x with Index := (k : Int) })
    some (⟨leaves, values, sizes, seeds⟩, h2)
  else none

/-- The `for k := range vs` loop of `BuildTree` over the keys in the order `keys` in
which the map iteration yields them. -/
def BuildTree.loop {P : Type} [AddCommGroup P] (B : Backend P) (vs rs : Nat → Int)
    (d : Int) (len : Nat) : List Nat → LeafSlices × Heap P → Option (LeafSlices × Heap P)
  | [], st => some st
  | k :: ks, st =>
    match BuildTree.step B vs rs d len st k with
    | none => none
    | some st1 => BuildTree.loop B vs rs d len ks st1

/-- The slice of leaves as passed on to `buildIntermediate`; an entry that is still nil
would be dereferenced there. -/
def nonNil : List (Option Nat) → Option (List Nat)
  | [] => some []
  | none :: _ => none
  | some p :: ps =>
    match nonNil ps with
    | some qs => some (p :: qs)
    | none => none

/-- The method `BuildTree` of `merkle.go`. The maps `vs` and `rs` are given by their
lookup functions and by `order`, the keys of `vs` in the order in which `range vs`
yields them (so `len(vs)` is `order.length`); `fuel` bounds the recursion of
`buildIntermediate`. -/
def BuildTree {P : Type} [AddCommGroup P] (B : Backend P) (fuel : Nat) (h : Heap P)
    (order : List Nat) (vs rs : Nat → Int) (d : Int) : Option (Nat × Heap P) :=
  let len := order.length
  let st0 : LeafSlices :=
    ⟨List.replicate len none, List.replicate len 0, List.replicate len 0,
     List.replicate len 0⟩
  match BuildTree.loop B vs rs d len order (st0, h) with
  | none => none
  | some (st, h1) =>
    match nonNil st.leaves with
    | none => none
    | some leaves => buildIntermediate B fuel h1 leaves st.values st.sizes st.seeds d

/-! ## Paths -/

/-- The method `CopyNode` of `merkle.go`. -/
def CopyNode {P : Type} (h : Heap P) (n : Nat) : Nat × Heap P :=
  h.alloc { C1 := (h.cell n).C1, C2 := (h.cell n).C2, Pi := (h.cell n).Pi,
            L := (h.cell n).L }

/-- The `for cNode != root` loop of `MerklePath`; `fuel` bounds the number of rounds. -/
def MerklePath.loop {P : Type} (root : Nat) :
    Nat → Heap P → Nat → List Nat → List Nat → Option (Path × Heap P)
  | 0, _, _, _, _ => none
  | fuel + 1, h, cNode, core, edge =>
    if cNode = root then some (⟨core, edge⟩, h)
    else
      match (h.cell cNode).Parent with
      | none => none
      | some pNode =>
        let (c, h1) := CopyNode h pNode
        let core1 := core ++ [c]
        let branch : Option (List Nat × Heap P) :=
          if some cNode = (h1.cell pNode).Left then
            match (h1.cell pNode).Right, index? core1 ((core1.length : Int) - 1),
                index? core1 ((core1.length : Int) - 2) with
            | some r, some last, some prev =>
              let (e, h2) := CopyNode h1 r
              let h3 := h2.modify last (fun x => { x with Left := some prev })
              let h4 := h3.modify last (fun x => { x with Right := some e })
              some (edge ++ [e], h4)
            | _, _, _ => none
          else if some cNode = (h1.cell pNode).Right then
            match (h1.cell pNode).Left, index? core1 ((core1.length : Int) - 1),
                index? core1 ((core1.length : Int) - 2) with
            | some l, some last, some prev =>
              let (e, h2) := CopyNode h1 l
              let h3 := h2.modify last (fun x => { x with Right := some prev })
              let h4 := h3.modify last (fun x => { x with Left := some e })
              some (edge ++ [e], h4)
            | _, _, _ => none
          else some (edge, h1)
        match branch with
        | none => none
        | some (edge1, h4) =>
          match index? core1 ((core1.length : Int) - 2),
              index? core1 ((core1.length : Int) - 1),
              index? edge1 ((edge1.length : Int) - 1) with
          | some prev, some last, some elast =>
            let h5 := h4.modify prev (fun x => { x with Parent := some last })
            let h6 := h5.modify last (fun x => { x with IsLeaf := false })
            let h7 := h6.modify elast (fun x => { x with IsLeaf := true })
            MerklePath.loop root fuel h7 pNode core1 edge1
          | _, _, _ => none

/-- The method `MerklePath` of `merkle.go`. -/
def MerklePath {P : Type} (fuel : Nat) (h : Heap P) (root leaf : Nat) :
    Option (Path × Heap P) :=
  let (c, h1) := CopyNode h leaf
  let h2 := h1.modify c (fun x => { x with IsLeaf := true })
  MerklePath.loop root fuel h2 leaf [c] []

/-- The method `GetNumLeaves` of `merkle.go`; `fuel` bounds the depth of the recursion. -/
def GetNumLeaves {P : Type} : Nat → Heap P → Nat → Option Int
  | 0, _, _ => none
  | fuel + 1, h, n =>
    if (h.cell n).IsLeaf then some 1
    else
      match (h.cell n).Left, (h.cell n).Right with
      | some l, some r =>
        match GetNumLeaves fuel h l, GetNumLeaves fuel h r with
        | some a, some b => some (a + b)
        | _, _ => none
      | _, _ => none

/-- The method `GetLeaf` of `merkle.go`; `fuel` bounds the depth of the recursion. The
inner option is the returned pointer (`none` for nil). -/
def GetLeaf {P : Type} : Nat → Heap P → Nat → Int → Option (Option Nat)
  | 0, _, _, _ => none
  | fuel + 1, h, n, index =>
    if (h.cell n).IsLeaf then
      if (h.cell n).Index = index then some (some n) else some none
    else
      match (h.cell n).Left, (h.cell n).Right with
      | some l, some r =>
        match GetLeaf fuel h l index, GetLeaf fuel h r index with
        | some node1, some node2 =>
          if node1 ≠ none then some node1
          else if node2 ≠ none then some node2
          else some none
        | _, _ => none
      | _, _ => none

/-! ## Verifying a path -/

/-- The function `verifyCommitmentSum` of `merkle.go`, with the value of the local
constant `dummy` as a parameter. -/
def verifyCommitmentSumWith {P : Type} [AddCommGroup P] [DecidableEq P] (B : Backend P)
    (dummy : Int) (h : Heap P) (root na nb : Nat) (delta : Int) : Option Bool :=
  let _p := SetupGeneric 0 delta
  let sumAdj := CommitG1 B (dummy - B.MAX_RANGE_END) dummy
  let rootAdj := CommitG1 B dummy dummy
  let C1root := (h.cell root).C1
  let C1a := (h.cell na).C1
  let C1b := (h.cell nb).C1
  match pointAdd C1a C1b with
  | none => none
  | some C1sum =>
    let adjC1sum := pointAdd (some C1sum) (some sumAdj)
    match pointAdd C1root (some rootAdj) with
    | none => none
    | some adjC1root =>
      let C2root := (h.cell root).C2
      let C2a := (h.cell na).C2
      let C2b := (h.cell nb).C2
      match pointAdd C2a C2b with
      | none => none
      | some C2sum =>
        match pointEquals (some C2sum) C2root with
        | none => none
        | some false => some false
        | some true => pointEquals adjC1sum (some adjC1root)

/-- The function `verifyCommitmentSum` of `merkle.go` (`dummy := int64(10)`). -/
def verifyCommitmentSum {P : Type} [AddCommGroup P] [DecidableEq P] (B : Backend P)
    (h : Heap P) (root na nb : Nat) (delta : Int) : Option Bool :=
  verifyCommitmentSumWith B 10 h root na nb delta

/-- The loop of `VerifyStructure`, from index `i` on; `gas` bounds the number of rounds
still to run. -/
def VerifyStructure.loop {P : Type} [AddCommGroup P] [DecidableEq P] (B : Backend P)
    (h : Heap P) (p : Path) (delta : Int) : Nat → Nat → Option Bool
  | 0, i => if i < p.Edge.length then none else some true
  | gas + 1, i =>
    if i < p.Edge.length then
      match p.Core[i+1]?, p.Core[i]?, p.Edge[i]? with
      | some parent, some child, some sibling =>
        match verifyCommitmentSum B h parent child sibling delta with
        | none => none
        | some false => some false
        | some true => VerifyStructure.loop B h p delta gas (i + 1)
      | _, _, _ => none
    else some true

/-- The method `VerifyStructure` of `merkle.go`. -/
def VerifyStructure {P : Type} [AddCommGroup P] [DecidableEq P] (B : Backend P)
    (h : Heap P) (p : Path) (delta : Int) : Option Bool :=
  VerifyStructure.loop B h p delta p.Edge.length 0

/-! ## The tree variant of the protocol (`cmd/merkle/main.go`) -/

/-- Decoding with `json.Unmarshal(bytes, &target)` where the error is dropped: bytes that
decode overwrite the target, bytes that do not leave it as it was. -/
def unmarshalInto {α : Type} (bytes : Option α) (target : Option α) : Option α :=
  match bytes with
  | some v => some v
  | none => target

/-- The struct `User` of `cmd/merkle/main.go`. -/
structure TreeUser (P : Type) where
  gamma : Int
  delta : Int
  nUsers : Int
  idx : Int
  reading : Int
  r : Int
  path : Option Path
  sumProof : Option (ProofBPRP P)

/-- The struct `Company` of `cmd/merkle/main.go`; the map `readings` is given by its
lookup function and by `order`, the order in which `range` yields its keys. -/
structure TreeCompany (P : Type) where
  gamma : Int
  delta : Int
  nUsers : Nat
  readings : Nat → Int
  order : List Nat
  sum : Int
  rs : Nat → Int
  treeRoot : Option Nat
  sumProof : Option (ProofBPRP P)

/-- The loop `for i := 0; i < c.nUsers; i++` of `processReadings`, which adds up the
readings (in `int`) and the blindings (in `big.Int`). -/
def sumLoop (readings rs : Nat → Int) (nUsers : Nat) : Int × Int :=
  (List.range nUsers).foldl (fun acc i => (wrap64 (acc.1 + readings i), acc.2 + rs i))
    (0, 0)

/-- The method `Company.processReadings` of `cmd/merkle/main.go`. -/
def TreeCompany.processReadings {P : Type} [AddCommGroup P] (B : Backend P) (fuel : Nat)
    (h : Heap P) (c : TreeCompany P) : Option (TreeCompany P × Heap P) :=
  match BuildTree B fuel h c.order c.readings c.rs c.delta with
  | none => none
  | some (root, h1) =>
    let sums := sumLoop c.readings c.rs c.nUsers
    let psum := SetupGeneric c.gamma (wrap64 (c.delta * (c.nUsers : Int)))
    let proof := ProveGeneric B sums.1 psum sums.2
    some ({ c with sum := sums.1, treeRoot := some root, sumProof := some proof }, h1)

/-- The method `User.checkCommitment` of `cmd/merkle/main.go`: the value of `check`. -/
def TreeUser.checkCommitment {P : Type} [AddCommGroup P] [DecidableEq P] (B : Backend P)
    (h : Heap P) (u : TreeUser P) : Option Bool :=
  let V1 := CommitG1 B (wrap64 (wrap64 (u.reading - u.delta) + B.MAX_RANGE_END)) u.r
  let V2 := CommitG1 B u.reading u.r
  match u.path with
  | none => none
  | some path =>
    match path.Core[0]? with
    | none => none
    | some c0 =>
      let commit1 := unmarshalInto (h.cell c0).C1 none
      let commit2 := unmarshalInto (h.cell c0).C2 none
      match pointEquals (some V1) commit1 with
      | none => none
      | some false => some false
      | some true => pointEquals (some V2) commit2

/-- The three outcomes that `checkSumProof` prints. -/
inductive Verdict where
  | canCharge
  | cannotCharge
  | failed
deriving DecidableEq

/-- What `User.checkSumProof` of `cmd/merkle/main.go` computes: the four sub-results and
the outcome printed. -/
structure TreeSumCheck where
  ok1 : Bool
  ok2 : Bool
  ok3 : Bool
  ok4 : Bool
  verdict : Verdict
deriving DecidableEq

/-- The method `User.checkSumProof` of `cmd/merkle/main.go`. -/
def TreeUser.checkSumProof {P : Type} [AddCommGroup P] [DecidableEq P] (B : Backend P)
    (h : Heap P) (u : TreeUser P) : Option TreeSumCheck :=
  match u.path with
  | none => none
  | some path =>
    match index? path.Core ((path.Core.length : Int) - 1) with
    | none => none
    | some root =>
      match u.sumProof with
      | none => none
      | some sumProof =>
        let rootV1 := unmarshalInto (h.cell root).C1 none
        let rootV2 := unmarshalInto (h.cell root).C2 none
        let dummy : Int := 10
        let eta2 := CommitG1 B (wrap64 (dummy + u.gamma)) dummy
        let zeta2 := CommitG1 B dummy dummy
        match pointAdd (some sumProof.P2V) (some eta2), pointAdd rootV2 (some zeta2) with
        | some adjProofV2, some adjRootV2 =>
          let ok1 := decide (u.nUsers = (h.cell root).L)
          match pointEquals (some sumProof.P1V) rootV1,
              pointEquals (some adjProofV2) (some adjRootV2) with
          | some ok2, some ok3 =>
            let ok4 := B.Verify sumProof
            let verdict :=
              if ok1 && ok2 && ok3 && ok4 then Verdict.canCharge
              else if ok1 && ok2 && ok3 then Verdict.cannotCharge
              else Verdict.failed
            some ⟨ok1, ok2, ok3, ok4, verdict⟩
          | _, _ => none
        | _, _ => none

/-- A run of the tree variant for the user `i`: the company processes the readings, the
path of the leaf of `i` is extracted and handed to the user together with the sum proof
(`shareProofData`); the result is the user's record and the heap it lives in. -/
def treeRun {P : Type} [AddCommGroup P] (B : Backend P) (fuel : Nat) (h : Heap P)
    (order : List Nat) (n : Nat) (readings rs : Nat → Int) (gamma delta : Int) (i : Nat) :
    Option (TreeUser P × Heap P) :=
  let company : TreeCompany P :=
    ⟨gamma, delta, n, readings, order, 0, rs, none, none⟩
  match company.processReadings B fuel h with
  | none => none
  | some (c1, h1) =>
    match c1.treeRoot with
    | none => none
    | some root =>
      match GetLeaf fuel h1 root (i : Int) with
      | some (some node) =>
        match MerklePath fuel h1 root node with
        | none => none
        | some (path, h2) =>
          some (⟨gamma, delta, (n : Int), (i : Int), readings i, rs i, some path,
            c1.sumProof⟩, h2)
      | _ => none

/-! ## The flat variant of the protocol (`bp/transparent_pricing_bp.go`) -/

/-- A Go map with keys of type `int`: its entries, each key once. -/
structure GoMap (V : Type) where
  entries : List (Int × V)

/-- The lookup `m[k]`; `none` when the key is absent. -/
def GoMap.get? {V : Type} (m : GoMap V) (k : Int) : Option V :=
  match m.entries.find? (fun e => decide (e.1 = k)) with
  | some e => some e.2
  | none => none

/-- The assignment `m[k] = v`. -/
def GoMap.set {V : Type} (m : GoMap V) (k : Int) (v : V) : GoMap V :=
  ⟨m.entries.filter (fun e => !decide (e.1 = k)) ++ [(k, v)]⟩

/-- The number of entries `len(m)`. -/
def GoMap.len {V : Type} (m : GoMap V) : Nat := m.entries.length

/-- The bytes stored under `k`, for decoding: a key that is absent yields nil bytes,
which do not decode. -/
def GoMap.bytes {V : Type} (m : GoMap (Option V)) (k : Int) : Option V :=
  match m.get? k with
  | some b => b
  | none => none

/-- The struct `Company` of `bp/transparent_pricing_bp.go`. -/
structure FlatCompany (P : Type) where
  gamma : Int
  delta : Int
  nUsers : Nat
  readings : Nat → Int
  sum : Int
  rs : Nat → Int
  commits1 : GoMap (Option P)
  commits2 : GoMap (Option P)
  proofs : GoMap (Option (ProofBPRP P))
  sumProof : Option (ProofBPRP P)

/-- The struct `User` of `bp/transparent_pricing_bp.go`. -/
structure FlatUser (P : Type) where
  gamma : Int
  delta : Int
  nUsers : Int
  idx : Int
  reading : Int
  r : Int
  commits1 : GoMap (Option P)
  commits2 : GoMap (Option P)
  proofs : GoMap (Option (ProofBPRP P))
  sumProof : Option (ProofBPRP P)

/-- The method `Company.generateProof` of `bp/transparent_pricing_bp.go`. -/
def FlatCompany.generateProof {P : Type} [AddCommGroup P] (B : Backend P)
    (c : FlatCompany P) (idx : Nat) : FlatCompany P :=
  let p := SetupGeneric 0 c.delta
  let proof := ProveGeneric B (c.readings idx) p (c.rs idx)
  { c with proofs := c.proofs.set (idx : Int) (some proof),
           commits1 := c.commits1.set (idx : Int) (some proof.P1V),
           commits2 := c.commits2.set (idx : Int) (some proof.P2V) }

/-- The method `Company.processReadings` of `bp/transparent_pricing_bp.go`. The calls of
`generateProof`, which the source starts as goroutines that write to the maps under one
mutex, are run one after the other for `i = 0, 1, ...`. -/
def FlatCompany.processReadings {P : Type} [AddCommGroup P] (B : Backend P)
    (c : FlatCompany P) : FlatCompany P :=
  let c0 : FlatCompany P := { c with sum := 0, proofs := ⟨[]⟩, commits1 := ⟨[]⟩,
                                     commits2 := ⟨[]⟩ }
  let sums := sumLoop c0.readings c0.rs c0.nUsers
  let c1 : FlatCompany P := { c0 with sum := sums.1 }
  let c2 := (List.range c1.nUsers).foldl (fun acc i => acc.generateProof B i) c1
  let psum := SetupGeneric c2.gamma (wrap64 (c2.delta * (c2.nUsers : Int)))
  let sumProof := ProveGeneric B c2.sum psum sums.2
  { c2 with sumProof := some sumProof }

/-- The method `Company.shareProofData` of `bp/transparent_pricing_bp.go`: the three maps
are copied entry by entry. -/
def FlatCompany.shareProofData {P : Type} (c : FlatCompany P) (u : FlatUser P) :
    FlatUser P :=
  { u with
    proofs := c.proofs.entries.foldl (fun m e => m.set e.1 e.2) ⟨[]⟩,
    commits1 := c.commits1.entries.foldl (fun m e => m.set e.1 e.2) ⟨[]⟩,
    commits2 := c.commits2.entries.foldl (fun m e => m.set e.1 e.2) ⟨[]⟩,
    sumProof := c.sumProof }

/-- The method `User.checkCommitment` of `bp/transparent_pricing_bp.go`: the value of
`check`. -/
def FlatUser.checkCommitment {P : Type} [AddCommGroup P] [DecidableEq P] (B : Backend P)
    (u : FlatUser P) : Option Bool :=
  let V1 := CommitG1 B (wrap64 (wrap64 (u.reading - u.delta) + B.MAX_RANGE_END)) u.r
  let V2 := CommitG1 B u.reading u.r
  let commit1 := unmarshalInto (u.commits1.bytes u.idx) none
  let commit2 := unmarshalInto (u.commits2.bytes u.idx) none
  match pointEquals (some V1) commit1 with
  | none => none
  | some false => some false
  | some true => pointEquals (some V2) commit2

/-- The state of the loop `for i := 1; i < len(u.commits2); i++` of `checkSumProof`. -/
structure StarState (P : Type) where
  commit1 : Option P
  commit2 : Option P
  Cstar1 : Option P
  Cstar2 : Option P

/-- The loop `for i := 1; i < len(u.commits2); i++` of `checkSumProof`, run over the
given indexes; `none` when an addition aborts. -/
def FlatUser.starLoop {P : Type} [AddCommGroup P] [DecidableEq P] (B : Backend P)
    (u : FlatUser P) : List Nat → StarState P → Option (StarState P)
  | [], st => some st
  | i :: is, st =>
    let commit1 := unmarshalInto (u.commits1.bytes (i : Int)) st.commit1
    let commit2 := unmarshalInto (u.commits2.bytes (i : Int)) st.commit2
    match backendAdd B st.Cstar1 commit1, backendAdd B st.Cstar2 commit2 with
    | some s1, some s2 => FlatUser.starLoop B u is ⟨commit1, commit2, some s1, some s2⟩
    | _, _ => none

/-- What `User.checkSumProof` of `bp/transparent_pricing_bp.go` computes: the three
sub-results and the outcome printed. -/
structure FlatSumCheck where
  ok1 : Bool
  ok2 : Bool
  ok3 : Bool
  verdict : Verdict
deriving DecidableEq

/-- The method `User.checkSumProof` of `bp/transparent_pricing_bp.go`. -/
def FlatUser.checkSumProof {P : Type} [AddCommGroup P] [DecidableEq P] (B : Backend P)
    (u : FlatUser P) : Option FlatSumCheck :=
  match u.sumProof with
  | none => none
  | some sumProof =>
    let Cstar1 := unmarshalInto (u.commits1.bytes 0) none
    let Cstar2 := unmarshalInto (u.commits2.bytes 0) none
    let dummy : Int := 10
    let eta1 := CommitG1 B
      (wrap64 (wrap64 (dummy - wrap64 (u.delta * u.nUsers)) +
        wrap64 (B.MAX_RANGE_END * u.nUsers))) dummy
    let zeta1 := CommitG1 B
      (wrap64 (wrap64 (dummy - wrap64 (u.delta * u.nUsers)) + B.MAX_RANGE_END)) dummy
    let eta2 := CommitG1 B dummy dummy
    let zeta2 := CommitG1 B (wrap64 (dummy - u.gamma)) dummy
    match FlatUser.starLoop B u (List.range' 1 (u.commits2.len - 1))
        ⟨none, none, Cstar1, Cstar2⟩ with
    | none => none
    | some st =>
      match backendAdd B (some sumProof.P1V) (some eta1),
          backendAdd B st.Cstar1 (some zeta1),
          backendAdd B (some sumProof.P2V) (some eta2),
          backendAdd B st.Cstar2 (some zeta2) with
      | some sumV1, some Cstar1z, some sumV2, some Cstar2z =>
        match pointEquals (some sumV1) (some Cstar1z),
            pointEquals (some sumV2) (some Cstar2z) with
        | some ok1, some ok2 =>
          let ok3 := B.Verify sumProof
          let verdict :=
            if ok1 && ok2 && ok3 then Verdict.canCharge
            else if ok1 && ok2 then Verdict.cannotCharge
            else Verdict.failed
          some ⟨ok1, ok2, ok3, verdict⟩
        | _, _ => none
      | _, _, _, _ => none

/-- A run of the flat variant for the user `i`: the company processes the readings and
shares the proof data with the user (`initialize`, `processReadings`,
`shareProofData`). -/
def flatRun {P : Type} [AddCommGroup P] (B : Backend P) (n : Nat)
    (readings rs : Nat → Int) (gamma delta : Int) (i : Nat) : FlatUser P :=
  let company : FlatCompany P :=
    ⟨gamma, delta, n, readings, 0, rs, ⟨[]⟩, ⟨[]⟩, ⟨[]⟩, none⟩
  let user : FlatUser P :=
    ⟨gamma, delta, (n : Int), (i : Int), readings i, rs i, ⟨[]⟩, ⟨[]⟩, ⟨[]⟩, none⟩
  (company.processReadings B).shareProofData user

/-! ## Abstraction: the shape a built tree has in the heap -/

/-- A binary tree of addresses: a leaf at address `p` for the user id `k`, or an internal
node at address `p` over two subtrees. -/
inductive PT where
  | leaf (p : Nat) (k : Nat)
  | node (p : Nat) (l r : PT)
deriving DecidableEq

/-- The address of the top node. -/
def PT.ptr : PT → Nat
  | PT.leaf p _ => p
  | PT.node p _ _ => p

/-- The addresses of all nodes strictly below the top node. -/
def PT.kids : PT → List Nat
  | PT.leaf _ _ => []
  | PT.node _ l r => (l.ptr :: l.kids) ++ (r.ptr :: r.kids)

/-- The addresses of all nodes. -/
def PT.ptrs (t : PT) : List Nat := t.ptr :: t.kids

/-- The user ids of the leaves, left to right. -/
def PT.keys : PT → List Nat
  | PT.leaf _ k => [k]
  | PT.node _ l r => l.keys ++ r.keys

/-- The number of leaves. -/
def PT.size : PT → Int
  | PT.leaf _ _ => 1
  | PT.node _ l r => l.size + r.size

/-- The sum of the readings of the leaves. -/
def PT.val (vs : Nat → Int) : PT → Int
  | PT.leaf _ k => vs k
  | PT.node _ l r => l.val vs + r.val vs

/-- The value that `buildIntermediate` carries for the top node in its slice `values`:
the reading of a leaf, and the `int` sum `vs[i] + vs[i+1]` of the values of the two
children of an internal node. -/
def PT.wval (vs : Nat → Int) : PT → Int
  | PT.leaf _ k => vs k
  | PT.node _ l r => wrap64 (l.wval vs + r.wval vs)

/-- The upper bound that the range proof of the top node is set up with: `d` at a leaf,
the `int64` product `d * int64(newL)` at an internal node. -/
def PT.thr (d : Int) : PT → Int
  | PT.leaf _ _ => d
  | PT.node _ l r => wrap64 (d * (l.size + r.size))

/-- No sum and no product that `buildIntermediate` computes for the nodes of the tree
leaves the range of `int64`. -/
def PT.fits (vs : Nat → Int) (d : Int) : PT → Prop
  | PT.leaf _ _ => True
  | PT.node _ l r => l.fits vs d ∧ r.fits vs d ∧
    wrap64 (l.val vs + r.val vs) = l.val vs + r.val vs ∧
    wrap64 (d * (l.size + r.size)) = d * (l.size + r.size)

/-- The sum of the blindings of the leaves. -/
def PT.seed (rs : Nat → Int) : PT → Int
  | PT.leaf _ k => rs k
  | PT.node _ l r => l.seed rs + r.seed rs

/-- The `Height` field as `buildIntermediate` computes it: one more than the left child. -/
def PT.hgt : PT → Int
  | PT.leaf _ _ => 0
  | PT.node _ l _ => l.hgt + 1

/-- The number of links on the longest way down. -/
def PT.depth : PT → Nat
  | PT.leaf _ _ => 0
  | PT.node _ l r => max l.depth r.depth + 1

/-- The node that `BuildTree` stores at the top of `t`, up to its `Parent` link. -/
def PT.expect {P : Type} [AddCommGroup P] (B : Backend P) (vs rs : Nat → Int) (d : Int) :
    PT → Node P
  | PT.leaf _ k =>
    { C1 := some (ProveGeneric B (vs k) (SetupGeneric 0 d) (rs k)).P1V,
      C2 := some (ProveGeneric B (vs k) (SetupGeneric 0 d) (rs k)).P2V,
      Pi := some (ProveGeneric B (vs k) (SetupGeneric 0 d) (rs k)),
      L := 1, IsLeaf := true, Height := 0, Index := (k : Int) }
  | PT.node _ l r =>
    let v := wrap64 (l.wval vs + r.wval vs)
    let s := l.seed rs + r.seed rs
    let n := l.size + r.size
    { Left := some l.ptr, Right := some r.ptr,
      C1 := some (ProveGeneric B v (SetupGeneric 0 (wrap64 (d * n))) s).P1V,
      C2 := some (ProveGeneric B v (SetupGeneric 0 (wrap64 (d * n))) s).P2V,
      Pi := some (ProveGeneric B v (SetupGeneric 0 (wrap64 (d * n))) s),
      L := n, IsLeaf := false, Height := l.hgt + 1 }

/-- A node with its `Parent` link cleared. -/
def Node.strip {P : Type} (n : Node P) : Node P := { n with Parent := none }

/-- The heap `h` holds the tree `t`: every node of `t` is stored at its address with the
fields `BuildTree` gives it, and every child points back to its parent. -/
def Repr {P : Type} [AddCommGroup P] (B : Backend P) (vs rs : Nat → Int) (d : Int)
    (h : Heap P) : PT → Prop
  | PT.leaf p k => (h.cell p).strip = PT.expect B vs rs d (PT.leaf p k)
  | PT.node p l r =>
    (h.cell p).strip = PT.expect B vs rs d (PT.node p l r) ∧
    (h.cell l.ptr).Parent = some p ∧ (h.cell r.ptr).Parent = some p ∧
    Repr B vs rs d h l ∧ Repr B vs rs d h r

/-- All addresses of a list of trees. -/
def ptrsAll : List PT → List Nat
  | [] => []
  | t :: ts => t.ptrs ++ ptrsAll ts

/-- All leaf ids of a list of trees, left to right. -/
def keysAll : List PT → List Nat
  | [] => []
  | t :: ts => t.keys ++ keysAll ts

/-- The heap holds the trees `ts`, at pairwise different allocated addresses. -/
def Forest {P : Type} [AddCommGroup P] (B : Backend P) (vs rs : Nat → Int) (d : Int)
    (h : Heap P) (ts : List PT) : Prop :=
  (∀ t ∈ ts, Repr B vs rs d h t) ∧ (ptrsAll ts).Nodup ∧ ∀ p ∈ ptrsAll ts, p < h.next

/-- One round of pairing, on trees: neighbours are joined under fresh addresses counted
up from `q`, an odd last tree is carried over. -/
def pairUp : Nat → List PT → List PT
  | _, [] => []
  | _, [t] => [t]
  | q, a :: b :: rest => PT.node q a b :: pairUp (q + 1) rest

/-- The recursion of `buildIntermediate`, on trees. -/
def reduce : Nat → Nat → List PT → Option PT
  | 0, _, _ => none
  | _ + 1, q, [a, b] => some (PT.node q a b)
  | fuel + 1, q, ts => reduce fuel (q + ts.length / 2) (pairUp q ts)

/-- The state of the loop of `BuildTree` once the keys with `(loc k).isSome` have been
handled: `loc k` is the address of the leaf made for the key `k`. -/
def LeafInv {P : Type} [AddCommGroup P] (B : Backend P) (vs rs : Nat → Int) (d : Int)
    (n : Nat) (loc : Nat → Option Nat) (st : LeafSlices × Heap P) : Prop :=
  st.1.leaves = (List.range n).map loc ∧
  st.1.values = (List.range n).map (fun k => if (loc k).isSome then vs k else 0) ∧
  st.1.sizes = (List.range n).map (fun k => if (loc k).isSome then 1 else 0) ∧
  st.1.seeds = (List.range n).map (fun k => if (loc k).isSome then rs k else 0) ∧
  (∀ k p, loc k = some p →
    p < st.2.next ∧ (st.2.cell p).strip = PT.expect B vs rs d (PT.leaf p k)) ∧
  (∀ k1 k2 p, loc k1 = some p → loc k2 = some p → k1 = k2)

/-- The leaves for the keys `0..n-1`, each at the address `loc` gives. -/
def leafTrees (loc : Nat → Option Nat) (n : Nat) : List PT :=
  (List.range n).map (fun k => PT.leaf ((loc k).getD 0) k)

/-- The links and leaf marks of the tree `t` as the heap `h` holds them: what the
traversals `GetLeaf`, `GetNumLeaves` and `MerklePath` read. -/
def Shape {P : Type} (h : Heap P) : PT → Prop
  | PT.leaf p k => (h.cell p).IsLeaf = true ∧ (h.cell p).Index = (k : Int)
  | PT.node p l r =>
    (h.cell p).IsLeaf = false ∧ (h.cell p).Left = some l.ptr ∧
    (h.cell p).Right = some r.ptr ∧ (h.cell l.ptr).Parent = some p ∧
    (h.cell r.ptr).Parent = some p ∧ Shape h l ∧ Shape h r

/-- The search of `GetLeaf`, on trees. -/
def PT.find (i : Int) : PT → Option Nat
  | PT.leaf p k => if (k : Int) = i then some p else none
  | PT.node _ l r =>
    match l.find i with
    | some p => some p
    | none => r.find i

/-- The fields that `CopyNode` copies. -/
def Node.dat {P : Type} (n : Node P) : Option P × Option P × Option (ProofBPRP P) × Int :=
  (n.C1, n.C2, n.Pi, n.L)

/-- The way up from a subtree `x` of `root`: `Up root x c` holds when `c` lists, from `x`
upwards, each ancestor of `x` together with the sibling hanging off the way. -/
inductive Up (root : PT) : PT → List (PT × PT) → Prop where
  | top : Up root root []
  | left {p : Nat} {l r : PT} {c : List (PT × PT)} :
      Up root (PT.node p l r) c → Up root l ((PT.node p l r, r) :: c)
  | right {p : Nat} {l r : PT} {c : List (PT × PT)} :
      Up root (PT.node p l r) c → Up root r ((PT.node p l r, l) :: c)

/-- The way up from the leaf for the id `i`, found as `GetLeaf` finds the leaf. -/
def PT.chain (i : Int) : PT → Option (List (PT × PT))
  | PT.leaf _ k => if (k : Int) = i then some [] else none
  | PT.node p l r =>
    match l.chain i with
    | some c => some (c ++ [(PT.node p l r, r)])
    | none =>
      match r.chain i with
      | some c => some (c ++ [(PT.node p l r, l)])
      | none => none

/-- Scenario of the tree variant: build the tree for the users `order`, look the leaf of
user `i` up, extract its path and run `VerifyStructure` on it. -/
def buildAndVerify {P : Type} [AddCommGroup P] [DecidableEq P] (B : Backend P)
    (fuel : Nat) (h : Heap P) (order : List Nat) (vs rs : Nat → Int) (d : Int)
    (i : Int) : Option Bool :=
  match BuildTree B fuel h order vs rs d with
  | none => none
  | some (root, h1) =>
    match GetLeaf fuel h1 root i with
    | some (some leaf) =>
      match MerklePath fuel h1 root leaf with
      | some (path, h2) => VerifyStructure B h2 path d
      | none => none
    | _ => none

/-- The checks of `verifyCommitmentSum` along the way up from `x`, carried out on the
nodes of the tree itself: one result per level, lowest level first. -/
def levels {P : Type} [AddCommGroup P] [DecidableEq P] (B : Backend P) (h : Heap P)
    (delta : Int) : PT → List (PT × PT) → List (Option Bool)
  | _, [] => []
  | x, (par, sib) :: c =>
    verifyCommitmentSum B h par.ptr x.ptr sib.ptr delta :: levels B h delta par c

/-- The verdict of a loop that runs through the given results in order and stops at the
first one that is not `true`. -/
def firstFail : List (Option Bool) → Option Bool
  | [] => some true
  | none :: _ => none
  | some false :: _ => some false
  | some true :: rest => firstFail rest

/-- The nodes of the tree below `root`, as the traversals of `merkle.go` reach them:
`root` itself, and the `Left` and `Right` child of every reached node that is not
marked as a leaf. -/
inductive Reach {P : Type} (h : Heap P) (root : Nat) : Nat → Prop where
  | top : Reach h root root
  | left {q l : Nat} : Reach h root q → (h.cell q).IsLeaf = false →
      (h.cell q).Left = some l → Reach h root l
  | right {q r : Nat} : Reach h root q → (h.cell q).IsLeaf = false →
      (h.cell q).Right = some r → Reach h root r

/-- The `Index` fields of the leaves below the node `n`, left to right, collected by
the recursion of `GetNumLeaves`; `fuel` bounds the depth of the recursion. -/
def leafIndices {P : Type} : Nat → Heap P → Nat → Option (List Int)
  | 0, _, _ => none
  | fuel + 1, h, n =>
    if (h.cell n).IsLeaf then some [(h.cell n).Index]
    else
      match (h.cell n).Left, (h.cell n).Right with
      | some l, some r =>
        match leafIndices fuel h l, leafIndices fuel h r with
        | some a, some b => some (a ++ b)
        | _, _ => none
      | _, _ => none

/-- The sum of `f` over the users with the given ids. -/
def sumOver (f : Nat → Int) (ids : List Int) : Int :=
  (ids.map (fun k => f k.toNat)).sum

/-- The node `j` parent links above `q` (`q` itself for `j = 0`); `none` when the way up
ends at a nil `Parent` before. -/
def ancestor {P : Type} (h : Heap P) : Nat → Nat → Option Nat
  | 0, q => some q
  | j + 1, q =>
    match (h.cell q).Parent with
    | none => none
    | some p => ancestor h j p

/-- The sibling of `q`: the child of the parent of `q` that is not `q`. -/
def siblingOf {P : Type} (h : Heap P) (q : Nat) : Option Nat :=
  match (h.cell q).Parent with
  | none => none
  | some p => if (h.cell p).Left = some q then (h.cell p).Right else (h.cell p).Left

/-- The two level equalities of the specification for the triple `parent`, `child`,
`sibling`: the six commitments decode, `child.C2 + sibling.C2 = parent.C2`, and
`child.C1 + sibling.C1 + sumAdj = parent.C1 + rootAdj`, where `sumAdj` commits to
`10 - MAX_RANGE_END` and `rootAdj` to `10`, both under the blinding `10`. -/
def levelEqualities {P : Type} [AddCommGroup P] [DecidableEq P] (B : Backend P)
    (h : Heap P) (parent child sibling : Nat) : Bool :=
  match (h.cell child).C1, (h.cell sibling).C1, (h.cell parent).C1,
      (h.cell child).C2, (h.cell sibling).C2, (h.cell parent).C2 with
  | some c1a, some c1b, some c1r, some c2a, some c2b, some c2r =>
    decide (c2a + c2b = c2r) &&
      decide (c1a + c1b + CommitG1 B (10 - B.MAX_RANGE_END) 10 = c1r + CommitG1 B 10 10)
  | _, _, _, _, _, _ => false

/-- Both commitments of the node at `q` decode. -/
def decodable {P : Type} (h : Heap P) (q : Nat) : Bool :=
  (h.cell q).C1.isSome && (h.cell q).C2.isSome

/-- The result of round `i` of the loop of `VerifyStructure`, taken on its own: the call
`verifyCommitmentSum(p.Core[i+1], p.Core[i], p.Edge[i], delta)`. -/
def levelCheck {P : Type} [AddCommGroup P] [DecidableEq P] (B : Backend P) (h : Heap P)
    (p : Path) (delta : Int) (i : Nat) : Option Bool :=
  match p.Core[i+1]?, p.Core[i]?, p.Edge[i]? with
  | some parent, some child, some sibling =>
    verifyCommitmentSum B h parent child sibling delta
  | _, _, _ => none

/-! ## Verifying the proofs of a path -/

/-- The variables `proof`, `commit1`, `commit2` of `VerifyProofs`, declared once before
the two loops; `none` is the zero value (no proof decoded yet, a nil point). The flag
`verified` says that `proof.Verify()` has been called on the value that `proof` holds. -/
structure ProofVars (P : Type) where
  proof : Option (ProofBPRP P)
  commit1 : Option P
  commit2 : Option P
  verified : Bool
deriving DecidableEq

/-- The body of the two loops of `VerifyProofs` for the node at `q`: the three byte
fields are decoded into the variables, errors dropped (bytes that do not decode leave the
variable as the last round left it, a `Pi` that decodes puts a new value into `proof`),
and `ok1 && ok2 && ok3` is computed, `ok3` by a call of `Verify()` on the variable
`proof`. The result is the state of the variables and that value; `none` when `Equals`
meets a nil point. -/
def VerifyProofs.body {P : Type} [DecidableEq P] (B : Backend P) (h : Heap P)
    (st : ProofVars P) (q : Nat) : Option (ProofVars P × Bool) :=
  let proof := unmarshalInto (h.cell q).Pi st.proof
  let again := if (h.cell q).Pi.isSome then false else st.verified
  let commit1 := unmarshalInto (h.cell q).C1 st.commit1
  let commit2 := unmarshalInto (h.cell q).C2 st.commit2
  match proof with
  | none => none
  | some pr =>
    match pointEquals (some pr.P1V) commit1, pointEquals (some pr.P2V) commit2 with
    | some ok1, some ok2 =>
      let ok3 := verifyInPlace B pr again
      some (⟨proof, commit1, commit2, true⟩, ok1 && ok2 && ok3)
    | _, _ => none

/-- One of the two loops of `VerifyProofs`, over the nodes `qs`: the state of the
variables when the loop is left, and `false` when it is left by `return false`. -/
def VerifyProofs.loop {P : Type} [DecidableEq P] (B : Backend P) (h : Heap P) :
    List Nat → ProofVars P → Option (ProofVars P × Bool)
  | [], st => some (st, true)
  | q :: qs, st =>
    match VerifyProofs.body B h st q with
    | none => none
    | some (st1, false) => some (st1, false)
    | some (st1, true) => VerifyProofs.loop B h qs st1

/-- The method `VerifyProofs` of `merkle.go`. -/
def VerifyProofs {P : Type} [DecidableEq P] (B : Backend P) (h : Heap P) (p : Path) :
    Option Bool :=
  match VerifyProofs.loop B h p.Core ⟨none, none, none, false⟩ with
  | none => none
  | some (_, false) => some false
  | some (st, true) =>
    match VerifyProofs.loop B h p.Edge st with
    | none => none
    | some (_, ok) => some ok

/-- The three conditions of the specification on the node at `q`: its own `Pi` decodes to
a proof that verifies and whose `P1.V` and `P2.V` are what its own `C1` and `C2` decode
to. -/
def nodeProofOk {P : Type} [DecidableEq P] (B : Backend P) (h : Heap P) (q : Nat) : Bool :=
  match (h.cell q).Pi, (h.cell q).C1, (h.cell q).C2 with
  | some pr, some c1, some c2 => decide (pr.P1V = c1) && decide (pr.P2V = c2) && B.Verify pr
  | _, _, _ => false

/-! ## The three checks of a user -/

/-- The method `User.checkRangeProofs` of `cmd/merkle/main.go` and of
`transparent_pricing_merkle.go`: the value of `ok0 && ok123`. -/
def TreeUser.checkRangeProofs {P : Type} [AddCommGroup P] [DecidableEq P] (B : Backend P)
    (h : Heap P) (u : TreeUser P) : Option Bool :=
  match u.path with
  | none => none
  | some path =>
    match VerifyStructure B h path u.delta with
    | none => none
    | some ok0 =>
      match VerifyProofs B h path with
      | none => none
      | some ok123 => some (ok0 && ok123)

/-- The round of the loop of `User.checkRangeProofs` of `bp/transparent_pricing_bp.go`
for the index `i`, with its own variables `proof`, `commit1`, `commit2`: the value of
`ok1 && ok2 && ok3`. -/
def FlatUser.rangeProofOk {P : Type} [DecidableEq P] (B : Backend P) (u : FlatUser P)
    (i : Nat) : Option Bool :=
  let proof := unmarshalInto (u.proofs.bytes (i : Int)) none
  let commit1 := unmarshalInto (u.commits1.bytes (i : Int)) none
  let commit2 := unmarshalInto (u.commits2.bytes (i : Int)) none
  match proof with
  | none => none
  | some pr =>
    match pointEquals (some pr.P1V) commit1, pointEquals (some pr.P2V) commit2 with
    | some ok1, some ok2 => some (ok1 && ok2 && B.Verify pr)
    | _, _ => none

/-- The method `User.checkRangeProofs` of `bp/transparent_pricing_bp.go`: the value of
`noFailures` at the end. The rounds, which the source starts as goroutines that update
`noFailures` under one mutex, are run one after the other for `i = 0, 1, ...`. -/
def FlatUser.checkRangeProofs {P : Type} [DecidableEq P] (B : Backend P)
    (u : FlatUser P) : Option Bool :=
  (List.range u.proofs.len).foldl
    (fun acc i =>
      match acc, FlatUser.rangeProofOk B u i with
      | some noFailures, some ok => some (if noFailures then noFailures && ok else noFailures)
      | _, _ => none)
    (some true)

/-- What a run of `checkProofs` reports: for each of the three checks the outcome it
printed, `none` for a check that was not run. -/
structure Report where
  check1 : Option Bool
  check2 : Option Verdict
  check3 : Option Bool
deriving DecidableEq

/-- The method `User.checkProofs` of `cmd/merkle/main.go`. -/
def TreeUser.checkProofs {P : Type} [AddCommGroup P] [DecidableEq P] (B : Backend P)
    (h : Heap P) (u : TreeUser P) : Option Report :=
  match u.checkCommitment B h with
  | none => none
  | some c1 =>
    match u.checkSumProof B h with
    | none => none
    | some c2 => some ⟨some c1, some c2.verdict, none⟩

/-- The method `User.checkProofs` of `transparent_pricing_merkle.go`, whose three checks
are those of `cmd/merkle/main.go`. -/
def TreeUser.checkProofsDemo {P : Type} [AddCommGroup P] [DecidableEq P] (B : Backend P)
    (h : Heap P) (u : TreeUser P) : Option Report :=
  match u.checkCommitment B h with
  | none => none
  | some c1 =>
    match u.checkSumProof B h with
    | none => none
    | some c2 =>
      match u.checkRangeProofs B h with
      | none => none
      | some c3 => some ⟨some c1, some c2.verdict, some c3⟩

/-- The method `User.checkProofs` of `bp/transparent_pricing_bp.go`. -/
def FlatUser.checkProofs {P : Type} [AddCommGroup P] [DecidableEq P] (B : Backend P)
    (u : FlatUser P) : Option Report :=
  match u.checkCommitment B with
  | none => none
  | some c1 =>
    match u.checkSumProof B with
    | none => none
    | some c2 =>
      match u.checkRangeProofs B with
      | none => none
      | some c3 => some ⟨some c1, some c2.verdict, some c3⟩

/-! ## Counting nodes -/

/-- The numbers of leaves and of internal nodes at and below the node `n`, counted by a
recursion like that of `GetNumLeaves`; `fuel` bounds the depth of the recursion. -/
def countNodes {P : Type} : Nat → Heap P → Nat → Option (Nat × Nat)
  | 0, _, _ => none
  | fuel + 1, h, n =>
    if (h.cell n).IsLeaf then some (1, 0)
    else
      match (h.cell n).Left, (h.cell n).Right with
      | some l, some r =>
        match countNodes fuel h l, countNodes fuel h r with
        | some a, some b => some (a.1 + b.1, a.2 + b.2 + 1)
        | _, _ => none
      | _, _ => none

/-- The number of internal nodes of a tree. -/
def PT.inner : PT → Nat
  | PT.leaf _ _ => 0
  | PT.node _ l r => l.inner + r.inner + 1

/-! ## Heights -/

/-- In every internal node of the tree the right child is at most as high as the left
one, so that the `Height` computed from the left child is one more than the larger of
the two. -/
def PT.good : PT → Prop
  | PT.leaf _ _ => True
  | PT.node _ l r => r.hgt ≤ l.hgt ∧ l.good ∧ r.good

/-- The trees of a level `k` of `buildIntermediate`: all of height `k`, except that the
last one may be lower. -/
def LevelInv (k : Int) : List PT → Prop
  | [] => True
  | [t] => t.hgt ≤ k ∧ t.good
  | a :: b :: rest => a.hgt = k ∧ a.good ∧ LevelInv k (b :: rest)

/-! ## The links among the copies of a path -/

/-- The links that the loop of `MerklePath` leaves among the copies it makes, in the heap
`h1`: `prev` is the copy of the node at `xp` the way up starts from, `cs` are the copies
of the ancestors `pars` of that node in the heap `H0` of the tree, lowest first, and `es`
the copies of the siblings on the way. Each copy of a node points up to the copy of its
parent, the copy of the last ancestor points nowhere, the copies of the siblings have no
links, and the copy of a parent has the copy of the child on the way and that of its
sibling as `Left` and `Right`, on the sides they have in the tree. -/
def Chain {P : Type} (H0 h1 : Heap P) :
    Nat → Nat → List Nat → List Nat → List Nat → Prop
  | _, prev, [], [], [] => (h1.cell prev).Parent = none
  | xp, prev, c0 :: cs, e0 :: es, par :: pars =>
    (h1.cell prev).Parent = some c0 ∧
    ((h1.cell e0).Parent = none ∧ (h1.cell e0).Left = none ∧ (h1.cell e0).Right = none) ∧
    (if (H0.cell par).Left = some xp then
      (h1.cell c0).Left = some prev ∧ (h1.cell c0).Right = some e0
    else (h1.cell c0).Right = some prev ∧ (h1.cell c0).Left = some e0) ∧
    Chain H0 h1 par c0 cs es pars
  | _, _, _, _, _ => False

/-! ## The backend with its error results -/

/-- Modelled from the spec: the range-proof backend together with the error result of
`SetupGeneric`: `setupErr a b` tells whether `SetupGeneric(a, b)` returns a non-nil error.
`ProveGeneric` returns no error for any value. -/
structure FaultyBackend (P : Type) where
  base : Backend P
  setupErr : Int → Int → Bool

/-- No node allocated from the address `a` on that stands for more than one user has been
made after an error of `SetupGeneric`. -/
def Clean {P : Type} (F : FaultyBackend P) (d : Int) (a : Nat) (h : Heap P) : Prop :=
  ∀ q, a ≤ q → q < h.next →
    (h.cell q).L = 1 ∨ F.setupErr 0 (wrap64 (d * (h.cell q).L)) = false

/-! ## The level check without the dummy offset -/

/-- The check of one level as the specification states it without the dummy offset: the
six commitments decode, `na.C2 + nb.C2 = root.C2` and
`na.C1 + nb.C1 = root.C1 + Commit(MAX_RANGE_END, 0)`; `none` when a commitment does not
decode. -/
def plainLevelCheck {P : Type} [AddCommGroup P] [DecidableEq P] (B : Backend P)
    (h : Heap P) (root na nb : Nat) : Option Bool :=
  match (h.cell na).C1, (h.cell nb).C1, (h.cell root).C1,
      (h.cell na).C2, (h.cell nb).C2, (h.cell root).C2 with
  | some c1a, some c1b, some c1r, some c2a, some c2b, some c2r =>
    some (decide (c2a + c2b = c2r) &&
      decide (c1a + c1b = c1r + CommitG1 B B.MAX_RANGE_END 0))
  | _, _, _, _, _, _ => none

/-! ## Nodes that do not decode -/

/-- None of the byte fields `Pi`, `C1`, `C2` of the node at `q` decodes. -/
def undecodable {P : Type} (h : Heap P) (q : Nat) : Bool :=
  (h.cell q).Pi.isNone && (h.cell q).C1.isNone && (h.cell q).C2.isNone

/-- The three comparisons of a round of `VerifyProofs` carried out on the variables as
they stand, with nothing decoded into them: `Verify()` is called on the value of `proof`
that the rounds before left there. -/
def VerifyProofs.onVars {P : Type} [DecidableEq P] (B : Backend P) (st : ProofVars P) :
    Option (ProofVars P × Bool) :=
  match st.proof with
  | none => none
  | some pr =>
    match pointEquals (some pr.P1V) st.commit1, pointEquals (some pr.P2V) st.commit2 with
    | some ok1, some ok2 =>
      some (⟨st.proof, st.commit1, st.commit2, true⟩,
        ok1 && ok2 && verifyInPlace B pr st.verified)
    | _, _ => none

/-! ## The tree without its addresses -/

/-- The shape of a tree over user ids, as the specification describes it: a leaf for the
user `k`, or a node over two subtrees. -/
inductive ST where
  | leaf (k : Nat)
  | node (l r : ST)
deriving DecidableEq

/-- The sum of the readings of the users of a shape as the 64-bit additions of
`buildIntermediate` give it, node by node. -/
def ST.val (vs : Nat → Int) : ST → Int
  | ST.leaf k => vs k
  | ST.node l r => wrap64 (l.val vs + r.val vs)

/-- The sum of the blindings of the users of a shape. -/
def ST.seed (rs : Nat → Int) : ST → Int
  | ST.leaf k => rs k
  | ST.node l r => l.seed rs + r.seed rs

/-- The number of users of a shape. -/
def ST.size : ST → Int
  | ST.leaf _ => 1
  | ST.node l r => l.size + r.size

/-- The height of a shape, counted along left children. -/
def ST.hgt : ST → Int
  | ST.leaf _ => 0
  | ST.node l _ => l.hgt + 1

/-- One round of pairing from left to right: neighbours are joined, an odd last shape is
carried over. -/
def pairST : List ST → List ST
  | [] => []
  | [t] => [t]
  | a :: b :: rest => ST.node a b :: pairST rest

/-- Pairing level by level until one node joins the last two shapes; `fuel` bounds the
number of levels. -/
def reduceST : Nat → List ST → Option ST
  | 0, _ => none
  | _ + 1, [a, b] => some (ST.node a b)
  | fuel + 1, ts => reduceST fuel (pairST ts)

/-- A tree with the fields of its nodes and without addresses. -/
inductive DT (P : Type) where
  | leaf (index height size : Int) (C1 C2 : Option P) (Pi : Option (ProofBPRP P))
  | node (height size : Int) (C1 C2 : Option P) (Pi : Option (ProofBPRP P)) (l r : DT P)

/-- The tree for a shape as a function of the readings, the blindings and `d` only: every
node holds the proof and the two commitments for the sum of the readings of its users
under the sum of their blindings, with threshold `d` times the number of its users, and
that number as `L`; the sum of the readings and the threshold are the 64-bit values that
`buildIntermediate` computes. -/
def ST.toDT {P : Type} [AddCommGroup P] (B : Backend P) (vs rs : Nat → Int) (d : Int) :
    ST → DT P
  | ST.leaf k =>
    let proof := ProveGeneric B (vs k) (SetupGeneric 0 d) (rs k)
    DT.leaf (k : Int) 0 1 (some proof.P1V) (some proof.P2V) (some proof)
  | ST.node l r =>
    let v := wrap64 (l.val vs + r.val vs)
    let s := l.seed rs + r.seed rs
    let n := l.size + r.size
    let proof := ProveGeneric B v (SetupGeneric 0 (wrap64 (d * n))) s
    DT.node (l.hgt + 1) n (some proof.P1V) (some proof.P2V) (some proof)
      (l.toDT B vs rs d) (r.toDT B vs rs d)

/-- The tree below the node `n` read off the heap, addresses left out, by a recursion like
that of `GetNumLeaves`; `fuel` bounds the depth of the recursion. -/
def readTree {P : Type} : Nat → Heap P → Nat → Option (DT P)
  | 0, _, _ => none
  | fuel + 1, h, n =>
    if (h.cell n).IsLeaf then
      some (DT.leaf (h.cell n).Index (h.cell n).Height (h.cell n).L (h.cell n).C1
        (h.cell n).C2 (h.cell n).Pi)
    else
      match (h.cell n).Left, (h.cell n).Right with
      | some l, some r =>
        match readTree fuel h l, readTree fuel h r with
        | some a, some b =>
          some (DT.node (h.cell n).Height (h.cell n).L (h.cell n).C1 (h.cell n).C2
            (h.cell n).Pi a b)
        | _, _ => none
      | _, _ => none

/-- The shape of a tree of addresses. -/
def PT.skel : PT → ST
  | PT.leaf _ k => ST.leaf k
  | PT.node _ l r => ST.node l.skel r.skel

/-! ## Inputs in range -/

/-- The integer `x` is the value of an `int64`. -/
def fits64 (x : Int) : Prop := -(2 ^ 63) ≤ x ∧ x < 2 ^ 63

/-- The inputs of a run for the users `0..n-1` leave room in `int64`: the absolute values
of the readings add up to less than `2^63`, and the absolute value of `delta` times `n`
is less than `2^63`. -/
def inRange (n : Nat) (vs : Nat → Int) (delta : Int) : Prop :=
  ((List.range n).map (fun k => ((vs k).natAbs : Int))).sum < 2 ^ 63 ∧
    (delta.natAbs : Int) * (n : Int) < 2 ^ 63

/-- Scenario: build the tree and compare the sum of the `C2` of the two children of the
root with the `C2` of the root. -/
def rootSumsChildren {P : Type} [AddCommGroup P] [DecidableEq P] (B : Backend P)
    (fuel : Nat) (h : Heap P) (order : List Nat) (vs rs : Nat → Int) (d : Int) :
    Option Bool :=
  match BuildTree B fuel h order vs rs d with
  | none => none
  | some (root, h1) =>
    match (h1.cell root).Left, (h1.cell root).Right with
    | some l, some r =>
      pointEquals (pointAdd (h1.cell l).C2 (h1.cell r).C2) (h1.cell root).C2
    | _, _ => none

/-! ## A concrete instance -/

/-- A concrete commitment group for examples: pairs of integers, with `G = (1, 0)`,
`H = (0, 1)`, so that `CommitG1 x r = (x, r)`; `MAX_RANGE_END` is `2^32`, every proof
that has just been decoded verifies, and `Add(a, a)` hands the zero point back. -/
def exampleBackend : Backend (Int × Int) :=
  ⟨(1, 0), (0, 1), 4294967296, fun _ => true, fun _ => (0, 0)⟩

/-- The readings `10, 20, 30, ...` of the users `0, 1, 2, ...`. -/
def exampleReadings : Nat → Int := fun k => 10 * ((k : Int) + 1)

/-- The blindings `7, 8, 9, ...` of the users `0, 1, 2, ...`. -/
def exampleBlindings : Nat → Int := fun k => 7 + (k : Int)

/-- Readings whose sum leaves `int64`: `2^63 - 1` (the largest `int64`) for the user `0`,
then `1`, `5`, and `6` for every further user. -/
def largeReadings : Nat → Int := fun k =>
  if k = 0 then 9223372036854775807 else if k = 1 then 1 else if k = 2 then 5 else 6

/-- A heap for examples. The nodes `0` and `1` hold the proofs for the readings `10` and
`20` under the blindings `7` and `8`, the node `2` the proof for their sum over two
users; the node `3` is a zero-valued `Node`, none of whose byte fields decodes. -/
def exampleHeap : Heap (Int × Int) :=
  let p0 := ProveGeneric exampleBackend 10 (SetupGeneric 0 120) 7
  let p1 := ProveGeneric exampleBackend 20 (SetupGeneric 0 120) 8
  let p2 := ProveGeneric exampleBackend 30 (SetupGeneric 0 240) 15
  ⟨4, fun q =>
    if q = 0 then { C1 := some p0.P1V, C2 := some p0.P2V, Pi := some p0, L := 1 }
    else if q = 1 then { C1 := some p1.P1V, C2 := some p1.P2V, Pi := some p1, L := 1 }
    else if q = 2 then { C1 := some p2.P1V, C2 := some p2.P2V, Pi := some p2, L := 2 }
    else {}⟩

/-- The heap `exampleHeap` with one more node, `4`: its `Pi` is a copy of the `Pi` of the
node `2`, its `C1` and `C2` are empty byte slices, which do not decode. -/
def exampleStale : Heap (Int × Int) :=
  ⟨5, fun q => if q = 4 then { Pi := (exampleHeap.cell 2).Pi } else exampleHeap.cell q⟩

/-- A record of the tree variant over `exampleHeap`: user `0` of two, with reading `10`
and blinding `7`, the sum proof of the two users, and a path whose `Edge` entry is the
node `0` where the sibling `1` belongs. -/
def exampleRecord : TreeUser (Int × Int) :=
  ⟨400, 120, 2, 0, 10, 7, some ⟨[0, 2], [0]⟩,
    some (ProveGeneric exampleBackend 30 (SetupGeneric 400 240) 15)⟩

/-- A record of the tree variant over `exampleHeap` that declares three users, while
the root of its path has been built for two. -/
def exampleWrongCount : TreeUser (Int × Int) :=
  ⟨400, 120, 3, 0, 10, 7, some ⟨[0, 2], [1]⟩,
    some (ProveGeneric exampleBackend 30 (SetupGeneric 400 240) 15)⟩

/-- The record of the user `0` of the flat variant after the honest run for the two users
with the readings `10`, `20` and the blindings `7`, `8`. -/
def exampleFlatUser : FlatUser (Int × Int) :=
  flatRun exampleBackend 2 exampleReadings exampleBlindings 500 120 0

end Zkrp

namespace Zkrp

/-! ## The heap -/

section heap
variable {P : Type}

@[simp] theorem Heap.alloc_fst (h : Heap P) (n : Node P) : (h.alloc n).1 = h.next := rfl

@[simp] theorem Heap.alloc_next (h : Heap P) (n : Node P) :
    (h.alloc n).2.next = h.next + 1 := rfl

theorem Heap.alloc_cell (h : Heap P) (n : Node P) (q : Nat) :
    (h.alloc n).2.cell q = if q = h.next then n else h.cell q := by
  simp [Heap.alloc, Function.update_apply]

@[simp] theorem Heap.modify_next (h : Heap P) (p : Nat) (f : Node P → Node P) :
    (h.modify p f).next = h.next := rfl

theorem Heap.modify_cell (h : Heap P) (p : Nat) (f : Node P → Node P) (q : Nat) :
    (h.modify p f).cell q = if q = p then f (h.cell p) else h.cell q := by
  simp [Heap.modify, Function.update_apply]

end heap

/-! ## Trees in the heap -/


theorem ptrsAll_append (xs ys : List PT) : ptrsAll (xs ++ ys) = ptrsAll xs ++ ptrsAll ys := by
  induction xs with
  | nil => rfl
  | cons t ts ih => simp [ptrsAll, ih]

theorem keysAll_append (xs ys : List PT) : keysAll (xs ++ ys) = keysAll xs ++ keysAll ys := by
  induction xs with
  | nil => rfl
  | cons t ts ih => simp [keysAll, ih]

theorem mem_ptrsAll {ts : List PT} {t : PT} (ht : t ∈ ts) {q : Nat} (hq : q ∈ t.ptrs) :
    q ∈ ptrsAll ts := by
  induction ts with
  | nil => cases ht
  | cons x xs ih =>
    rcases List.mem_cons.1 ht with rfl | h
    · simp [ptrsAll, hq]
    · simp [ptrsAll, ih h]

@[simp] theorem PT.ptr_leaf (p : Nat) (k : Nat) : (PT.leaf p k).ptr = p := rfl

@[simp] theorem PT.ptr_node (p : Nat) (l r : PT) : (PT.node p l r).ptr = p := rfl

theorem PT.ptr_mem_ptrs (t : PT) : t.ptr ∈ t.ptrs := by simp [PT.ptrs]

theorem PT.ptrs_node (p : Nat) (l r : PT) :
    (PT.node p l r).ptrs = p :: (l.ptrs ++ r.ptrs) := rfl

/-- A tree stays in place when its top node keeps all fields but `Parent` and the nodes
below it are untouched. -/
theorem Repr.frame {P : Type} [AddCommGroup P] (B : Backend P) (vs rs : Nat → Int) (d : Int) {h h1 : Heap P} :
    ∀ t : PT, Repr B vs rs d h t →
      (h1.cell t.ptr).strip = (h.cell t.ptr).strip →
      (∀ q ∈ t.kids, h1.cell q = h.cell q) → Repr B vs rs d h1 t
  | PT.leaf p k, hr, hs, _ => by
    simp only [Repr, PT.ptr_leaf] at *
    rw [hs, hr]
  | PT.node p l r, hr, hs, hk => by
    simp only [Repr, PT.ptr_node] at hr hs ⊢
    obtain ⟨h0, hl, hrr, rl, rr⟩ := hr
    have kl : h1.cell l.ptr = h.cell l.ptr := hk _ (by simp [PT.kids])
    have kr : h1.cell r.ptr = h.cell r.ptr := hk _ (by simp [PT.kids])
    refine ⟨by rw [hs, h0], by rw [kl, hl], by rw [kr, hrr], ?_, ?_⟩
    · exact Repr.frame B vs rs d l rl (by rw [kl]) (fun q hq => hk q (by simp [PT.kids, hq]))
    · exact Repr.frame B vs rs d r rr (by rw [kr]) (fun q hq => hk q (by simp [PT.kids, hq]))

/-- A tree stays in place when none of its nodes is touched. -/
theorem Repr.frame_all {P : Type} [AddCommGroup P] (B : Backend P) (vs rs : Nat → Int) (d : Int) {h h1 : Heap P}
    (t : PT) (hr : Repr B vs rs d h t) (hk : ∀ q ∈ t.ptrs, h1.cell q = h.cell q) :
    Repr B vs rs d h1 t :=
  Repr.frame B vs rs d t hr (by rw [hk _ t.ptr_mem_ptrs])
    (fun q hq => hk q (by simp [PT.ptrs, hq]))

theorem Repr.strip_eq {P : Type} [AddCommGroup P] (B : Backend P) (vs rs : Nat → Int) (d : Int) {h : Heap P} :
    ∀ t : PT, Repr B vs rs d h t → (h.cell t.ptr).strip = PT.expect B vs rs d t
  | PT.leaf _ _, hr => hr
  | PT.node _ _ _, hr => hr.1

theorem Node.strip_Height {P : Type} (n : Node P) : n.strip.Height = n.Height := rfl
theorem Node.strip_L {P : Type} (n : Node P) : n.strip.L = n.L := rfl
theorem Node.strip_C1 {P : Type} (n : Node P) : n.strip.C1 = n.C1 := rfl
theorem Node.strip_C2 {P : Type} (n : Node P) : n.strip.C2 = n.C2 := rfl
theorem Node.strip_Pi {P : Type} (n : Node P) : n.strip.Pi = n.Pi := rfl
theorem Node.strip_IsLeaf {P : Type} (n : Node P) : n.strip.IsLeaf = n.IsLeaf := rfl
theorem Node.strip_Left {P : Type} (n : Node P) : n.strip.Left = n.Left := rfl
theorem Node.strip_Right {P : Type} (n : Node P) : n.strip.Right = n.Right := rfl
theorem Node.strip_Index {P : Type} (n : Node P) : n.strip.Index = n.Index := rfl

theorem PT.expect_Height {P : Type} [AddCommGroup P] (B : Backend P) (vs rs : Nat → Int) (d : Int) (t : PT) :
    (PT.expect B vs rs d t).Height = t.hgt := by
  cases t <;> rfl

theorem PT.expect_L {P : Type} [AddCommGroup P] (B : Backend P) (vs rs : Nat → Int) (d : Int) (t : PT) :
    (PT.expect B vs rs d t).L = t.size := by
  cases t <;> rfl

theorem Repr.Height_eq {P : Type} [AddCommGroup P] (B : Backend P) (vs rs : Nat → Int) (d : Int) {h : Heap P}
    (t : PT) (hr : Repr B vs rs d h t) : (h.cell t.ptr).Height = t.hgt := by
  rw [← Node.strip_Height, Repr.strip_eq B vs rs d t hr, PT.expect_Height]

theorem Repr.L_eq {P : Type} [AddCommGroup P] (B : Backend P) (vs rs : Nat → Int) (d : Int) {h : Heap P}
    (t : PT) (hr : Repr B vs rs d h t) : (h.cell t.ptr).L = t.size := by
  rw [← Node.strip_L, Repr.strip_eq B vs rs d t hr, PT.expect_L]

theorem Forest.pair {P : Type} [AddCommGroup P] (B : Backend P) (vs rs : Nat → Int)
    (d : Int) {h : Heap P} {xs ys : List PT} {a b : PT}
    (hf : Forest B vs rs d h (xs ++ a :: b :: ys)) :
    Forest B vs rs d
      (((h.alloc
          { Left := some a.ptr, Right := some b.ptr,
            C1 := some (ProveGeneric B (wrap64 (a.wval vs + b.wval vs))
              (SetupGeneric 0 (wrap64 (d * (a.size + b.size)))) (a.seed rs + b.seed rs)).P1V,
            C2 := some (ProveGeneric B (wrap64 (a.wval vs + b.wval vs))
              (SetupGeneric 0 (wrap64 (d * (a.size + b.size)))) (a.seed rs + b.seed rs)).P2V,
            Pi := some (ProveGeneric B (wrap64 (a.wval vs + b.wval vs))
              (SetupGeneric 0 (wrap64 (d * (a.size + b.size)))) (a.seed rs + b.seed rs)),
            L := a.size + b.size, IsLeaf := false,
            Height := (h.cell a.ptr).Height + 1 }).2.modify a.ptr
          (fun x => { x with Parent := some h.next })).modify b.ptr
          (fun x => { x with Parent := some h.next }))
      (xs ++ PT.node h.next a b :: ys) := by
  obtain ⟨hrep, hnd, hlt⟩ := hf
  have hra : Repr B vs rs d h a := hrep a (by simp)
  have hrb : Repr B vs rs d h b := hrep b (by simp)
  have hlta : ∀ q ∈ a.ptrs, q ≠ h.next := fun q hq =>
    Nat.ne_of_lt (hlt q (mem_ptrsAll (t := a) (by simp) hq))
  have hltb : ∀ q ∈ b.ptrs, q ≠ h.next := fun q hq =>
    Nat.ne_of_lt (hlt q (mem_ptrsAll (t := b) (by simp) hq))
  have hnd0 := hnd
  simp only [ptrsAll_append, ptrsAll, PT.ptrs, List.nodup_append, List.nodup_cons,
    List.mem_append, List.mem_cons, List.disjoint_left, List.cons_append, not_or] at hnd
  obtain ⟨ndx, ⟨⟨na1, na2, na3, na4⟩, nda, ⟨⟨nb1, nb2⟩, ndb, ndy, dby⟩, dab⟩, dx⟩ := hnd
  have hane : a.ptr ≠ h.next := hlta _ a.ptr_mem_ptrs
  have hbne : b.ptr ≠ h.next := hltb _ b.ptr_mem_ptrs
  refine ⟨?_, ?_, ?_⟩
  · intro t ht
    rcases List.mem_append.1 ht with hx | hx
    · -- a tree to the left
      refine Repr.frame_all B vs rs d t (hrep t (by simp [hx])) (fun q hq => ?_)
      have hq1 := dx (mem_ptrsAll hx hq)
      have hq2 : q ≠ h.next := Nat.ne_of_lt (hlt q (mem_ptrsAll (t := t) (by simp [hx]) hq))
      simp [Heap.modify_cell, Heap.alloc_cell, hq1.1, hq1.2.2.1, hq2]
    · rcases List.mem_cons.1 hx with rfl | hy
      · -- the new node
        simp only [Repr, PT.ptr_node]
        refine ⟨?_, ?_, ?_, ?_, ?_⟩
        · simp [Heap.modify_cell, Heap.alloc_cell, hane.symm, hbne.symm, Node.strip,
            PT.expect, Repr.Height_eq B vs rs d a hra]
        · simp [Heap.modify_cell, Heap.alloc_cell, na2]
        · simp [Heap.modify_cell, Heap.alloc_cell]
        · refine Repr.frame B vs rs d a hra ?_ (fun q hq => ?_)
          · simp [Heap.modify_cell, Heap.alloc_cell, na2, hane, Node.strip]
          · have hq1 := dab hq
            have hq2 : q ≠ a.ptr := fun e => na1 (e ▸ hq)
            have hq3 : q ≠ h.next := hlta q (by simp [PT.ptrs, hq])
            simp [Heap.modify_cell, Heap.alloc_cell, hq1.1, hq2, hq3]
        · refine Repr.frame B vs rs d b hrb ?_ (fun q hq => ?_)
          · simp [Heap.modify_cell, Heap.alloc_cell, Ne.symm na2, hbne, Node.strip]
          · have hq1 : q ≠ a.ptr := fun e => na3 (e ▸ hq)
            have hq2 : q ≠ b.ptr := fun e => nb1 (e ▸ hq)
            have hq3 : q ≠ h.next := hltb q (by simp [PT.ptrs, hq])
            simp [Heap.modify_cell, Heap.alloc_cell, hq1, hq2, hq3]
      · -- a tree to the right
        refine Repr.frame_all B vs rs d t (hrep t (by simp [hy])) (fun q hq => ?_)
        have hq0 := mem_ptrsAll hy hq
        have hq1 : q ≠ a.ptr := fun e => na4 (e ▸ hq0)
        have hq2 : q ≠ b.ptr := fun e => nb2 (e ▸ hq0)
        have hq3 : q ≠ h.next :=
          Nat.ne_of_lt (hlt q (mem_ptrsAll (t := t) (by simp [hy]) hq))
        simp [Heap.modify_cell, Heap.alloc_cell, hq1, hq2, hq3]
  · have hperm : (ptrsAll (xs ++ PT.node h.next a b :: ys)).Perm
        (h.next :: ptrsAll (xs ++ a :: b :: ys)) := by
      simp only [ptrsAll_append, ptrsAll, PT.ptrs_node, List.cons_append, List.append_assoc]
      exact List.perm_middle
    rw [hperm.nodup_iff, List.nodup_cons]
    exact ⟨fun hmem => Nat.lt_irrefl _ (hlt _ hmem), hnd0⟩
  · intro q hq
    have hperm : (ptrsAll (xs ++ PT.node h.next a b :: ys)).Perm
        (h.next :: ptrsAll (xs ++ a :: b :: ys)) := by
      simp only [ptrsAll_append, ptrsAll, PT.ptrs_node, List.cons_append, List.append_assoc]
      exact List.perm_middle
    rcases List.mem_cons.1 (hperm.mem_iff.1 hq) with rfl | hq1
    · simp
    · simp only [Heap.modify_next, Heap.alloc_next]
      exact Nat.lt_succ_of_lt (hlt q hq1)

theorem getElem?_mid {α : Type} (pre : List α) (x : α) (rest : List α) :
    (pre ++ x :: rest)[pre.length]? = some x := by
  rw [List.getElem?_append_right (Nat.le_refl _)]
  simp

theorem getElem?_mid1 {α : Type} (pre : List α) (x y : α) (rest : List α) :
    (pre ++ x :: y :: rest)[pre.length + 1]? = some y := by
  rw [List.getElem?_append_right (Nat.le_succ _)]
  simp

theorem getElem?_map_mid {α β : Type} (f : α → β) (pre : List α) (x : α) (rest : List α) :
    (List.map f (pre ++ x :: rest))[pre.length]? = some (f x) := by
  rw [List.getElem?_map, getElem?_mid]
  rfl

theorem getElem?_map_mid1 {α β : Type} (f : α → β) (pre : List α) (x y : α)
    (rest : List α) :
    (List.map f (pre ++ x :: y :: rest))[pre.length + 1]? = some (f y) := by
  rw [List.getElem?_map, getElem?_mid1]
  rfl

/-- The slices of a level whose nodes are the tops of the trees `ts`. -/
theorem buildIntermediateLoop_done {P : Type} [AddCommGroup P] (B : Backend P) (d : Int)
    (ns : List Nat) (vs ls rs : List Int) (gas i : Nat) (acc : Level) (h : Heap P)
    (hi : ns.length ≤ i) :
    buildIntermediateLoop B d ns vs ls rs gas i acc h = some (Sum.inr acc, h) := by
  cases gas <;> simp [buildIntermediateLoop, Nat.not_lt.2 hi]

theorem buildIntermediateLoop_spec {P : Type} [AddCommGroup P] (B : Backend P)
    (vs rs : Nat → Int) (d : Int) (all : List PT) (hall : all.length ≠ 2) :
    ∀ (rest : List PT) (gas : Nat) (pre accT : List PT) (h : Heap P),
      all = pre ++ rest → rest.length ≤ gas → Forest B vs rs d h (accT ++ rest) →
      ∃ h1 : Heap P,
        buildIntermediateLoop B d (all.map PT.ptr) (all.map (PT.wval vs))
            (all.map PT.size) (all.map (PT.seed rs)) gas pre.length
            ⟨accT.map PT.ptr, accT.map (PT.wval vs), accT.map PT.size,
              accT.map (PT.seed rs)⟩ h
          = some (Sum.inr
              ⟨(accT ++ pairUp h.next rest).map PT.ptr,
               (accT ++ pairUp h.next rest).map (PT.wval vs),
               (accT ++ pairUp h.next rest).map PT.size,
               (accT ++ pairUp h.next rest).map (PT.seed rs)⟩, h1) ∧
        Forest B vs rs d h1 (accT ++ pairUp h.next rest) ∧
        h1.next = h.next + rest.length / 2
  | [], gas, pre, accT, h, hpre, _, hf => by
    refine ⟨h, ?_, by simpa [pairUp] using hf, by simp⟩
    rw [buildIntermediateLoop_done _ _ _ _ _ _ _ _ _ _ (by simp [hpre])]
    simp [pairUp]
  | [t], gas + 1, pre, accT, h, hpre, _, hf => by
    refine ⟨h, ?_, by simpa [pairUp] using hf, by simp⟩
    have hlen : all.length = pre.length + 1 := by simp [hpre]
    have hlen2 : pre.length + 1 ≠ 2 := hlen ▸ hall
    rw [buildIntermediateLoop]
    simp only [List.length_map, hlen, Nat.lt_succ_self, if_true, hlen2, if_false]
    subst hpre
    simp only [getElem?_map_mid]
    rw [buildIntermediateLoop_done _ _ _ _ _ _ _ _ _ _ (by simp)]
    simp [pairUp]
  | a :: b :: rest, gas + 1, pre, accT, h, hpre, hgas, hf => by
    have hlen : all.length = pre.length + (rest.length + 2) := by simp [hpre]
    have hlt : pre.length < all.length := by omega
    have hne : pre.length + 1 ≠ all.length := by omega
    have hf1 := Forest.pair B vs rs d hf
    have hra : Repr B vs rs d h a := hf.1 a (by simp)
    obtain ⟨h1, e1, f1, n1⟩ := buildIntermediateLoop_spec B vs rs d all hall rest gas
      (pre ++ [a, b]) (accT ++ [PT.node h.next a b]) _ (by simp [hpre])
      (by simp at hgas; omega) (by simpa using hf1)
    refine ⟨h1, ?_, by simpa [pairUp] using f1, ?_⟩
    · rw [buildIntermediateLoop]
      simp only [List.length_map, hlt, if_true, hne, if_false, hall]
      rw [hpre]
      simp only [getElem?_map_mid, getElem?_map_mid1]
      rw [← hpre]
      simp only [Heap.alloc_fst]
      simp only [List.length_append, List.length_cons, List.length_nil, List.map_append,
        List.map_cons, List.map_nil, Heap.modify_next, Heap.alloc_next, PT.ptr_node,
        PT.wval, PT.size, PT.seed] at e1
      rw [e1]
      simp [pairUp, PT.wval, PT.size, PT.seed]
    · rw [n1]
      have hl2 : (a :: b :: rest).length = rest.length + 2 := rfl
      rw [hl2]
      simp only [Heap.modify_next, Heap.alloc_next]
      have hh : (rest.length + 2) / 2 = rest.length / 2 + 1 := by omega
      rw [hh]
      exact Nat.add_right_comm _ _ _

theorem reduce_of_ne (fuel : Nat) (q : Nat) (ts : List PT) (hne : ts.length ≠ 2) :
    reduce (fuel + 1) q ts = reduce fuel (q + ts.length / 2) (pairUp q ts) := by
  match ts, hne with
  | [], _ => rfl
  | [_], _ => rfl
  | [_, _], hne => exact absurd rfl hne
  | _ :: _ :: _ :: _, _ => rfl

theorem keysAll_pairUp : ∀ (q : Nat) (ts : List PT), keysAll (pairUp q ts) = keysAll ts
  | _, [] => rfl
  | _, [_] => rfl
  | q, a :: b :: rest => by
    simp [pairUp, keysAll, PT.keys, keysAll_pairUp (q + 1) rest]

theorem length_pairUp : ∀ (q : Nat) (ts : List PT), (pairUp q ts).length = (ts.length + 1) / 2
  | _, [] => rfl
  | _, [_] => by simp [pairUp]
  | q, a :: b :: rest => by
    simp only [pairUp, List.length_cons, length_pairUp (q + 1) rest]
    omega

/-- With at most one tree on the level the recursion never comes to an end. -/
theorem reduce_short (q : Nat) (ts : List PT) (hlen : ts.length ≤ 1) :
    ∀ fuel : Nat, reduce fuel q ts = none
  | 0 => rfl
  | fuel + 1 => by
    match ts, hlen with
    | [], _ => exact reduce_short _ [] (by simp) fuel
    | [t], _ => exact reduce_short _ [t] (by simp) fuel

/-- With two trees or more on the level the recursion ends, within as many rounds as
there are trees. -/
theorem reduce_some : ∀ (fuel : Nat) (q : Nat) (ts : List PT), 2 ≤ ts.length →
    ts.length ≤ fuel → ∃ t, reduce fuel q ts = some t ∧ t.keys = keysAll ts
  | 0, _, ts, h2, hf => by omega
  | fuel + 1, q, ts, h2, hf => by
    by_cases hlen : ts.length = 2
    · match ts, hlen with
      | [a, b], _ => exact ⟨_, rfl, by simp [PT.keys, keysAll]⟩
    · rw [reduce_of_ne fuel q ts hlen]
      obtain ⟨t, ht, hk⟩ := reduce_some fuel (q + ts.length / 2) (pairUp q ts)
        (by rw [length_pairUp]; omega) (by rw [length_pairUp]; omega)
      exact ⟨t, ht, by rw [hk, keysAll_pairUp]⟩

theorem buildIntermediate_two {P : Type} [AddCommGroup P] (B : Backend P)
    (vs rs : Nat → Int) (d : Int) (fuel : Nat) (h : Heap P) (a b : PT)
    (hf : Forest B vs rs d h [a, b]) :
    ∃ h1 : Heap P,
      buildIntermediate B (fuel + 1) h [a.ptr, b.ptr] [a.wval vs, b.wval vs]
        [a.size, b.size] [a.seed rs, b.seed rs] d = some (h.next, h1) ∧
      Forest B vs rs d h1 [PT.node h.next a b] ∧ h1.next = h.next + 1 := by
  have hf1 := @Forest.pair P _ B vs rs d h [] [] a b hf
  refine ⟨_, ?_, hf1, rfl⟩
  simp [buildIntermediate, buildIntermediateLoop, SetupGeneric]

theorem buildIntermediate_spec {P : Type} [AddCommGroup P] (B : Backend P)
    (vs rs : Nat → Int) (d : Int) :
    ∀ (fuel : Nat) (ts : List PT) (h : Heap P), Forest B vs rs d h ts →
      match reduce fuel h.next ts with
      | none =>
        buildIntermediate B fuel h (ts.map PT.ptr) (ts.map (PT.wval vs)) (ts.map PT.size)
          (ts.map (PT.seed rs)) d = none
      | some t =>
        ∃ h1 : Heap P,
          buildIntermediate B fuel h (ts.map PT.ptr) (ts.map (PT.wval vs))
            (ts.map PT.size) (ts.map (PT.seed rs)) d = some (t.ptr, h1) ∧
          Forest B vs rs d h1 [t] ∧ h.next ≤ h1.next
  | 0, ts, h, _ => by simp [reduce, buildIntermediate]
  | fuel + 1, ts, h, hf => by
    by_cases hlen : ts.length = 2
    · match ts, hlen with
      | [a, b], _ =>
        obtain ⟨h1, e1, f1, n1⟩ := buildIntermediate_two B vs rs d fuel h a b hf
        simp only [reduce]
        exact ⟨h1, e1, f1, by omega⟩
    · rw [reduce_of_ne fuel h.next ts hlen]
      obtain ⟨h1, e1, f1, n1⟩ := buildIntermediateLoop_spec B vs rs d ts hlen ts ts.length
        [] [] h rfl (Nat.le_refl _) (by simpa using hf)
      have ih := buildIntermediate_spec B vs rs d fuel (pairUp h.next ts) h1
        (by simpa using f1)
      rw [n1] at ih
      have e2 : buildIntermediate B (fuel + 1) h (ts.map PT.ptr) (ts.map (PT.wval vs))
          (ts.map PT.size) (ts.map (PT.seed rs)) d
          = buildIntermediate B fuel h1 ((pairUp h.next ts).map PT.ptr)
            ((pairUp h.next ts).map (PT.wval vs)) ((pairUp h.next ts).map PT.size)
            ((pairUp h.next ts).map (PT.seed rs)) d := by
        rw [buildIntermediate]
        simp only [List.length_map]
        simp only [List.map_nil, List.length_nil, List.nil_append] at e1
        rw [e1]
      rw [e2]
      cases hr : reduce fuel (h.next + ts.length / 2) (pairUp h.next ts) with
      | none => simpa [hr] using ih
      | some t =>
        rw [hr] at ih
        obtain ⟨h2, e3, f3, n3⟩ := ih
        exact ⟨h2, e3, f3, by omega⟩

theorem set_map_range {α : Type} (f : Nat → α) (n k : Nat) (v : α) :
    ((List.range n).map f).set k v = (List.range n).map (Function.update f k v) := by
  apply List.ext_getElem?
  intro i
  rw [List.getElem?_set, List.getElem?_map, List.getElem?_map]
  by_cases hki : k = i
  · subst hki
    by_cases hk : k < n
    · simp [hk, List.getElem?_range]
    · have hnone : (List.range n)[k]? = none :=
        List.getElem?_eq_none (by simpa using hk)
      simp [hk, hnone]
  · by_cases hi : i < n
    · simp [hki, hi, List.getElem?_range, Function.update_apply, Ne.symm hki]
    · have hnone : (List.range n)[i]? = none :=
        List.getElem?_eq_none (by simpa using hi)
      simp [hki, hnone]

theorem BuildTree.step_spec {P : Type} [AddCommGroup P] (B : Backend P) (vs rs : Nat → Int)
    (d : Int) (n : Nat) (loc : Nat → Option Nat) (st : LeafSlices × Heap P) (k : Nat)
    (hk : k < n) (hinv : LeafInv B vs rs d n loc st) :
    ∃ st1, BuildTree.step B vs rs d n st k = some st1 ∧
      LeafInv B vs rs d n (Function.update loc k (some st.2.next)) st1 ∧
      st.2.next ≤ st1.2.next := by
  obtain ⟨e1, e2, e3, e4, hc, hi⟩ := hinv
  simp only [BuildTree.step, hk, if_true]
  refine ⟨_, rfl, ⟨?_, ?_, ?_, ?_, ?_, ?_⟩, ?_⟩
  · simp only [e1, buildLeaf, Heap.alloc_fst, set_map_range]
  · simp only [e2, set_map_range]
    apply List.map_congr_left
    intro i _
    by_cases hik : i = k <;> simp [Function.update_apply, hik]
  · simp only [e3, set_map_range]
    apply List.map_congr_left
    intro i _
    by_cases hik : i = k <;> simp [Function.update_apply, hik]
  · simp only [e4, set_map_range]
    apply List.map_congr_left
    intro i _
    by_cases hik : i = k <;> simp [Function.update_apply, hik]
  · intro i p hp
    simp only [buildLeaf, Heap.alloc_fst, Heap.modify_next, Heap.alloc_next]
    by_cases hik : i = k
    · subst hik
      simp only [Function.update_same, Option.some.injEq] at hp
      subst hp
      refine ⟨Nat.lt_succ_self _, ?_⟩
      simp [Heap.modify_cell, Heap.alloc_cell, Node.strip, PT.expect]
    · simp only [Function.update_noteq hik] at hp
      obtain ⟨hlt, hs⟩ := hc i p hp
      refine ⟨Nat.lt_succ_of_lt hlt, ?_⟩
      simp [Heap.modify_cell, Heap.alloc_cell, Nat.ne_of_lt hlt, hs]
  · intro k1 k2 p h1 h2
    by_cases hk1 : k1 = k <;> by_cases hk2 : k2 = k
    · rw [hk1, hk2]
    · subst hk1
      simp only [Function.update_same, Option.some.injEq, Function.update_noteq hk2] at h1 h2
      subst h1
      exact absurd (hc k2 _ h2).1 (Nat.lt_irrefl _)
    · subst hk2
      simp only [Function.update_same, Option.some.injEq, Function.update_noteq hk1] at h1 h2
      subst h2
      exact absurd (hc k1 _ h1).1 (Nat.lt_irrefl _)
    · simp only [Function.update_noteq hk1, Function.update_noteq hk2] at h1 h2
      exact hi k1 k2 p h1 h2
  · simp [buildLeaf]

theorem BuildTree.loop_inv {P : Type} [AddCommGroup P] (B : Backend P) (vs rs : Nat → Int)
    (d : Int) (n : Nat) :
    ∀ (ks : List Nat) (loc : Nat → Option Nat) (st : LeafSlices × Heap P),
      (∀ k ∈ ks, k < n) → LeafInv B vs rs d n loc st →
      ∃ st1 loc1, BuildTree.loop B vs rs d n ks st = some st1 ∧
        LeafInv B vs rs d n loc1 st1 ∧ (∀ k ∈ ks, (loc1 k).isSome) ∧
        (∀ k, (loc k).isSome → (loc1 k).isSome) ∧ st.2.next ≤ st1.2.next
  | [], loc, st, _, hinv => ⟨st, loc, rfl, hinv, by simp, fun _ h => h, Nat.le_refl _⟩
  | k :: ks, loc, st, hks, hinv => by
    obtain ⟨st1, e1, inv1, n1⟩ :=
      BuildTree.step_spec B vs rs d n loc st k (hks k (by simp)) hinv
    obtain ⟨st2, loc2, e2, inv2, a2, m2, n2⟩ :=
      BuildTree.loop_inv B vs rs d n ks _ st1 (fun j hj => hks j (by simp [hj])) inv1
    refine ⟨st2, loc2, by simp [BuildTree.loop, e1, e2], inv2, ?_, ?_, by omega⟩
    · intro j hj
      rcases List.mem_cons.1 hj with rfl | hj
      · exact m2 _ (by simp)
      · exact a2 j hj
    · intro j hj
      apply m2
      by_cases hjk : j = k
      · subst hjk
        rw [Function.update_same]
        rfl
      · rw [Function.update_noteq hjk]
        exact hj

theorem nonNil_map (loc : Nat → Option Nat) :
    ∀ l : List Nat, (∀ k ∈ l, (loc k).isSome) →
      nonNil (l.map loc) = some (l.map (fun k => (loc k).getD 0))
  | [], _ => rfl
  | k :: ks, hl => by
    have hk := hl k (by simp)
    obtain ⟨p, hp⟩ := Option.isSome_iff_exists.1 hk
    simp [nonNil, hp, nonNil_map loc ks (fun j hj => hl j (by simp [hj]))]

theorem ptrsAll_leaves (f : Nat → Nat) :
    ∀ l : List Nat, ptrsAll (l.map (fun k => PT.leaf (f k) k)) = l.map f
  | [] => rfl
  | k :: ks => by simp [ptrsAll, PT.ptrs, PT.kids, ptrsAll_leaves f ks]

theorem keysAll_leaves (f : Nat → Nat) :
    ∀ l : List Nat, keysAll (l.map (fun k => PT.leaf (f k) k)) = l
  | [] => rfl
  | k :: ks => by simp [keysAll, PT.keys, keysAll_leaves f ks]

/-- The loop of `BuildTree` leaves one leaf per key on the heap; what `BuildTree` returns
is what `buildIntermediate` makes of them. -/
theorem BuildTree_leaves {P : Type} [AddCommGroup P] (B : Backend P) (vs rs : Nat → Int)
    (d : Int) (n : Nat) (order : List Nat) (hperm : order.Perm (List.range n))
    (h : Heap P) :
    ∃ (ts : List PT) (h1 : Heap P),
      Forest B vs rs d h1 ts ∧ keysAll ts = List.range n ∧ ts.length = n ∧
      h.next ≤ h1.next ∧
      ∀ fuel, BuildTree B fuel h order vs rs d =
        buildIntermediate B fuel h1 (ts.map PT.ptr) (ts.map (PT.wval vs))
          (ts.map PT.size) (ts.map (PT.seed rs)) d := by
  have hlen : order.length = n := by simpa using hperm.length_eq
  have hmem : ∀ k, k ∈ order ↔ k < n := fun k => by simp [hperm.mem_iff]
  have inv0 : LeafInv B vs rs d n (fun _ => none)
      ((⟨List.replicate n none, List.replicate n 0, List.replicate n 0,
        List.replicate n 0⟩ : LeafSlices), h) := by
    refine ⟨?_, ?_, ?_, ?_, ?_, ?_⟩ <;> simp [List.map_const']
  obtain ⟨st1, loc1, e1, ⟨l1, l2, l3, l4, hc, hi⟩, a1, _, n1⟩ :=
    BuildTree.loop_inv B vs rs d n order _ _ (fun k hk => (hmem k).1 hk) inv0
  have hall : ∀ k ∈ List.range n, (loc1 k).isSome := fun k hk =>
    a1 k ((hmem k).2 (List.mem_range.1 hk))
  have hloc : ∀ k ∈ List.range n, loc1 k = some ((loc1 k).getD 0) := fun k hk => by
    obtain ⟨p, hp⟩ := Option.isSome_iff_exists.1 (hall k hk)
    simp [hp]
  refine ⟨leafTrees loc1 n, st1.2, ⟨?_, ?_, ?_⟩, ?_, ?_, n1, ?_⟩
  · intro t ht
    obtain ⟨k, hk, rfl⟩ := List.mem_map.1 ht
    exact (hc k _ (hloc k hk)).2
  · rw [leafTrees, ptrsAll_leaves]
    refine List.Nodup.map_on ?_ (List.nodup_range n)
    intro x hx y hy hxy
    exact hi x y _ (hloc x hx) (hxy ▸ hloc y hy)
  · intro p hp
    rw [leafTrees, ptrsAll_leaves] at hp
    obtain ⟨k, hk, rfl⟩ := List.mem_map.1 hp
    exact (hc k _ (hloc k hk)).1
  · rw [leafTrees, keysAll_leaves]
  · simp [leafTrees]
  · intro fuel
    simp only [BuildTree, hlen, e1, l1, l2, l3, l4, nonNil_map loc1 _ hall]
    simp only [leafTrees, List.map_map]
    congr 1
    · apply List.map_congr_left
      intro k hk
      simp [hall k hk, PT.wval]
    · apply List.map_congr_left
      intro k hk
      simp [hall k hk, PT.size]
    · apply List.map_congr_left
      intro k hk
      simp [hall k hk, PT.seed]

/-! ## Traversals -/

theorem Repr.shape {P : Type} [AddCommGroup P] (B : Backend P) (vs rs : Nat → Int)
    (d : Int) {h : Heap P} : ∀ t : PT, Repr B vs rs d h t → Shape h t
  | PT.leaf p k, hr => by
    have h1 := congrArg Node.IsLeaf hr
    have h2 := congrArg Node.Index hr
    exact ⟨h1, h2⟩
  | PT.node p l r, hr => by
    obtain ⟨h0, hl, hrr, rl, rr⟩ := hr
    have h1 := congrArg Node.IsLeaf h0
    have h2 := congrArg Node.Left h0
    have h3 := congrArg Node.Right h0
    exact ⟨h1, h2, h3, hl, hrr, Repr.shape B vs rs d l rl, Repr.shape B vs rs d r rr⟩

theorem GetLeaf_spec {P : Type} {h : Heap P} (i : Int) :
    ∀ (t : PT) (fuel : Nat), Shape h t → t.depth < fuel →
      GetLeaf fuel h t.ptr i = some (t.find i)
  | PT.leaf p k, fuel + 1, hs, _ => by
    simp only [GetLeaf, PT.ptr_leaf, hs.1, hs.2, if_true, PT.find]
    split <;> rfl
  | PT.node p l r, fuel + 1, hs, hd => by
    obtain ⟨s1, s2, s3, _, _, s6, s7⟩ := hs
    have hdl : l.depth < fuel := by simp only [PT.depth] at hd; omega
    have hdr : r.depth < fuel := by simp only [PT.depth] at hd; omega
    simp only [GetLeaf, PT.ptr_node, s1, s2, s3, GetLeaf_spec i l fuel s6 hdl,
      GetLeaf_spec i r fuel s7 hdr, PT.find]
    cases l.find i <;> cases r.find i <;> simp

theorem GetNumLeaves_spec {P : Type} {h : Heap P} :
    ∀ (t : PT) (fuel : Nat), Shape h t → t.depth < fuel →
      GetNumLeaves fuel h t.ptr = some t.size
  | PT.leaf p k, fuel + 1, hs, _ => by
    simp [GetNumLeaves, hs.1, PT.size]
  | PT.node p l r, fuel + 1, hs, hd => by
    obtain ⟨s1, s2, s3, _, _, s6, s7⟩ := hs
    have hdl : l.depth < fuel := by simp only [PT.depth] at hd; omega
    have hdr : r.depth < fuel := by simp only [PT.depth] at hd; omega
    simp [GetNumLeaves, s1, s2, s3, GetNumLeaves_spec l fuel s6 hdl,
      GetNumLeaves_spec r fuel s7 hdr, PT.size]

theorem PT.size_eq_length : ∀ t : PT, t.size = (t.keys.length : Int)
  | PT.leaf _ _ => rfl
  | PT.node _ l r => by
    simp [PT.size, PT.keys, PT.size_eq_length l, PT.size_eq_length r]

theorem PT.depth_lt_length : ∀ t : PT, t.depth < t.keys.length
  | PT.leaf _ _ => by simp [PT.depth, PT.keys]
  | PT.node _ l r => by
    have hl := PT.depth_lt_length l
    have hr := PT.depth_lt_length r
    simp only [PT.depth, PT.keys, List.length_append]
    omega

theorem index?_last {α : Type} (l : List α) (x : α) :
    index? (l ++ [x]) (((l ++ [x]).length : Int) - 1) = some x := by
  have h1 : ((l ++ [x]).length : Int) - 1 = (l.length : Int) := by simp
  rw [h1, index?]
  simp

theorem index?_prev {α : Type} (l : List α) (x y : α) :
    index? (l ++ [x] ++ [y]) (((l ++ [x] ++ [y]).length : Int) - 2) = some x := by
  have h1 : ((l ++ [x] ++ [y]).length : Int) - 2 = (l.length : Int) := by
    simp only [List.length_append, List.length_singleton, Nat.cast_add, Nat.cast_one]
    omega
  rw [h1, index?]
  simp only [Int.toNat_ofNat, List.append_assoc, List.singleton_append]
  rw [if_neg (by omega), getElem?_mid]

theorem Node.dat_setLeft {P : Type} (n : Node P) (v : Option Nat) :
    ({ n with Left := v } : Node P).dat = n.dat := rfl
theorem Node.dat_setRight {P : Type} (n : Node P) (v : Option Nat) :
    ({ n with Right := v } : Node P).dat = n.dat := rfl
theorem Node.dat_setParent {P : Type} (n : Node P) (v : Option Nat) :
    ({ n with Parent := v } : Node P).dat = n.dat := rfl
theorem Node.dat_setIsLeaf {P : Type} (n : Node P) (v : Bool) :
    ({ n with IsLeaf := v } : Node P).dat = n.dat := rfl

/-- An assignment that keeps the copied fields of a node keeps them in every cell. -/
theorem Heap.modify_dat {P : Type} (h : Heap P) (p : Nat) (f : Node P → Node P)
    (hf : ∀ n, (f n).dat = n.dat) (q : Nat) :
    ((h.modify p f).cell q).dat = (h.cell q).dat := by
  rw [Heap.modify_cell]
  split
  · rename_i hq
    rw [hf, hq]
  · rfl

/-- One round of the loop of `MerklePath`, coming up from a left child. -/
theorem MerklePath.loop_left {P : Type} (root : Nat) (fuel : Nat) (h : Heap P)
    (cNode pN r : Nat) (init : List Nat) (lastc : Nat) (edge : List Nat)
    (hroot : cNode ≠ root) (hpar : (h.cell cNode).Parent = some pN)
    (hleft : (h.cell pN).Left = some cNode) (hright : (h.cell pN).Right = some r)
    (hp : pN < h.next) (hr : r < h.next) :
    ∃ h7 : Heap P,
      MerklePath.loop root (fuel + 1) h cNode (init ++ [lastc]) edge =
        MerklePath.loop root fuel h7 pN (init ++ [lastc] ++ [h.next])
          (edge ++ [h.next + 1]) ∧
      h7.next = h.next + 2 ∧
      (∀ q, q < h.next → q ≠ lastc → h7.cell q = h.cell q) ∧
      (∀ q, q < h.next → (h7.cell q).dat = (h.cell q).dat) ∧
      (h7.cell h.next).dat = (h.cell pN).dat ∧
      (h7.cell (h.next + 1)).dat = (h.cell r).dat := by
  have hpn : pN ≠ h.next := Nat.ne_of_lt hp
  have hrn : r ≠ h.next := Nat.ne_of_lt hr
  rw [MerklePath.loop]
  simp only [hroot, if_false, hpar, CopyNode, Heap.alloc_fst, Heap.alloc_cell, hpn,
    hleft, if_true, hright, index?_last, index?_prev, Heap.alloc_next, hrn]
  refine ⟨_, rfl, ?_, ?_, ?_, ?_, ?_⟩
  · simp
  · intro q hq hql
    have h1 : q ≠ h.next := Nat.ne_of_lt hq
    have h2 : q ≠ h.next + 1 := by omega
    simp [Heap.modify_cell, Heap.alloc_cell, CopyNode, h1, h2, hql]
  · intro q hq
    have h1 : q ≠ h.next := Nat.ne_of_lt hq
    have h2 : q ≠ h.next + 1 := by omega
    simp only [Heap.modify_dat _ _ _ (fun n => Node.dat_setLeft n _),
      Heap.modify_dat _ _ _ (fun n => Node.dat_setRight n _),
      Heap.modify_dat _ _ _ (fun n => Node.dat_setParent n _),
      Heap.modify_dat _ _ _ (fun n => Node.dat_setIsLeaf n _)]
    simp [CopyNode, Heap.alloc_cell, h1, h2]
  · simp only [Heap.modify_dat _ _ _ (fun n => Node.dat_setLeft n _),
      Heap.modify_dat _ _ _ (fun n => Node.dat_setRight n _),
      Heap.modify_dat _ _ _ (fun n => Node.dat_setParent n _),
      Heap.modify_dat _ _ _ (fun n => Node.dat_setIsLeaf n _)]
    simp [CopyNode, Heap.alloc_cell, Node.dat]
  · simp only [Heap.modify_dat _ _ _ (fun n => Node.dat_setLeft n _),
      Heap.modify_dat _ _ _ (fun n => Node.dat_setRight n _),
      Heap.modify_dat _ _ _ (fun n => Node.dat_setParent n _),
      Heap.modify_dat _ _ _ (fun n => Node.dat_setIsLeaf n _)]
    simp [CopyNode, Heap.alloc_cell, Node.dat, hrn]

/-- One round of the loop of `MerklePath`, coming up from a right child. -/
theorem MerklePath.loop_right {P : Type} (root : Nat) (fuel : Nat) (h : Heap P)
    (cNode pN l : Nat) (init : List Nat) (lastc : Nat) (edge : List Nat)
    (hroot : cNode ≠ root) (hpar : (h.cell cNode).Parent = some pN)
    (hleft : (h.cell pN).Left = some l) (hne : cNode ≠ l)
    (hright : (h.cell pN).Right = some cNode)
    (hp : pN < h.next) (hl : l < h.next) :
    ∃ h7 : Heap P,
      MerklePath.loop root (fuel + 1) h cNode (init ++ [lastc]) edge =
        MerklePath.loop root fuel h7 pN (init ++ [lastc] ++ [h.next])
          (edge ++ [h.next + 1]) ∧
      h7.next = h.next + 2 ∧
      (∀ q, q < h.next → q ≠ lastc → h7.cell q = h.cell q) ∧
      (∀ q, q < h.next → (h7.cell q).dat = (h.cell q).dat) ∧
      (h7.cell h.next).dat = (h.cell pN).dat ∧
      (h7.cell (h.next + 1)).dat = (h.cell l).dat := by
  have hpn : pN ≠ h.next := Nat.ne_of_lt hp
  have hln : l ≠ h.next := Nat.ne_of_lt hl
  rw [MerklePath.loop]
  simp only [hroot, if_false, hpar, CopyNode, Heap.alloc_fst, Heap.alloc_cell, hpn,
    hleft, Option.some.injEq, hne, if_true, hright, index?_last, index?_prev,
    Heap.alloc_next, hln]
  refine ⟨_, rfl, ?_, ?_, ?_, ?_, ?_⟩
  · simp
  · intro q hq hql
    have h1 : q ≠ h.next := Nat.ne_of_lt hq
    have h2 : q ≠ h.next + 1 := by omega
    simp [Heap.modify_cell, Heap.alloc_cell, h1, h2, hql]
  · intro q hq
    have h1 : q ≠ h.next := Nat.ne_of_lt hq
    have h2 : q ≠ h.next + 1 := by omega
    simp only [Heap.modify_dat _ _ _ (fun n => Node.dat_setLeft n _),
      Heap.modify_dat _ _ _ (fun n => Node.dat_setRight n _),
      Heap.modify_dat _ _ _ (fun n => Node.dat_setParent n _),
      Heap.modify_dat _ _ _ (fun n => Node.dat_setIsLeaf n _)]
    simp [Heap.alloc_cell, h1, h2]
  · simp only [Heap.modify_dat _ _ _ (fun n => Node.dat_setLeft n _),
      Heap.modify_dat _ _ _ (fun n => Node.dat_setRight n _),
      Heap.modify_dat _ _ _ (fun n => Node.dat_setParent n _),
      Heap.modify_dat _ _ _ (fun n => Node.dat_setIsLeaf n _)]
    simp [Heap.alloc_cell, Node.dat]
  · simp only [Heap.modify_dat _ _ _ (fun n => Node.dat_setLeft n _),
      Heap.modify_dat _ _ _ (fun n => Node.dat_setRight n _),
      Heap.modify_dat _ _ _ (fun n => Node.dat_setParent n _),
      Heap.modify_dat _ _ _ (fun n => Node.dat_setIsLeaf n _)]
    simp [Heap.alloc_cell, Node.dat]

/-! ## The way up -/

theorem Up.sub_shape {P : Type} {h : Heap P} {root x : PT} {c : List (PT × PT)}
    (hup : Up root x c) (hs : Shape h root) : Shape h x := by
  induction hup with
  | top => exact hs
  | left _ ih => exact ih.2.2.2.2.2.1
  | right _ ih => exact ih.2.2.2.2.2.2

theorem Up.sub_repr {P : Type} [AddCommGroup P] {B : Backend P} {vs rs : Nat → Int} {d : Int}
    {h : Heap P} {root x : PT} {c : List (PT × PT)}
    (hup : Up root x c) (hs : Repr B vs rs d h root) : Repr B vs rs d h x := by
  induction hup with
  | top => exact hs
  | left _ ih => exact ih.2.2.2.1
  | right _ ih => exact ih.2.2.2.2

theorem Up.ptrs_subset {root x : PT} {c : List (PT × PT)} (hup : Up root x c) :
    ∀ q ∈ x.ptrs, q ∈ root.ptrs := by
  induction hup with
  | top => exact fun _ h => h
  | left _ ih =>
    intro q hq
    apply ih
    simp only [PT.ptrs, PT.kids, List.mem_cons, List.mem_append, PT.ptr_node] at hq ⊢
    tauto
  | right _ ih =>
    intro q hq
    apply ih
    simp only [PT.ptrs, PT.kids, List.mem_cons, List.mem_append, PT.ptr_node] at hq ⊢
    tauto

theorem Up.ptrs_kids {root x : PT} {c : List (PT × PT)} (hup : Up root x c) :
    c ≠ [] → ∀ q ∈ x.ptrs, q ∈ root.kids := by
  induction hup with
  | top => exact fun h => absurd rfl h
  | @left p l r c hpar ih =>
    intro _ q hq
    cases hpar with
    | top => simp only [PT.ptrs, PT.kids, List.mem_cons, List.mem_append] at hq ⊢; tauto
    | left h1 =>
      apply ih (by simp)
      simp only [PT.ptrs, PT.kids, List.mem_cons, List.mem_append, PT.ptr_node] at hq ⊢
      tauto
    | right h1 =>
      apply ih (by simp)
      simp only [PT.ptrs, PT.kids, List.mem_cons, List.mem_append, PT.ptr_node] at hq ⊢
      tauto
  | @right p l r c hpar ih =>
    intro _ q hq
    cases hpar with
    | top => simp only [PT.ptrs, PT.kids, List.mem_cons, List.mem_append] at hq ⊢; tauto
    | left h1 =>
      apply ih (by simp)
      simp only [PT.ptrs, PT.kids, List.mem_cons, List.mem_append, PT.ptr_node] at hq ⊢
      tauto
    | right h1 =>
      apply ih (by simp)
      simp only [PT.ptrs, PT.kids, List.mem_cons, List.mem_append, PT.ptr_node] at hq ⊢
      tauto

theorem Up.nodup {root x : PT} {c : List (PT × PT)} (hup : Up root x c)
    (hnd : root.ptrs.Nodup) : x.ptrs.Nodup := by
  induction hup with
  | top => exact hnd
  | left _ ih =>
    have h1 := ih
    rw [PT.ptrs_node, List.nodup_cons, List.nodup_append] at h1
    exact h1.2.1
  | right _ ih =>
    have h1 := ih
    rw [PT.ptrs_node, List.nodup_cons, List.nodup_append] at h1
    exact h1.2.2.1

theorem Up.length_le {root x : PT} {c : List (PT × PT)} (hup : Up root x c) :
    c.length + x.depth ≤ root.depth := by
  induction hup with
  | top => simp
  | left _ ih => simp only [PT.depth, List.length_cons] at ih ⊢; omega
  | right _ ih => simp only [PT.depth, List.length_cons] at ih ⊢; omega

theorem Up.ptr_ne_root {root x : PT} {c : List (PT × PT)} (hup : Up root x c)
    (hnd : root.ptrs.Nodup) (hc : c ≠ []) : x.ptr ≠ root.ptr := by
  intro he
  have h1 := hup.ptrs_kids hc x.ptr x.ptr_mem_ptrs
  rw [PT.ptrs, List.nodup_cons] at hnd
  exact hnd.1 (he ▸ h1)

/-- The loop of `MerklePath`, started at a subtree `x` of the tree the heap `H0` holds,
appends one copy per ancestor of `x` to `core` and one copy per sibling on the way to
`edge`, and leaves the cells of `H0` alone. -/
theorem MerklePath.loop_spec {P : Type} (H0 : Heap P) (root : PT) (hs : Shape H0 root)
    (hnd : root.ptrs.Nodup) (hlt : ∀ q ∈ root.ptrs, q < H0.next)
    {x : PT} {c : List (PT × PT)} (hup : Up root x c) :
    ∀ (fuel : Nat) (h : Heap P) (init : List Nat) (lastc : Nat) (edge : List Nat),
      c.length < fuel → H0.next ≤ h.next → H0.next ≤ lastc →
      (∀ q, q < H0.next → h.cell q = H0.cell q) →
      ∃ (cs es : List Nat) (h1 : Heap P),
        MerklePath.loop root.ptr fuel h x.ptr (init ++ [lastc]) edge =
          some (⟨init ++ [lastc] ++ cs, edge ++ es⟩, h1) ∧
        (∀ q, q < H0.next → h1.cell q = H0.cell q) ∧
        (∀ q, q < h.next → (h1.cell q).dat = (h.cell q).dat) ∧
        cs.map (fun q => (h1.cell q).dat) = c.map (fun s => (H0.cell s.1.ptr).dat) ∧
        es.map (fun q => (h1.cell q).dat) = c.map (fun s => (H0.cell s.2.ptr).dat) ∧
        h.next ≤ h1.next := by
  induction hup with
  | top =>
    intro fuel h init lastc edge hfuel _ _ hfr
    obtain ⟨f, rfl⟩ : ∃ f, fuel = f + 1 := ⟨fuel - 1, by simp at hfuel; omega⟩
    exact ⟨[], [], h, by simp [MerklePath.loop], hfr, fun _ _ => rfl, rfl, rfl,
      Nat.le_refl _⟩
  | @left p l r c hpar ih =>
    intro fuel h init lastc edge hfuel hn hlast hfr
    obtain ⟨f, rfl⟩ : ∃ f, fuel = f + 1 := ⟨fuel - 1, by simp at hfuel; omega⟩
    have hsp : Shape H0 (PT.node p l r) := hpar.sub_shape hs
    obtain ⟨_, s2, s3, s4, _, _, _⟩ := hsp
    have hup : Up root l ((PT.node p l r, r) :: c) := Up.left hpar
    have hne : l.ptr ≠ root.ptr := hup.ptr_ne_root hnd (by simp)
    have hpl : p < H0.next := hlt p (hpar.ptrs_subset p (by simp [PT.ptrs]))
    have hll : l.ptr < H0.next := hlt _ (hup.ptrs_subset _ l.ptr_mem_ptrs)
    have hrl : r.ptr < H0.next :=
      hlt _ (hpar.ptrs_subset _ (by simp [PT.ptrs, PT.kids]))
    obtain ⟨h7, e7, n7, fr7, d7, dc, de⟩ := MerklePath.loop_left root.ptr f h l.ptr p
      r.ptr init lastc edge hne (by rw [hfr _ hll, s4]) (by rw [hfr _ hpl, s2])
      (by rw [hfr _ hpl, s3]) (by omega) (by omega)
    obtain ⟨cs, es, h1, e1, fr1, d1, dcs, des, n1⟩ := ih f h7 (init ++ [lastc]) h.next
      (edge ++ [h.next + 1]) (by simp at hfuel; omega) (by omega) hn
      (fun q hq => by rw [fr7 q (by omega) (by omega), hfr q hq])
    refine ⟨h.next :: cs, (h.next + 1) :: es, h1, ?_, fr1, ?_, ?_, ?_, by omega⟩
    · simp only [PT.ptr_node] at e1
      rw [e7, e1]
      simp
    · intro q hq
      rw [d1 q (by omega), d7 q hq]
    · simp only [List.map_cons, PT.ptr_node, dcs]
      rw [d1 _ (by omega), dc, hfr _ hpl]
    · simp only [List.map_cons, des]
      rw [d1 _ (by omega), de, hfr _ hrl]
  | @right p l r c hpar ih =>
    intro fuel h init lastc edge hfuel hn hlast hfr
    obtain ⟨f, rfl⟩ : ∃ f, fuel = f + 1 := ⟨fuel - 1, by simp at hfuel; omega⟩
    have hsp : Shape H0 (PT.node p l r) := hpar.sub_shape hs
    obtain ⟨_, s2, s3, _, s5, _, _⟩ := hsp
    have hup : Up root r ((PT.node p l r, l) :: c) := Up.right hpar
    have hne : r.ptr ≠ root.ptr := hup.ptr_ne_root hnd (by simp)
    have hpl : p < H0.next := hlt p (hpar.ptrs_subset p (by simp [PT.ptrs]))
    have hrl : r.ptr < H0.next := hlt _ (hup.ptrs_subset _ r.ptr_mem_ptrs)
    have hll : l.ptr < H0.next :=
      hlt _ (hpar.ptrs_subset _ (by simp [PT.ptrs, PT.kids]))
    have hlr : r.ptr ≠ l.ptr := by
      have h1 := hpar.nodup hnd
      rw [PT.ptrs_node, List.nodup_cons, List.nodup_append] at h1
      intro he
      exact List.disjoint_left.1 h1.2.2.2 l.ptr_mem_ptrs (he ▸ r.ptr_mem_ptrs)
    obtain ⟨h7, e7, n7, fr7, d7, dc, de⟩ := MerklePath.loop_right root.ptr f h r.ptr p
      l.ptr init lastc edge hne (by rw [hfr _ hrl, s5]) (by rw [hfr _ hpl, s2]) hlr
      (by rw [hfr _ hpl, s3]) (by omega) (by omega)
    obtain ⟨cs, es, h1, e1, fr1, d1, dcs, des, n1⟩ := ih f h7 (init ++ [lastc]) h.next
      (edge ++ [h.next + 1]) (by simp at hfuel; omega) (by omega) hn
      (fun q hq => by rw [fr7 q (by omega) (by omega), hfr q hq])
    refine ⟨h.next :: cs, (h.next + 1) :: es, h1, ?_, fr1, ?_, ?_, ?_, by omega⟩
    · simp only [PT.ptr_node] at e1
      rw [e7, e1]
      simp
    · intro q hq
      rw [d1 q (by omega), d7 q hq]
    · simp only [List.map_cons, PT.ptr_node, dcs]
      rw [d1 _ (by omega), dc, hfr _ hpl]
    · simp only [List.map_cons, des]
      rw [d1 _ (by omega), de, hfr _ hll]

/-- The path `MerklePath` returns for a subtree `x` of the tree the heap holds: copies
of `x` and of its ancestors in `Core`, copies of the siblings in `Edge`. -/
theorem MerklePath_spec {P : Type} (h : Heap P) (root : PT) (hs : Shape h root)
    (hnd : root.ptrs.Nodup) (hlt : ∀ q ∈ root.ptrs, q < h.next)
    {x : PT} {c : List (PT × PT)} (hup : Up root x c) (fuel : Nat)
    (hfuel : c.length < fuel) :
    ∃ (path : Path) (h1 : Heap P),
      MerklePath fuel h root.ptr x.ptr = some (path, h1) ∧
      (∀ q, q < h.next → h1.cell q = h.cell q) ∧
      path.Core.map (fun q => (h1.cell q).dat) =
        (h.cell x.ptr).dat :: c.map (fun s => (h.cell s.1.ptr).dat) ∧
      path.Edge.map (fun q => (h1.cell q).dat) = c.map (fun s => (h.cell s.2.ptr).dat) := by
  have hxl : x.ptr < h.next := hlt _ (hup.ptrs_subset _ x.ptr_mem_ptrs)
  obtain ⟨cs, es, h1, e1, fr1, d1, dcs, des, _⟩ := MerklePath.loop_spec h root hs hnd hlt
    hup fuel ((CopyNode h x.ptr).2.modify (CopyNode h x.ptr).1
      (fun n => { n with IsLeaf := true })) [] h.next [] hfuel (by simp [CopyNode])
    (Nat.le_refl _) (fun q hq => by
      simp [Heap.modify_cell, Heap.alloc_cell, CopyNode, Nat.ne_of_lt hq])
  refine ⟨⟨h.next :: cs, es⟩, h1, ?_, fr1, ?_, ?_⟩
  · simp only [MerklePath]
    simpa [CopyNode] using e1
  · simp only [List.nil_append, List.singleton_append, List.map_cons, dcs, List.nil_append]
    rw [d1 _ (by simp [CopyNode])]
    simp [Heap.modify_cell, Heap.alloc_cell, CopyNode, Node.dat]
  · simpa using des

/-! ## Verifying a path -/

theorem verifyCommitmentSumWith_congr {P : Type} [AddCommGroup P] [DecidableEq P]
    (B : Backend P) (dummy : Int) (h h1 : Heap P) (r a b r1 a1 b1 : Nat) (delta : Int)
    (hr : (h1.cell r1).dat = (h.cell r).dat) (ha : (h1.cell a1).dat = (h.cell a).dat)
    (hb : (h1.cell b1).dat = (h.cell b).dat) :
    verifyCommitmentSumWith B dummy h1 r1 a1 b1 delta =
      verifyCommitmentSumWith B dummy h r a b delta := by
  have r1' : (h1.cell r1).C1 = (h.cell r).C1 := congrArg (fun x => x.1) hr
  have r2' : (h1.cell r1).C2 = (h.cell r).C2 := congrArg (fun x => x.2.1) hr
  have a1' : (h1.cell a1).C1 = (h.cell a).C1 := congrArg (fun x => x.1) ha
  have a2' : (h1.cell a1).C2 = (h.cell a).C2 := congrArg (fun x => x.2.1) ha
  have b1' : (h1.cell b1).C1 = (h.cell b).C1 := congrArg (fun x => x.1) hb
  have b2' : (h1.cell b1).C2 = (h.cell b).C2 := congrArg (fun x => x.2.1) hb
  simp only [verifyCommitmentSumWith, r1', r2', a1', a2', b1', b2']

/-- The verdict of `verifyCommitmentSum` on three nodes whose commitments decode. -/
theorem verifyCommitmentSumWith_some {P : Type} [AddCommGroup P] [DecidableEq P]
    (B : Backend P) (dummy : Int) (h : Heap P) (r a b : Nat) (delta : Int)
    (c1r c2r c1a c2a c1b c2b : P)
    (h1 : (h.cell r).C1 = some c1r) (h2 : (h.cell r).C2 = some c2r)
    (h3 : (h.cell a).C1 = some c1a) (h4 : (h.cell a).C2 = some c2a)
    (h5 : (h.cell b).C1 = some c1b) (h6 : (h.cell b).C2 = some c2b) :
    verifyCommitmentSumWith B dummy h r a b delta =
      some (decide (c2a + c2b = c2r) &&
        decide (c1a + c1b + CommitG1 B (dummy - B.MAX_RANGE_END) dummy =
          c1r + CommitG1 B dummy dummy)) := by
  simp only [verifyCommitmentSumWith, h1, h2, h3, h4, h5, h6, pointAdd, pointEquals]
  by_cases hc : c2a + c2b = c2r <;> simp [hc]

theorem CommitG1_add {P : Type} [AddCommGroup P] (B : Backend P) (x y r s : Int) :
    CommitG1 B x r + CommitG1 B y s = CommitG1 B (x + y) (r + s) := by
  simp only [CommitG1, add_smul]
  abel

/-- Where nothing wraps around, the value carried for a node is the sum of the readings
below it. -/
theorem PT.wval_of_fits (vs : Nat → Int) (d : Int) :
    ∀ t : PT, t.fits vs d → t.wval vs = t.val vs
  | PT.leaf _ _, _ => rfl
  | PT.node _ l r, hf => by
    simp only [PT.wval, PT.val, PT.wval_of_fits vs d l hf.1, PT.wval_of_fits vs d r hf.2.1,
      hf.2.2.1]

/-- Where nothing wraps around, the bound of the range proof of a node is `d` times the
number of leaves below it. -/
theorem PT.thr_of_fits (vs : Nat → Int) (d : Int) :
    ∀ t : PT, t.fits vs d → t.thr d = d * t.size
  | PT.leaf _ _, _ => by simp [PT.thr, PT.size]
  | PT.node _ l r, hf => by simp only [PT.thr, PT.size, hf.2.2.2]

theorem PT.expect_C1 {P : Type} [AddCommGroup P] (B : Backend P) (vs rs : Nat → Int)
    (d : Int) (t : PT) :
    (PT.expect B vs rs d t).C1 =
      some (CommitG1 B (t.wval vs - t.thr d + B.MAX_RANGE_END) (t.seed rs)) := by
  cases t <;> simp [PT.expect, ProveGeneric, SetupGeneric, PT.wval, PT.thr, PT.size, PT.seed]

theorem PT.expect_C2 {P : Type} [AddCommGroup P] (B : Backend P) (vs rs : Nat → Int)
    (d : Int) (t : PT) :
    (PT.expect B vs rs d t).C2 = some (CommitG1 B (t.wval vs) (t.seed rs)) := by
  cases t <;> simp [PT.expect, ProveGeneric, SetupGeneric, PT.wval, PT.size, PT.seed]

/-- The `C1` that `BuildTree` stores, wrap-around included. -/
theorem Repr.C1_stored {P : Type} [AddCommGroup P] (B : Backend P) (vs rs : Nat → Int)
    (d : Int) {h : Heap P} (t : PT) (hr : Repr B vs rs d h t) :
    (h.cell t.ptr).C1 =
      some (CommitG1 B (t.wval vs - t.thr d + B.MAX_RANGE_END) (t.seed rs)) := by
  rw [← Node.strip_C1, Repr.strip_eq B vs rs d t hr, PT.expect_C1]

/-- The `C2` that `BuildTree` stores, wrap-around included. -/
theorem Repr.C2_stored {P : Type} [AddCommGroup P] (B : Backend P) (vs rs : Nat → Int)
    (d : Int) {h : Heap P} (t : PT) (hr : Repr B vs rs d h t) :
    (h.cell t.ptr).C2 = some (CommitG1 B (t.wval vs) (t.seed rs)) := by
  rw [← Node.strip_C2, Repr.strip_eq B vs rs d t hr, PT.expect_C2]

theorem Repr.C1_eq {P : Type} [AddCommGroup P] (B : Backend P) (vs rs : Nat → Int)
    (d : Int) {h : Heap P} (t : PT) (hr : Repr B vs rs d h t) (hf : t.fits vs d) :
    (h.cell t.ptr).C1 =
      some (CommitG1 B (t.val vs - d * t.size + B.MAX_RANGE_END) (t.seed rs)) := by
  rw [Repr.C1_stored B vs rs d t hr, PT.wval_of_fits vs d t hf, PT.thr_of_fits vs d t hf]

theorem Repr.C2_eq {P : Type} [AddCommGroup P] (B : Backend P) (vs rs : Nat → Int)
    (d : Int) {h : Heap P} (t : PT) (hr : Repr B vs rs d h t) (hf : t.fits vs d) :
    (h.cell t.ptr).C2 = some (CommitG1 B (t.val vs) (t.seed rs)) := by
  rw [Repr.C2_stored B vs rs d t hr, PT.wval_of_fits vs d t hf]

theorem Up.sub_fits {vs : Nat → Int} {d : Int} {root x : PT} {c : List (PT × PT)}
    (hup : Up root x c) (hf : root.fits vs d) : x.fits vs d := by
  induction hup with
  | top => exact hf
  | left _ ih => exact ih.1
  | right _ ih => exact ih.2.1

/-- The adjusted sum of the two `C1` of the children of a node equals the adjusted `C1`
of the node: the equality `adjC1sum.Equals(adjC1root)`. -/
theorem C1_balance {P : Type} [AddCommGroup P] (B : Backend P) (dummy d : Int)
    (va vb ra rb la lb : Int) :
    CommitG1 B (va - d * la + B.MAX_RANGE_END) ra +
        CommitG1 B (vb - d * lb + B.MAX_RANGE_END) rb +
        CommitG1 B (dummy - B.MAX_RANGE_END) dummy =
      CommitG1 B (va + vb - d * (la + lb) + B.MAX_RANGE_END) (ra + rb) +
        CommitG1 B dummy dummy := by
  rw [CommitG1_add, CommitG1_add, CommitG1_add]
  congr 1
  ring

/-- On an honestly built node the check of `verifyCommitmentSum` against its two
children succeeds, whichever child is on the path. -/
theorem verify_node {P : Type} [AddCommGroup P] [DecidableEq P] (B : Backend P)
    (vs rs : Nat → Int) (d : Int) {h : Heap P} (p : Nat) (l r : PT)
    (hr : Repr B vs rs d h (PT.node p l r)) (hf : (PT.node p l r).fits vs d)
    (dummy delta : Int) :
    verifyCommitmentSumWith B dummy h p l.ptr r.ptr delta = some true ∧
    verifyCommitmentSumWith B dummy h p r.ptr l.ptr delta = some true := by
  have c1 := Repr.C1_eq B vs rs d _ hr hf
  have c2 := Repr.C2_eq B vs rs d _ hr hf
  have l1 := Repr.C1_eq B vs rs d l hr.2.2.2.1 hf.1
  have l2 := Repr.C2_eq B vs rs d l hr.2.2.2.1 hf.1
  have r1 := Repr.C1_eq B vs rs d r hr.2.2.2.2 hf.2.1
  have r2 := Repr.C2_eq B vs rs d r hr.2.2.2.2 hf.2.1
  simp only [PT.ptr_node, PT.val, PT.size, PT.seed] at c1 c2
  have k2 := CommitG1_add B (PT.val vs l) (PT.val vs r) (PT.seed rs l) (PT.seed rs r)
  have k1 := C1_balance B dummy d (PT.val vs l) (PT.val vs r) (PT.seed rs l)
    (PT.seed rs r) l.size r.size
  constructor
  · rw [verifyCommitmentSumWith_some B dummy h p l.ptr r.ptr delta _ _ _ _ _ _
      c1 c2 l1 l2 r1 r2]
    simp [k1, k2]
  · rw [verifyCommitmentSumWith_some B dummy h p r.ptr l.ptr delta _ _ _ _ _ _
      c1 c2 r1 r2 l1 l2]
    rw [add_comm (CommitG1 B (PT.val vs r) _), add_comm (CommitG1 B (PT.val vs r - _ + _) _)]
    simp [k1, k2]

theorem levels_honest {P : Type} [AddCommGroup P] [DecidableEq P] (B : Backend P)
    (vs rs : Nat → Int) (d : Int) {h : Heap P} (delta : Int) {root x : PT}
    {c : List (PT × PT)} (hup : Up root x c) (hr : Repr B vs rs d h root)
    (hf : root.fits vs d) :
    firstFail (levels B h delta x c) = some true := by
  induction hup with
  | top => rfl
  | @left p l r c hpar ih =>
    have hn := (verify_node B vs rs d p l r (hpar.sub_repr hr) (hpar.sub_fits hf) 10
      delta).1
    simp only [levels, PT.ptr_node, verifyCommitmentSum, hn, firstFail, ih]
  | @right p l r c hpar ih =>
    have hn := (verify_node B vs rs d p l r (hpar.sub_repr hr) (hpar.sub_fits hf) 10
      delta).2
    simp only [levels, PT.ptr_node, verifyCommitmentSum, hn, firstFail, ih]

/-- The loop of `VerifyStructure` on a path of copies gives the verdict of the checks on
the nodes the copies were taken from. -/
theorem VerifyStructure.loop_eq {P : Type} [AddCommGroup P] [DecidableEq P]
    (B : Backend P) (h h1 : Heap P) (delta : Int) :
    ∀ (c : List (PT × PT)) (x : PT) (gas : Nat) (preC restC preE restE : List Nat),
      preC.length = preE.length → c.length ≤ gas →
      restC.map (fun q => (h1.cell q).dat) =
        (h.cell x.ptr).dat :: c.map (fun s => (h.cell s.1.ptr).dat) →
      restE.map (fun q => (h1.cell q).dat) = c.map (fun s => (h.cell s.2.ptr).dat) →
      VerifyStructure.loop B h1 ⟨preC ++ restC, preE ++ restE⟩ delta gas preC.length =
        firstFail (levels B h delta x c)
  | [], x, gas, preC, restC, preE, restE, hlen, _, _, hE => by
    have hE0 : restE = [] := by simpa using hE
    subst hE0
    cases gas <;> simp [VerifyStructure.loop, hlen, levels, firstFail]
  | (par, sib) :: c, x, gas + 1, preC, restC, preE, restE, hlen, hgas, hC, hE => by
    match restC, restE, hC, hE with
    | [], _, hC, _ => simp at hC
    | [_], _, hC, _ => simp at hC
    | _ :: _ :: _, [], _, hE => simp at hE
    | a :: b :: restC1, e :: restE1, hC, hE =>
      simp only [List.map_cons, List.cons.injEq] at hC hE
      obtain ⟨ha, hb, hC1⟩ := hC
      obtain ⟨he, hE1⟩ := hE
      have ih := VerifyStructure.loop_eq B h h1 delta c par gas (preC ++ [a]) (b :: restC1)
        (preE ++ [e]) restE1 (by simp [hlen]) (by simp at hgas; omega)
        (by simp [hb, hC1]) hE1
      have hlt : preC.length < (preE ++ e :: restE1).length := by simp [hlen]
      have hcongr := verifyCommitmentSumWith_congr B 10 h h1 par.ptr x.ptr sib.ptr b a e
        delta hb ha he
      rw [VerifyStructure.loop]
      simp only [hlt, if_true, getElem?_mid, getElem?_mid1]
      rw [hlen, getElem?_mid, ← hlen]
      simp only [verifyCommitmentSum, hcongr, levels]
      simp only [List.length_append, List.length_singleton, List.append_assoc,
        List.singleton_append] at ih
      rw [ih]
      cases verifyCommitmentSumWith B 10 h par.ptr x.ptr sib.ptr delta with
      | none => rfl
      | some v => cases v <;> rfl

theorem VerifyStructure_eq_levels {P : Type} [AddCommGroup P] [DecidableEq P]
    (B : Backend P) (h h1 : Heap P) (delta : Int) (c : List (PT × PT)) (x : PT)
    (path : Path)
    (hC : path.Core.map (fun q => (h1.cell q).dat) =
      (h.cell x.ptr).dat :: c.map (fun s => (h.cell s.1.ptr).dat))
    (hE : path.Edge.map (fun q => (h1.cell q).dat) =
      c.map (fun s => (h.cell s.2.ptr).dat)) :
    VerifyStructure B h1 path delta = firstFail (levels B h delta x c) := by
  have hlen : path.Edge.length = c.length := by
    simpa using congrArg List.length hE
  have := VerifyStructure.loop_eq B h h1 delta c x path.Edge.length [] path.Core []
    path.Edge rfl (by omega) hC hE
  simpa [VerifyStructure] using this

theorem Up.append_left {l x : PT} {c : List (PT × PT)} (hup : Up l x c) (p : Nat)
    (r : PT) : Up (PT.node p l r) x (c ++ [(PT.node p l r, r)]) := by
  induction hup with
  | top => exact Up.left Up.top
  | left _ ih => exact Up.left ih
  | right _ ih => exact Up.right ih

theorem Up.append_right {r x : PT} {c : List (PT × PT)} (hup : Up r x c) (p : Nat)
    (l : PT) : Up (PT.node p l r) x (c ++ [(PT.node p l r, l)]) := by
  induction hup with
  | top => exact Up.right Up.top
  | left _ ih => exact Up.left ih
  | right _ ih => exact Up.right ih

/-- The way up computed by `PT.chain` starts at the leaf that `GetLeaf` finds. -/
theorem PT.chain_up (i : Int) :
    ∀ (t : PT) (c : List (PT × PT)), t.chain i = some c →
      ∃ (p k : Nat), (k : Int) = i ∧ t.find i = some p ∧ Up t (PT.leaf p k) c
  | PT.leaf p k, c, hc => by
    simp only [PT.chain] at hc
    split at hc
    · rename_i hk
      simp only [Option.some.injEq] at hc
      subst hc
      exact ⟨p, k, hk, by simp [PT.find, hk], Up.top⟩
    · cases hc
  | PT.node p l r, c, hc => by
    simp only [PT.chain] at hc
    cases hl : l.chain i with
    | some cl =>
      rw [hl] at hc
      simp only [Option.some.injEq] at hc
      subst hc
      obtain ⟨q, k, hk, hf, hu⟩ := PT.chain_up i l cl hl
      exact ⟨q, k, hk, by simp [PT.find, hf], hu.append_left p r⟩
    | none =>
      rw [hl] at hc
      cases hr : r.chain i with
      | some cr =>
        rw [hr] at hc
        simp only [Option.some.injEq] at hc
        subst hc
        obtain ⟨q, k, hk, hf, hu⟩ := PT.chain_up i r cr hr
        have hfl : l.find i = none := by
          cases hfl : l.find i with
          | none => rfl
          | some q1 =>
            exfalso
            have : ∀ (t : PT), t.chain i = none → t.find i = none := by
              intro t
              induction t with
              | leaf p k =>
                simp only [PT.chain, PT.find]
                split <;> simp
              | node p l r ihl ihr =>
                simp only [PT.chain, PT.find]
                cases h1 : l.chain i with
                | some _ => simp
                | none =>
                  cases h2 : r.chain i with
                  | some _ => simp
                  | none => simp [ihl h1, ihr h2]
            rw [this l hl] at hfl
            cases hfl
        exact ⟨q, k, hk, by simp [PT.find, hfl, hf], hu.append_right p l⟩
      | none =>
        rw [hr] at hc
        cases hc

theorem PT.chain_of_mem (k : Nat) :
    ∀ t : PT, k ∈ t.keys → ∃ c, t.chain (k : Int) = some c
  | PT.leaf p j, hk => by
    simp only [PT.keys, List.mem_singleton] at hk
    subst hk
    exact ⟨[], by simp [PT.chain]⟩
  | PT.node p l r, hk => by
    simp only [PT.keys, List.mem_append] at hk
    cases hl : l.chain (k : Int) with
    | some cl => exact ⟨cl ++ [(PT.node p l r, r)], by simp [PT.chain, hl]⟩
    | none =>
      rcases hk with hk | hk
      · obtain ⟨c, hc⟩ := PT.chain_of_mem k l hk
        rw [hl] at hc
        cases hc
      · obtain ⟨c, hc⟩ := PT.chain_of_mem k r hk
        exact ⟨c ++ [(PT.node p l r, l)], by simp [PT.chain, hl, hc]⟩

/-- What `BuildTree` returns for two users or more: the address of the top of a tree
that the heap holds, with the user ids `0..n-1` at its leaves from left to right. -/
theorem BuildTree_spec {P : Type} [AddCommGroup P] (B : Backend P) (vs rs : Nat → Int)
    (d : Int) (n : Nat) (hn : 2 ≤ n) (order : List Nat)
    (hperm : order.Perm (List.range n)) (h : Heap P) (fuel : Nat) (hfuel : n ≤ fuel) :
    ∃ (t : PT) (h2 : Heap P),
      BuildTree B fuel h order vs rs d = some (t.ptr, h2) ∧ Repr B vs rs d h2 t ∧
      t.ptrs.Nodup ∧ (∀ q ∈ t.ptrs, q < h2.next) ∧ t.keys = List.range n := by
  obtain ⟨ts, h1, hf, hk, hl, _, hb⟩ := BuildTree_leaves B vs rs d n order hperm h
  obtain ⟨t, ht, htk⟩ := reduce_some fuel h1.next ts (by omega) (by omega)
  have hspec := buildIntermediate_spec B vs rs d fuel ts h1 hf
  rw [ht] at hspec
  obtain ⟨h2, e2, ⟨f1, f2, f3⟩, _⟩ := hspec
  refine ⟨t, h2, by rw [hb, e2], f1 t (by simp), ?_, ?_, by rw [htk, hk]⟩
  · simpa [ptrsAll] using f2
  · simpa [ptrsAll] using f3

/-! ## Runs without wrap-around -/

theorem PT.val_eq_sumOver (f : Nat → Int) :
    ∀ t : PT, t.val f = sumOver f (t.keys.map (fun (k : Nat) => (k : Int)))
  | PT.leaf _ k => by simp [PT.val, PT.keys, sumOver]
  | PT.node _ l r => by
    have hl := PT.val_eq_sumOver f l
    have hr := PT.val_eq_sumOver f r
    simp only [sumOver] at hl hr
    simp [PT.val, PT.keys, sumOver, hl, hr]

theorem PT.seed_eq_val (f : Nat → Int) : ∀ t : PT, t.seed f = t.val f
  | PT.leaf _ _ => rfl
  | PT.node _ l r => by simp [PT.val, PT.seed, PT.seed_eq_val f l, PT.seed_eq_val f r]

theorem sumOver_range (f : Nat → Int) (n : Nat) :
    sumOver f ((List.range n).map (fun (k : Nat) => (k : Int))) =
      ((List.range n).map f).sum := by
  simp only [sumOver, List.map_map]
  congr 1

theorem wrap64_of_bounds (x : Int) (h1 : -(2 ^ 63) ≤ x) (h2 : x < 2 ^ 63) :
    wrap64 x = x := by
  unfold wrap64
  rw [Int.emod_eq_of_lt (by omega) (by omega)]
  omega

theorem wrap64_of_fits (x : Int) (h : fits64 x) : wrap64 x = x :=
  wrap64_of_bounds x h.1 h.2

/-- Wrapping one operand of a sum first does not change the wrapped sum. -/
theorem wrap64_add_wrap (a b : Int) : wrap64 (wrap64 a + b) = wrap64 (a + b) := by
  unfold wrap64
  have e : (a + 2 ^ 63) % 2 ^ 64 - 2 ^ 63 + b + 2 ^ 63 = (a + 2 ^ 63) % 2 ^ 64 + b := by
    ring
  rw [e, Int.emod_add_emod]
  congr 2
  ring

theorem sum_natAbs_le (vs : Nat → Int) (n : Nat) :
    -((List.range n).map (fun k => ((vs k).natAbs : Int))).sum ≤ ((List.range n).map vs).sum ∧
      ((List.range n).map vs).sum ≤ ((List.range n).map (fun k => ((vs k).natAbs : Int))).sum := by
  induction n with
  | zero => simp
  | succ n ih =>
    simp only [List.range_succ, List.map_append, List.sum_append, List.map_cons,
      List.map_nil, List.sum_cons, List.sum_nil, add_zero]
    omega

/-- In a run whose inputs are in range the `int` sum of the readings is their sum. -/
theorem inRange.sum_fits {n : Nat} {vs : Nat → Int} {d : Int} (hin : inRange n vs d) :
    wrap64 ((List.range n).map vs).sum = ((List.range n).map vs).sum := by
  have := sum_natAbs_le vs n
  have := hin.1
  exact wrap64_of_bounds _ (by omega) (by omega)

/-- A product lies between plus and minus the product with the absolute value. -/
theorem natAbs_mul_bounds (d s : Int) (hs : 0 ≤ s) :
    -((d.natAbs : Int) * s) ≤ d * s ∧ d * s ≤ (d.natAbs : Int) * s := by
  rcases le_total 0 d with h | h
  · have e : (d.natAbs : Int) = d := by omega
    have h0 : 0 ≤ d * s := mul_nonneg h hs
    rw [e]
    omega
  · have e : (d.natAbs : Int) = -d := by omega
    have h0 : 0 ≤ -d * s := mul_nonneg (by omega) hs
    have e2 : -d * s = -(d * s) := by ring
    rw [e]
    omega

/-- In a run whose inputs are in range the `int64` product `delta * n` is exact. -/
theorem inRange.thr_fits {n : Nat} {vs : Nat → Int} {d : Int} (hin : inRange n vs d) :
    wrap64 (d * (n : Int)) = d * (n : Int) := by
  have h0 := natAbs_mul_bounds d (n : Int) (by omega)
  have := hin.2
  exact wrap64_of_bounds _ (by omega) (by omega)

theorem PT.size_pos : ∀ t : PT, 0 < t.size
  | PT.leaf _ _ => by simp [PT.size]
  | PT.node _ l r => by
    have := PT.size_pos l
    have := PT.size_pos r
    simp only [PT.size]
    omega

theorem PT.val_abs_le (vs : Nat → Int) :
    ∀ t : PT, -(t.val (fun k => ((vs k).natAbs : Int))) ≤ t.val vs ∧
      t.val vs ≤ t.val (fun k => ((vs k).natAbs : Int))
  | PT.leaf _ k => by
    simp only [PT.val]
    omega
  | PT.node _ l r => by
    have hl := PT.val_abs_le vs l
    have hr := PT.val_abs_le vs r
    simp only [PT.val]
    omega

/-- A tree whose readings add up, in absolute value, to less than `2^63`, built for a
`d` whose absolute value times the number of leaves is below `2^63`: no sum and no
product computed for it wraps around. -/
theorem PT.fits_of_bound (vs : Nat → Int) (d : Int) :
    ∀ t : PT, t.val (fun k => ((vs k).natAbs : Int)) < 2 ^ 63 →
      (d.natAbs : Int) * t.size < 2 ^ 63 → t.fits vs d
  | PT.leaf _ _, _, _ => trivial
  | PT.node _ l r, hv, hs => by
    have al := PT.val_abs_le vs l
    have ar := PT.val_abs_le vs r
    have pl := PT.size_pos l
    have pr := PT.size_pos r
    simp only [PT.val, PT.size] at hv hs
    have hd : (0 : Int) ≤ (d.natAbs : Int) := by omega
    have hdl : (d.natAbs : Int) * l.size ≤ (d.natAbs : Int) * (l.size + r.size) :=
      mul_le_mul_of_nonneg_left (by omega) hd
    have hdr : (d.natAbs : Int) * r.size ≤ (d.natAbs : Int) * (l.size + r.size) :=
      mul_le_mul_of_nonneg_left (by omega) hd
    have hb := natAbs_mul_bounds d (l.size + r.size) (by omega)
    refine ⟨PT.fits_of_bound vs d l (by omega) (by omega),
      PT.fits_of_bound vs d r (by omega) (by omega),
      wrap64_of_bounds _ (by omega) (by omega), wrap64_of_bounds _ (by omega) (by omega)⟩

/-- The tree for the users `0..n-1` of a run whose inputs are in range. -/
theorem PT.fits_of_inRange (n : Nat) (vs : Nat → Int) (d : Int) (hin : inRange n vs d)
    (t : PT) (hk : t.keys = List.range n) : t.fits vs d := by
  obtain ⟨h1, h3⟩ := hin
  refine PT.fits_of_bound vs d t ?_ ?_
  · rw [PT.val_eq_sumOver, hk, sumOver_range]
    exact h1
  · rw [PT.size_eq_length, hk, List.length_range]
    exact h3

/-! ## The claims -/

/-- C1 (counterexample): two users with the readings `2^63 - 1` and `1`, `delta = 120`.
The `int` sum `vs[0] + vs[1]` that `buildIntermediate` computes for the root wraps around
to `-2^63`, the root commits to that, and `VerifyStructure` returns `false` on the path
of the leaf of user `0` of the honestly built tree. -/
theorem C1_counterexample :
    wrap64 (largeReadings 0 + largeReadings 1) = -9223372036854775808 ∧
    buildAndVerify exampleBackend 2 (Heap.empty _) [0, 1] largeReadings exampleBlindings
      120 ((0 : Nat) : Int) = some false := by
  refine ⟨by decide, by decide⟩

/-- C1 (as amended): in the commitment model, for `n ≥ 2` users with ids `0..n-1`
(yielded by the map iteration in any order), blindings of any size, and readings and
`delta` in range (the absolute values of the readings add up to less than `2^63`,
`|delta| * n < 2^63`, so that no `int` or `int64` result wraps around), and
every id `i < n`: building the tree, looking the leaf of `i` up with `GetLeaf`,
extracting its path with `MerklePath` and running `VerifyStructure(delta)` on it returns
`true`; `n` rounds of recursion are enough for every function involved. -/
theorem C1_honest_path_verifies {P : Type} [AddCommGroup P] [DecidableEq P]
    (B : Backend P) (n : Nat) (hn : 2 ≤ n) (order : List Nat)
    (hperm : order.Perm (List.range n)) (vs rs : Nat → Int) (delta : Int)
    (hin : inRange n vs delta) (h : Heap P)
    (fuel : Nat) (hfuel : n ≤ fuel) (i : Nat) (hi : i < n) :
    buildAndVerify B fuel h order vs rs delta (i : Int) = some true := by
  obtain ⟨t, h2, e2, hr, hnd, hlt, hk⟩ :=
    BuildTree_spec B vs rs delta n hn order hperm h fuel hfuel
  have hlen : t.keys.length = n := by rw [hk, List.length_range]
  have hdepth : t.depth < fuel := by
    have := t.depth_lt_length
    omega
  obtain ⟨c, hc⟩ := PT.chain_of_mem i t (by rw [hk]; exact List.mem_range.2 hi)
  obtain ⟨p, k, _, hfind, hup⟩ := PT.chain_up (i : Int) t c hc
  have hcl : c.length < fuel := by
    have := hup.length_le
    omega
  have hs := Repr.shape B vs rs delta t hr
  obtain ⟨path, h3, e3, _, hC, hE⟩ := MerklePath_spec h2 t hs hnd hlt hup fuel hcl
  simp only [PT.ptr_leaf] at e3 hC
  simp only [buildAndVerify, e2, GetLeaf_spec (i : Int) t fuel hs hdepth, hfind, e3]
  rw [VerifyStructure_eq_levels B h2 h3 delta c (PT.leaf p k) path hC hE]
  exact levels_honest B vs rs delta delta hup hr (PT.fits_of_inRange n vs delta hin t hk)

theorem C1_honest_path_verifies_witness :
    buildAndVerify exampleBackend 3 (Heap.empty _) [2, 0, 1] exampleReadings
      exampleBlindings 120 ((1 : Nat) : Int) = some true :=
  C1_honest_path_verifies exampleBackend 3 (by decide) [2, 0, 1] (by decide)
    exampleReadings exampleBlindings 120 (by unfold inRange; decide) (Heap.empty _) 3
    (by decide) 1 (by decide)

theorem leafIndices_spec {P : Type} {h : Heap P} :
    ∀ (t : PT) (fuel : Nat), Shape h t → t.depth < fuel →
      leafIndices fuel h t.ptr = some (t.keys.map (fun (k : Nat) => (k : Int)))
  | PT.leaf p k, fuel + 1, hs, _ => by
    simp [leafIndices, hs.1, hs.2, PT.keys]
  | PT.node p l r, fuel + 1, hs, hd => by
    obtain ⟨s1, s2, s3, _, _, s6, s7⟩ := hs
    have hdl : l.depth < fuel := by simp only [PT.depth] at hd; omega
    have hdr : r.depth < fuel := by simp only [PT.depth] at hd; omega
    simp [leafIndices, s1, s2, s3, leafIndices_spec l fuel s6 hdl,
      leafIndices_spec r fuel s7 hdr, PT.keys]

/-- Every node the traversals reach is the top of a subtree of the tree held. -/
theorem Reach.sub {P : Type} {h : Heap P} {t : PT} (hs : Shape h t) {q : Nat}
    (hq : Reach h t.ptr q) : ∃ x c, Up t x c ∧ x.ptr = q := by
  induction hq with
  | top => exact ⟨t, [], Up.top, rfl⟩
  | @left q l _ hleaf hleft ih =>
    obtain ⟨x, c, hup, hx⟩ := ih
    have hsx := hup.sub_shape hs
    match x, hup, hx, hsx with
    | PT.leaf p k, _, hx, hsx =>
      simp only [PT.ptr_leaf] at hx
      subst hx
      rw [hsx.1] at hleaf
      cases hleaf
    | PT.node p a b, hup, hx, hsx =>
      simp only [PT.ptr_node] at hx
      subst hx
      rw [hsx.2.1] at hleft
      exact ⟨a, _, Up.left hup, (Option.some.inj hleft)⟩
  | @right q r _ hleaf hright ih =>
    obtain ⟨x, c, hup, hx⟩ := ih
    have hsx := hup.sub_shape hs
    match x, hup, hx, hsx with
    | PT.leaf p k, _, hx, hsx =>
      simp only [PT.ptr_leaf] at hx
      subst hx
      rw [hsx.1] at hleaf
      cases hleaf
    | PT.node p a b, hup, hx, hsx =>
      simp only [PT.ptr_node] at hx
      subst hx
      rw [hsx.2.2.1] at hright
      exact ⟨b, _, Up.right hup, (Option.some.inj hright)⟩

/-- C2 (counterexample): two users with the readings `2^63 - 1` and `1`. The root of the
tree that `BuildTree` returns is made from the `int` sum of the two readings, which has
wrapped around, and its `C2` is not the sum of the `C2` of its two children. -/
theorem C2_counterexample :
    rootSumsChildren exampleBackend 2 (Heap.empty _) [0, 1] largeReadings
      exampleBlindings 120 = some false := by
  decide

/-- C2 (as amended): in the commitment model, for `n ≥ 2` users with ids `0..n-1` and
readings and `delta` in range (the absolute values of the readings add up to less than
`2^63` and `|delta| * n < 2^63`), `BuildTree` returns a tree in which every
internal node `q` has a left child `l` and a right child `r` with `q.L = l.L + r.L` and
`q.C2 = l.C2 + r.C2` as group elements, and `q.C1` is the commitment to
`S - q.L * delta + MAX_RANGE_END` under the blinding `R`, where `S` and `R` are the sums
of the readings and of the blindings of the users whose leaves lie below `q`. -/
theorem C2_internal_node_invariant {P : Type} [AddCommGroup P] (B : Backend P) (n : Nat)
    (hn : 2 ≤ n) (order : List Nat) (hperm : order.Perm (List.range n))
    (vs rs : Nat → Int) (delta : Int) (hin : inRange n vs delta) (h : Heap P)
    (fuel : Nat) (hfuel : n ≤ fuel) :
    ∃ (root : Nat) (h2 : Heap P),
      BuildTree B fuel h order vs rs delta = some (root, h2) ∧
      ∀ q, Reach h2 root q → (h2.cell q).IsLeaf = false →
        ∃ (l r : Nat) (cl cr : P) (ids : List Int),
          (h2.cell q).Left = some l ∧ (h2.cell q).Right = some r ∧
          (h2.cell q).L = (h2.cell l).L + (h2.cell r).L ∧
          (h2.cell l).C2 = some cl ∧ (h2.cell r).C2 = some cr ∧
          (h2.cell q).C2 = some (cl + cr) ∧
          leafIndices fuel h2 q = some ids ∧
          (h2.cell q).C1 = some (CommitG1 B
            (sumOver vs ids - (h2.cell q).L * delta + B.MAX_RANGE_END) (sumOver rs ids)) := by
  obtain ⟨t, h2, e2, hr, hnd, hlt, hk⟩ :=
    BuildTree_spec B vs rs delta n hn order hperm h fuel hfuel
  have hlen : t.keys.length = n := by rw [hk, List.length_range]
  have hs := Repr.shape B vs rs delta t hr
  refine ⟨t.ptr, h2, e2, ?_⟩
  intro q hq hleaf
  obtain ⟨x, c, hup, hx⟩ := Reach.sub hs hq
  have hrx := hup.sub_repr hr
  have hsx := hup.sub_shape hs
  have hfx := hup.sub_fits (PT.fits_of_inRange n vs delta hin t hk)
  have hdx : x.depth < fuel := by
    have h1 := hup.length_le
    have h2 := t.depth_lt_length
    omega
  match x, hx, hrx, hsx, hfx, hdx with
  | PT.leaf p k, hx, _, hsx, _, _ =>
    simp only [PT.ptr_leaf] at hx
    subst hx
    rw [hsx.1] at hleaf
    cases hleaf
  | PT.node p a b, hx, hrx, hsx, hfx, hdx =>
    simp only [PT.ptr_node] at hx
    subst hx
    have hL := Repr.L_eq B vs rs delta _ hrx
    have hC1 := Repr.C1_eq B vs rs delta _ hrx hfx
    have hC2 := Repr.C2_eq B vs rs delta _ hrx hfx
    have hli := leafIndices_spec _ fuel hsx hdx
    simp only [PT.ptr_node] at hL hC1 hC2 hli
    refine ⟨a.ptr, b.ptr, _, _, _, hsx.2.1, hsx.2.2.1, ?_,
      Repr.C2_eq B vs rs delta a hrx.2.2.2.1 hfx.1,
      Repr.C2_eq B vs rs delta b hrx.2.2.2.2 hfx.2.1, ?_, hli, ?_⟩
    · rw [hL, Repr.L_eq B vs rs delta a hrx.2.2.2.1, Repr.L_eq B vs rs delta b hrx.2.2.2.2]
      rfl
    · rw [hC2, CommitG1_add]
      rfl
    · rw [hC1, hL, ← PT.val_eq_sumOver, ← PT.val_eq_sumOver rs, PT.seed_eq_val,
        mul_comm]

theorem C2_internal_node_invariant_witness :
    ∃ (root : Nat) (h2 : Heap (Int × Int)),
      BuildTree exampleBackend 3 (Heap.empty _) [0, 1, 2] exampleReadings
        exampleBlindings 120 = some (root, h2) ∧
      ∀ q, Reach h2 root q → (h2.cell q).IsLeaf = false →
        ∃ (l r : Nat) (cl cr : Int × Int) (ids : List Int),
          (h2.cell q).Left = some l ∧ (h2.cell q).Right = some r ∧
          (h2.cell q).L = (h2.cell l).L + (h2.cell r).L ∧
          (h2.cell l).C2 = some cl ∧ (h2.cell r).C2 = some cr ∧
          (h2.cell q).C2 = some (cl + cr) ∧
          leafIndices 3 h2 q = some ids ∧
          (h2.cell q).C1 = some (CommitG1 exampleBackend
            (sumOver exampleReadings ids - (h2.cell q).L * 120 +
              exampleBackend.MAX_RANGE_END) (sumOver exampleBlindings ids)) :=
  C2_internal_node_invariant exampleBackend 3 (by decide) [0, 1, 2] (by decide)
    exampleReadings exampleBlindings 120 (by unfold inRange; decide) (Heap.empty _) 3
    (by decide)

/-- C8 (failing input): for a single user with id `0` the loop of `buildIntermediate`
runs to its end without a `return` and hands the very same one-node level on to the
recursive call, so the recursion never comes to an end and `BuildTree` returns no root,
however many rounds it is given. -/
theorem C8_single_user_never_returns {P : Type} [AddCommGroup P] (B : Backend P)
    (vs rs : Nat → Int) (d : Int) (h : Heap P) :
    (∀ (leaf : Nat) (v l r : Int) (h1 : Heap P),
      buildIntermediateLoop B d [leaf] [v] [l] [r] 1 0 ⟨[], [], [], []⟩ h1 =
        some (Sum.inr ⟨[leaf], [v], [l], [r]⟩, h1)) ∧
    ∀ fuel : Nat, BuildTree B fuel h [0] vs rs d = none := by
  constructor
  · intro leaf v l r h1
    simp [buildIntermediateLoop]
  · intro fuel
    obtain ⟨ts, h1, hf, _, hl, _, hb⟩ :=
      BuildTree_leaves B vs rs d 1 [0] (by decide) h
    have hspec := buildIntermediate_spec B vs rs d fuel ts h1 hf
    rw [reduce_short h1.next ts (by omega) fuel] at hspec
    rw [hb, hspec]

/-- C9: for `n ≥ 2` users with ids `0..n-1`, the root returned by `BuildTree` has
`L = n`, and on every node of the tree `GetNumLeaves` returns the node's `L`. -/
theorem C9_L_counts_leaves {P : Type} [AddCommGroup P] (B : Backend P) (n : Nat)
    (hn : 2 ≤ n) (order : List Nat) (hperm : order.Perm (List.range n))
    (vs rs : Nat → Int) (delta : Int) (h : Heap P) (fuel : Nat) (hfuel : n ≤ fuel) :
    ∃ (root : Nat) (h2 : Heap P),
      BuildTree B fuel h order vs rs delta = some (root, h2) ∧
      (h2.cell root).L = (n : Int) ∧
      ∀ q, Reach h2 root q → GetNumLeaves fuel h2 q = some (h2.cell q).L := by
  obtain ⟨t, h2, e2, hr, hnd, hlt, hk⟩ :=
    BuildTree_spec B vs rs delta n hn order hperm h fuel hfuel
  have hlen : t.keys.length = n := by rw [hk, List.length_range]
  have hs := Repr.shape B vs rs delta t hr
  refine ⟨t.ptr, h2, e2, ?_, ?_⟩
  · rw [Repr.L_eq B vs rs delta t hr, PT.size_eq_length, hlen]
  · intro q hq
    obtain ⟨x, c, hup, hx⟩ := Reach.sub hs hq
    have hdx : x.depth < fuel := by
      have h1 := hup.length_le
      have h2 := t.depth_lt_length
      omega
    rw [← hx, GetNumLeaves_spec x fuel (hup.sub_shape hs) hdx,
      Repr.L_eq B vs rs delta x (hup.sub_repr hr)]

theorem C9_L_counts_leaves_witness :
    ∃ (root : Nat) (h2 : Heap (Int × Int)),
      BuildTree exampleBackend 3 (Heap.empty _) [0, 1, 2] exampleReadings
        exampleBlindings 120 = some (root, h2) ∧
      (h2.cell root).L = ((3 : Nat) : Int) ∧
      ∀ q, Reach h2 root q → GetNumLeaves 3 h2 q = some (h2.cell q).L :=
  C9_L_counts_leaves exampleBackend 3 (by decide) [0, 1, 2] (by decide)
    exampleReadings exampleBlindings 120 (Heap.empty _) 3 (by decide)

/-! ## The shape of a path -/

theorem Up.nth {root x : PT} {c : List (PT × PT)} (hup : Up root x c) :
    ∀ (j : Nat) (y : PT), (x :: c.map Prod.fst)[j]? = some y → Up root y (c.drop j) := by
  induction hup with
  | top =>
    intro j y hj
    cases j with
    | zero =>
      simp only [List.map_nil, List.getElem?_cons_zero, Option.some.injEq] at hj
      subst hj
      exact Up.top
    | succ j => simp at hj
  | @left p l r c hpar ih =>
    intro j y hj
    cases j with
    | zero =>
      simp only [List.getElem?_cons_zero, Option.some.injEq] at hj
      subst hj
      exact Up.left hpar
    | succ j =>
      simp only [List.map_cons, List.getElem?_cons_succ] at hj
      exact ih j y hj
  | @right p l r c hpar ih =>
    intro j y hj
    cases j with
    | zero =>
      simp only [List.getElem?_cons_zero, Option.some.injEq] at hj
      subst hj
      exact Up.right hpar
    | succ j =>
      simp only [List.map_cons, List.getElem?_cons_succ] at hj
      exact ih j y hj

theorem Up.parent_sibling {P : Type} {h : Heap P} {root y par s : PT}
    {rest : List (PT × PT)} (hup : Up root y ((par, s) :: rest)) (hs : Shape h root)
    (hnd : root.ptrs.Nodup) :
    (h.cell y.ptr).Parent = some par.ptr ∧ siblingOf h y.ptr = some s.ptr := by
  cases hup with
  | left hpar =>
    obtain ⟨_, s2, s3, s4, _, _, _⟩ := hpar.sub_shape hs
    exact ⟨s4, by simp [siblingOf, s4, s2, s3]⟩
  | right hpar =>
    obtain ⟨_, s2, s3, _, s5, _, _⟩ := hpar.sub_shape hs
    have hlr : s.ptr ≠ y.ptr := by
      have h1 := hpar.nodup hnd
      rw [PT.ptrs_node, List.nodup_cons, List.nodup_append] at h1
      intro he
      exact List.disjoint_left.1 h1.2.2.2 s.ptr_mem_ptrs (he ▸ y.ptr_mem_ptrs)
    exact ⟨s5, by simp [siblingOf, s5, s2, s3, hlr]⟩

theorem Up.ancestor_eq {P : Type} {h : Heap P} {root x : PT} {c : List (PT × PT)}
    (hup : Up root x c) (hs : Shape h root) (hnd : root.ptrs.Nodup) :
    ∀ (j : Nat) (y : PT), (x :: c.map Prod.fst)[j]? = some y →
      ancestor h j x.ptr = some y.ptr := by
  induction hup with
  | top =>
    intro j y hj
    cases j with
    | zero =>
      simp only [List.map_nil, List.getElem?_cons_zero, Option.some.injEq] at hj
      subst hj
      rfl
    | succ j => simp at hj
  | @left p l r c hpar ih =>
    intro j y hj
    cases j with
    | zero =>
      simp only [List.getElem?_cons_zero, Option.some.injEq] at hj
      subst hj
      rfl
    | succ j =>
      simp only [List.map_cons, List.getElem?_cons_succ] at hj
      have hp := ((Up.left hpar).parent_sibling hs hnd).1
      simp only [ancestor, hp]
      exact ih j y hj
  | @right p l r c hpar ih =>
    intro j y hj
    cases j with
    | zero =>
      simp only [List.getElem?_cons_zero, Option.some.injEq] at hj
      subst hj
      rfl
    | succ j =>
      simp only [List.map_cons, List.getElem?_cons_succ] at hj
      have hp := ((Up.right hpar).parent_sibling hs hnd).1
      simp only [ancestor, hp]
      exact ih j y hj

theorem Up.last_is_root {root x : PT} {c : List (PT × PT)} (hup : Up root x c) :
    (x :: c.map Prod.fst)[c.length]? = some root := by
  induction hup with
  | top => rfl
  | left _ ih => simpa using ih
  | right _ ih => simpa using ih

theorem map_eq_getElem? {α β γ : Type} {f : α → γ} {g : β → γ} {l1 : List α}
    {l2 : List β} (h : l1.map f = l2.map g) (j : Nat) (y : β) (hy : l2[j]? = some y) :
    ∃ a, l1[j]? = some a ∧ f a = g y := by
  have h1 := congrArg (fun l => l[j]?) h
  simp only [List.getElem?_map, hy, Option.map_some'] at h1
  cases ha : l1[j]? with
  | none => rw [ha] at h1; cases h1
  | some a =>
    rw [ha] at h1
    exact ⟨a, rfl, Option.some.inj h1⟩

theorem drop_of_getElem? {α : Type} :
    ∀ (l : List α) (j : Nat) (a : α), l[j]? = some a → l.drop j = a :: l.drop (j + 1)
  | [], _, _, h => by simp at h
  | x :: xs, 0, a, h => by
    simp only [List.getElem?_cons_zero, Option.some.injEq] at h
    subst h
    rfl
  | x :: xs, j + 1, a, h => by
    simp only [List.getElem?_cons_succ] at h
    simpa using drop_of_getElem? xs j a h

/-- C10: for the tree built by `BuildTree` (`n ≥ 2` users) and the leaf of any user `i`,
`k` parent links below the root, `MerklePath` returns a path with `len(Core) = k + 1` and
`len(Edge) = k`; `Core[j]` has the `C1`, `C2`, `Pi` and `L` of the `j`-th node on the way
up from the leaf (the leaf itself for `j = 0`, the root for `j = k`), and `Edge[j]` those
of the sibling of that node. -/
theorem C10_path_shape {P : Type} [AddCommGroup P] (B : Backend P) (n : Nat)
    (hn : 2 ≤ n) (order : List Nat) (hperm : order.Perm (List.range n))
    (vs rs : Nat → Int) (delta : Int) (h : Heap P) (fuel : Nat) (hfuel : n ≤ fuel)
    (i : Nat) (hi : i < n) :
    ∃ (root : Nat) (h2 : Heap P) (leaf : Nat) (path : Path) (h3 : Heap P) (k : Nat),
      BuildTree B fuel h order vs rs delta = some (root, h2) ∧
      GetLeaf fuel h2 root (i : Int) = some (some leaf) ∧
      MerklePath fuel h2 root leaf = some (path, h3) ∧
      ancestor h2 k leaf = some root ∧ (∀ j, j < k → ancestor h2 j leaf ≠ some root) ∧
      path.Core.length = k + 1 ∧ path.Edge.length = k ∧
      (∀ j, j ≤ k → ∃ a c, ancestor h2 j leaf = some a ∧ path.Core[j]? = some c ∧
        (h3.cell c).dat = (h2.cell a).dat) ∧
      (∀ j, j < k → ∃ a s e, ancestor h2 j leaf = some a ∧ siblingOf h2 a = some s ∧
        path.Edge[j]? = some e ∧ (h3.cell e).dat = (h2.cell s).dat) := by
  obtain ⟨t, h2, e2, hr, hnd, hlt, hk⟩ :=
    BuildTree_spec B vs rs delta n hn order hperm h fuel hfuel
  have hlen : t.keys.length = n := by rw [hk, List.length_range]
  have hdepth : t.depth < fuel := by
    have := t.depth_lt_length
    omega
  obtain ⟨ch, hc⟩ := PT.chain_of_mem i t (by rw [hk]; exact List.mem_range.2 hi)
  obtain ⟨p, k, _, hfind, hup⟩ := PT.chain_up (i : Int) t ch hc
  have hcl : ch.length < fuel := by
    have := hup.length_le
    omega
  have hs := Repr.shape B vs rs delta t hr
  obtain ⟨path, h3, e3, _, hC, hE⟩ := MerklePath_spec h2 t hs hnd hlt hup fuel hcl
  simp only [PT.ptr_leaf] at e3
  have hC1 : path.Core.map (fun q => (h3.cell q).dat) =
      (PT.leaf p k :: ch.map Prod.fst).map (fun y => (h2.cell y.ptr).dat) := by
    rw [hC]
    simp [List.map_map, Function.comp_def]
  have hE1 : path.Edge.map (fun q => (h3.cell q).dat) =
      (ch.map Prod.snd).map (fun y => (h2.cell y.ptr).dat) := by
    rw [hE]
    simp [List.map_map, Function.comp_def]
  have hnth : ∀ j, j ≤ ch.length → ∃ y, (PT.leaf p k :: ch.map Prod.fst)[j]? = some y :=
    fun j hj => ⟨_, List.getElem?_eq_getElem (by simp; omega)⟩
  refine ⟨t.ptr, h2, p, path, h3, ch.length, e2, ?_, e3, ?_, ?_, ?_, ?_, ?_, ?_⟩
  · rw [GetLeaf_spec (i : Int) t fuel hs hdepth, hfind]
  · exact hup.ancestor_eq hs hnd _ _ hup.last_is_root
  · intro j hj
    obtain ⟨y, hy⟩ := hnth j (by omega)
    have ha := hup.ancestor_eq hs hnd j y hy
    simp only [PT.ptr_leaf] at ha
    rw [ha]
    have hy1 := hup.nth j y hy
    have hne : ch.drop j ≠ [] := by
      intro he
      have := congrArg List.length he
      simp at this
      omega
    intro he
    exact hy1.ptr_ne_root hnd hne (Option.some.inj he)
  · simpa using congrArg List.length hC
  · simpa using congrArg List.length hE
  · intro j hj
    obtain ⟨y, hy⟩ := hnth j hj
    obtain ⟨a, ha, hd⟩ := map_eq_getElem? hC1 j y hy
    exact ⟨y.ptr, a, hup.ancestor_eq hs hnd j y hy, ha, hd⟩
  · intro j hj
    obtain ⟨y, hy⟩ := hnth j (by omega)
    have hy1 := hup.nth j y hy
    obtain ⟨⟨par, sb⟩, hcj⟩ : ∃ ps, ch[j]? = some ps := ⟨_, List.getElem?_eq_getElem hj⟩
    have hsj : (ch.map Prod.snd)[j]? = some sb := by
      rw [List.getElem?_map, hcj]
      rfl
    obtain ⟨e, he, hd⟩ := map_eq_getElem? hE1 j _ hsj
    rw [drop_of_getElem? ch j _ hcj] at hy1
    exact ⟨y.ptr, sb.ptr, e, hup.ancestor_eq hs hnd j y hy,
      (hy1.parent_sibling hs hnd).2, he, hd⟩

/-! ## The flat variant -/

/-- The loop that adds up the readings in `int` ends with their sum wrapped around. -/
theorem sumLoop_eq (vs rs : Nat → Int) (n : Nat) :
    sumLoop vs rs n =
      (wrap64 ((List.range n).map vs).sum, ((List.range n).map rs).sum) := by
  induction n with
  | zero => simp [sumLoop, wrap64]
  | succ n ih =>
    simp only [sumLoop] at ih
    rw [sumLoop, List.range_succ, List.foldl_append, ih]
    simp [wrap64_add_wrap]

/-- The entries the maps of the company hold once the users `0..j-1` are handled. -/
theorem GoMap.set_fresh {V : Type} (m : GoMap V) (k : Int) (v : V)
    (hk : ∀ e ∈ m.entries, e.1 ≠ k) : m.set k v = ⟨m.entries ++ [(k, v)]⟩ := by
  simp only [GoMap.set]
  congr 2
  rw [List.filter_eq_self]
  intro e he
  simp [hk e he]

theorem GoMap.set_range {V : Type} (f : Nat → V) (j : Nat) :
    (⟨(List.range j).map (fun (i : Nat) => ((i : Int), f i))⟩ : GoMap V).set (j : Int) (f j) =
      ⟨(List.range (j + 1)).map (fun (i : Nat) => ((i : Int), f i))⟩ := by
  rw [GoMap.set_fresh]
  · simp [List.range_succ]
  · intro e he
    simp only [List.mem_map, List.mem_range] at he
    obtain ⟨i, hi, rfl⟩ := he
    simp only [ne_eq, Nat.cast_inj]
    omega

theorem GoMap.get?_range {V : Type} (f : Nat → V) (n i : Nat) (hi : i < n) :
    (⟨(List.range n).map (fun (i : Nat) => ((i : Int), f i))⟩ : GoMap V).get? (i : Int) =
      some (f i) := by
  induction n with
  | zero => omega
  | succ n ih =>
    simp only [GoMap.get?, List.range_succ, List.map_append, List.find?_append] at ih ⊢
    by_cases hlt : i < n
    · have h1 := ih hlt
      cases hf : List.find? (fun e => decide (e.1 = (i : Int)))
          (List.map (fun (i : Nat) => ((i : Int), f i)) (List.range n)) with
      | none => rw [hf] at h1; cases h1
      | some e =>
        rw [hf] at h1
        simpa using h1
    · have hin : i = n := by omega
      subst hin
      have hnone : List.find? (fun e => decide (e.1 = (i : Int)))
          (List.map (fun (i : Nat) => ((i : Int), f i)) (List.range i)) = none := by
        rw [List.find?_eq_none]
        intro e he
        simp only [List.mem_map, List.mem_range] at he
        obtain ⟨j, hj, rfl⟩ := he
        simp only [decide_eq_true_eq, Nat.cast_inj]
        omega
      simp [hnone]

theorem GoMap.copy_range {V : Type} (f : Nat → V) (n : Nat) :
    ((List.range n).map (fun (i : Nat) => ((i : Int), f i))).foldl
        (fun (m : GoMap V) e => m.set e.1 e.2) ⟨[]⟩ =
      ⟨(List.range n).map (fun (i : Nat) => ((i : Int), f i))⟩ := by
  induction n with
  | zero => rfl
  | succ n ih =>
    rw [List.range_succ, List.map_append, List.foldl_append, ih]
    simp only [List.map_cons, List.map_nil, List.foldl_cons, List.foldl_nil]
    rw [GoMap.set_range, List.range_succ]
    simp

/-- The state of the company of the flat variant after `processReadings`. -/
theorem FlatCompany.processReadings_eq {P : Type} [AddCommGroup P] (B : Backend P)
    (c : FlatCompany P) :
    c.processReadings B =
      { c with
        sum := wrap64 ((List.range c.nUsers).map c.readings).sum,
        proofs := ⟨(List.range c.nUsers).map (fun (i : Nat) => ((i : Int),
          some (ProveGeneric B (c.readings i) (SetupGeneric 0 c.delta) (c.rs i))))⟩,
        commits1 := ⟨(List.range c.nUsers).map (fun (i : Nat) => ((i : Int),
          some (ProveGeneric B (c.readings i) (SetupGeneric 0 c.delta) (c.rs i)).P1V))⟩,
        commits2 := ⟨(List.range c.nUsers).map (fun (i : Nat) => ((i : Int),
          some (ProveGeneric B (c.readings i) (SetupGeneric 0 c.delta) (c.rs i)).P2V))⟩,
        sumProof := some (ProveGeneric B (wrap64 ((List.range c.nUsers).map c.readings).sum)
          (SetupGeneric c.gamma (wrap64 (c.delta * (c.nUsers : Int))))
          ((List.range c.nUsers).map c.rs).sum) } := by
  have key : ∀ (j : Nat) (c1 : FlatCompany P),
      c1.proofs = ⟨[]⟩ → c1.commits1 = ⟨[]⟩ → c1.commits2 = ⟨[]⟩ →
      (List.range j).foldl (fun acc i => acc.generateProof B i) c1 =
        { c1 with
          proofs := ⟨(List.range j).map (fun (i : Nat) => ((i : Int),
            some (ProveGeneric B (c1.readings i) (SetupGeneric 0 c1.delta) (c1.rs i))))⟩,
          commits1 := ⟨(List.range j).map (fun (i : Nat) => ((i : Int),
            some (ProveGeneric B (c1.readings i) (SetupGeneric 0 c1.delta) (c1.rs i)).P1V))⟩,
          commits2 := ⟨(List.range j).map (fun (i : Nat) => ((i : Int),
            some (ProveGeneric B (c1.readings i) (SetupGeneric 0 c1.delta)
              (c1.rs i)).P2V))⟩ } := by
    intro j c1 h1 h2 h3
    induction j with
    | zero =>
      cases c1
      simp only at h1 h2 h3
      subst h1 h2 h3
      rfl
    | succ j ih =>
      rw [List.range_succ, List.foldl_append, ih]
      simp only [List.foldl_cons, List.foldl_nil, FlatCompany.generateProof]
      rw [GoMap.set_range (fun i => some (ProveGeneric B (c1.readings i)
          (SetupGeneric 0 c1.delta) (c1.rs i))) j,
        GoMap.set_range (fun i => some (ProveGeneric B (c1.readings i)
          (SetupGeneric 0 c1.delta) (c1.rs i)).P1V) j,
        GoMap.set_range (fun i => some (ProveGeneric B (c1.readings i)
          (SetupGeneric 0 c1.delta) (c1.rs i)).P2V) j, ← List.range_succ]
  simp only [FlatCompany.processReadings, sumLoop_eq]
  rw [key _ _ rfl rfl rfl]

theorem GoMap.bytes_range {V : Type} (f : Nat → Option V) (n i : Nat) (hi : i < n) :
    (⟨(List.range n).map (fun (i : Nat) => ((i : Int), f i))⟩ : GoMap (Option V)).bytes
      (i : Int) = f i := by
  simp [GoMap.bytes, GoMap.get?_range f n i hi]

/-- The record of a user of the flat variant after `processReadings` and
`shareProofData`. -/
theorem flatRun_eq {P : Type} [AddCommGroup P] (B : Backend P) (n : Nat)
    (vs rs : Nat → Int) (gamma delta : Int) (i : Nat) :
    flatRun B n vs rs gamma delta i =
      ⟨gamma, delta, (n : Int), (i : Int), vs i, rs i,
        ⟨(List.range n).map (fun (i : Nat) => ((i : Int),
          some (ProveGeneric B (vs i) (SetupGeneric 0 delta) (rs i)).P1V))⟩,
        ⟨(List.range n).map (fun (i : Nat) => ((i : Int),
          some (ProveGeneric B (vs i) (SetupGeneric 0 delta) (rs i)).P2V))⟩,
        ⟨(List.range n).map (fun (i : Nat) => ((i : Int),
          some (ProveGeneric B (vs i) (SetupGeneric 0 delta) (rs i))))⟩,
        some (ProveGeneric B (wrap64 ((List.range n).map vs).sum)
          (SetupGeneric gamma (wrap64 (delta * (n : Int))))
          ((List.range n).map rs).sum)⟩ := by
  simp only [flatRun, FlatCompany.processReadings_eq, FlatCompany.shareProofData]
  rw [GoMap.copy_range (fun i => some (ProveGeneric B (vs i) (SetupGeneric 0 delta) (rs i))),
    GoMap.copy_range (fun i =>
      some (ProveGeneric B (vs i) (SetupGeneric 0 delta) (rs i)).P1V),
    GoMap.copy_range (fun i =>
      some (ProveGeneric B (vs i) (SetupGeneric 0 delta) (rs i)).P2V)]

theorem index?_length_sub_one {α : Type} (l : List α) (k : Nat) (hk : l.length = k + 1) :
    index? l ((l.length : Int) - 1) = l[k]? := by
  have h1 : ((l.length : Int) - 1) = (k : Int) := by rw [hk]; simp
  rw [h1, index?]
  simp

/-- The record a user of the tree variant holds after an honest run: the first entry of
its path carries the two commitments to its own reading, the last entry the size of the
population and the two commitments that `BuildTree` stored in the root `t` of the tree.
The sum proof is made from the `int` sum of the readings and the `int64` product
`delta * n`. -/
theorem treeRun_spec {P : Type} [AddCommGroup P] (B : Backend P) (n : Nat) (hn : 2 ≤ n)
    (order : List Nat) (hperm : order.Perm (List.range n)) (vs rs : Nat → Int)
    (gamma delta : Int) (h : Heap P) (fuel : Nat) (hfuel : n ≤ fuel) (i : Nat)
    (hi : i < n) :
    ∃ (h2 : Heap P) (path : Path) (c0 croot : Nat) (t : PT),
      t.keys = List.range n ∧
      treeRun B fuel h order n vs rs gamma delta i =
        some (⟨gamma, delta, (n : Int), (i : Int), vs i, rs i, some path,
          some (ProveGeneric B (wrap64 ((List.range n).map vs).sum)
            (SetupGeneric gamma (wrap64 (delta * (n : Int))))
            ((List.range n).map rs).sum)⟩, h2) ∧
      path.Core[0]? = some c0 ∧
      (h2.cell c0).C1 = some (CommitG1 B (vs i - delta + B.MAX_RANGE_END) (rs i)) ∧
      (h2.cell c0).C2 = some (CommitG1 B (vs i) (rs i)) ∧
      index? path.Core ((path.Core.length : Int) - 1) = some croot ∧
      (h2.cell croot).L = (n : Int) ∧
      (h2.cell croot).C1 = some (CommitG1 B
        (t.wval vs - t.thr delta + B.MAX_RANGE_END) ((List.range n).map rs).sum) ∧
      (h2.cell croot).C2 = some (CommitG1 B (t.wval vs) ((List.range n).map rs).sum) := by
  obtain ⟨t, h1, e1, hr, hnd, hlt, hk⟩ :=
    BuildTree_spec B vs rs delta n hn order hperm h fuel hfuel
  have hlen : t.keys.length = n := by rw [hk, List.length_range]
  have hdepth : t.depth < fuel := by
    have := t.depth_lt_length
    omega
  obtain ⟨ch, hc⟩ := PT.chain_of_mem i t (by rw [hk]; exact List.mem_range.2 hi)
  obtain ⟨p, k, hki, hfind, hup⟩ := PT.chain_up (i : Int) t ch hc
  have hki1 : i = k := by exact_mod_cast hki.symm
  subst hki1
  have hcl : ch.length < fuel := by
    have := hup.length_le
    omega
  have hs := Repr.shape B vs rs delta t hr
  obtain ⟨path, h2, e2, _, hC, hE⟩ := MerklePath_spec h1 t hs hnd hlt hup fuel hcl
  simp only [PT.ptr_leaf] at e2
  have hC1 : path.Core.map (fun q => (h2.cell q).dat) =
      (PT.leaf p i :: ch.map Prod.fst).map (fun y => (h1.cell y.ptr).dat) := by
    rw [hC]
    simp [List.map_map, Function.comp_def]
  obtain ⟨c0, hc0, hd0⟩ := map_eq_getElem? hC1 0 (PT.leaf p i) (by simp)
  obtain ⟨croot, hcr, hdr⟩ := map_eq_getElem? hC1 ch.length t hup.last_is_root
  have hlenC : path.Core.length = ch.length + 1 := by
    simpa using congrArg List.length hC
  have hrl := hup.sub_repr hr
  have l1 := Repr.C1_eq B vs rs delta _ hrl trivial
  have l2 := Repr.C2_eq B vs rs delta _ hrl trivial
  have t1 := Repr.C1_stored B vs rs delta t hr
  have t2 := Repr.C2_stored B vs rs delta t hr
  have t3 := Repr.L_eq B vs rs delta t hr
  have hseed : t.seed rs = ((List.range n).map rs).sum := by
    rw [PT.seed_eq_val, PT.val_eq_sumOver, hk, sumOver_range]
  have hsize : t.size = (n : Int) := by rw [PT.size_eq_length, hlen]
  simp only [PT.ptr_leaf, PT.val, PT.size, PT.seed, mul_one] at l1 l2
  rw [hseed] at t1 t2
  rw [hsize] at t3
  refine ⟨h2, path, c0, croot, t, hk, ?_, hc0, ?_, ?_, ?_, ?_, ?_, ?_⟩
  · simp only [treeRun, TreeCompany.processReadings, e1, sumLoop_eq,
      GetLeaf_spec (i : Int) t fuel hs hdepth, hfind, e2]
  · have := congrArg (fun x => x.1) hd0
    simp only [Node.dat, PT.ptr_leaf] at this
    rw [this, l1]
  · have := congrArg (fun x => x.2.1) hd0
    simp only [Node.dat, PT.ptr_leaf] at this
    rw [this, l2]
  · rw [index?_length_sub_one _ _ hlenC, hcr]
  · have := congrArg (fun x => x.2.2.2) hdr
    simp only [Node.dat] at this
    rw [this, t3]
  · have := congrArg (fun x => x.1) hdr
    simp only [Node.dat] at this
    rw [this, t1]
  · have := congrArg (fun x => x.2.1) hdr
    simp only [Node.dat] at this
    rw [this, t2]

theorem TreeUser.checkCommitment_tree_iff {P : Type} [AddCommGroup P] [DecidableEq P]
    (B : Backend P) (h : Heap P) (u : TreeUser P) (path : Path) (c0 : Nat)
    (hp : u.path = some path) (hc : path.Core[0]? = some c0) :
    u.checkCommitment B h = some true ↔
      (h.cell c0).C1 = some (CommitG1 B
        (wrap64 (wrap64 (u.reading - u.delta) + B.MAX_RANGE_END)) u.r) ∧
      (h.cell c0).C2 = some (CommitG1 B u.reading u.r) := by
  simp only [TreeUser.checkCommitment, hp, hc, unmarshalInto, pointEquals]
  cases h1 : (h.cell c0).C1 with
  | none => simp
  | some a =>
    cases h2 : (h.cell c0).C2 with
    | none =>
      by_cases ha : CommitG1 B (wrap64 (wrap64 (u.reading - u.delta) + B.MAX_RANGE_END))
        u.r = a <;> simp [ha]
    | some b =>
      by_cases ha : CommitG1 B (wrap64 (wrap64 (u.reading - u.delta) + B.MAX_RANGE_END))
        u.r = a
      · simp [ha, eq_comm]
      · simp [ha, eq_comm]
        intro hh
        exact absurd hh.symm ha

theorem FlatUser.checkCommitment_flat_iff {P : Type} [AddCommGroup P] [DecidableEq P]
    (B : Backend P) (u : FlatUser P) :
    u.checkCommitment B = some true ↔
      u.commits1.bytes u.idx = some (CommitG1 B
        (wrap64 (wrap64 (u.reading - u.delta) + B.MAX_RANGE_END)) u.r) ∧
      u.commits2.bytes u.idx = some (CommitG1 B u.reading u.r) := by
  simp only [FlatUser.checkCommitment, unmarshalInto, pointEquals]
  cases h1 : u.commits1.bytes u.idx with
  | none => simp
  | some a =>
    cases h2 : u.commits2.bytes u.idx with
    | none =>
      by_cases ha : CommitG1 B (wrap64 (wrap64 (u.reading - u.delta) + B.MAX_RANGE_END))
        u.r = a <;> simp [ha]
    | some b =>
      by_cases ha : CommitG1 B (wrap64 (wrap64 (u.reading - u.delta) + B.MAX_RANGE_END))
        u.r = a
      · simp [ha, eq_comm]
      · simp [ha, eq_comm]
        intro hh
        exact absurd hh.symm ha

/-- A check of `checkCommitment` whose second comparison fails reports failure. -/
theorem TreeUser.checkCommitment_tree_C2 {P : Type} [AddCommGroup P] [DecidableEq P]
    (B : Backend P) (h : Heap P) (u : TreeUser P) (path : Path) (c0 : Nat) (a b : P)
    (hp : u.path = some path) (hc : path.Core[0]? = some c0)
    (h1 : (h.cell c0).C1 = some a) (h2 : (h.cell c0).C2 = some b)
    (hne : CommitG1 B u.reading u.r ≠ b) : u.checkCommitment B h = some false := by
  simp only [TreeUser.checkCommitment, hp, hc, unmarshalInto, pointEquals, h1, h2]
  by_cases ha : CommitG1 B (wrap64 (wrap64 (u.reading - u.delta) + B.MAX_RANGE_END))
    u.r = a <;> simp [ha, hne]

theorem FlatUser.checkCommitment_flat_C2 {P : Type} [AddCommGroup P] [DecidableEq P]
    (B : Backend P) (u : FlatUser P) (a b : P)
    (h1 : u.commits1.bytes u.idx = some a) (h2 : u.commits2.bytes u.idx = some b)
    (hne : CommitG1 B u.reading u.r ≠ b) : u.checkCommitment B = some false := by
  simp only [FlatUser.checkCommitment, unmarshalInto, pointEquals, h1, h2]
  by_cases ha : CommitG1 B (wrap64 (wrap64 (u.reading - u.delta) + B.MAX_RANGE_END))
    u.r = a <;> simp [ha, hne]

theorem wrap64_threshold (x d m : Int) (hf : fits64 (x - d + m)) :
    wrap64 (wrap64 (x - d) + m) = x - d + m := by
  rw [wrap64_add_wrap, wrap64_of_fits _ hf]

theorem exampleBackend_commit (v r : Int) : CommitG1 exampleBackend v r = (v, r) := by
  simp [CommitG1, exampleBackend]

theorem exampleBackend_injective (v w r : Int)
    (h : CommitG1 exampleBackend v r = CommitG1 exampleBackend w r) : v = w := by
  rw [exampleBackend_commit, exampleBackend_commit] at h
  exact congrArg Prod.fst h

/-- C4 (counterexample): after the honest run of the flat variant for one user with the
reading `2^63 - 1` (`gamma = 100`, `delta = 120`; nothing that the company computes wraps
around), the slot of that user holds `Commit(x - delta + MAX_RANGE_END, r)` and
`Commit(x, r)` for its reading `x` and its blinding `r`, and `checkCommitment` reports
failure: the user computes `x - delta + MAX_RANGE_END` in `int64`, where it wraps
around. -/
theorem C4_counterexample :
    (flatRun exampleBackend 1 largeReadings exampleBlindings 100 120 0).commits1.bytes 0 =
      some (CommitG1 exampleBackend
        (largeReadings 0 - 120 + exampleBackend.MAX_RANGE_END) (exampleBlindings 0)) ∧
    (flatRun exampleBackend 1 largeReadings exampleBlindings 100 120 0).commits2.bytes 0 =
      some (CommitG1 exampleBackend (largeReadings 0) (exampleBlindings 0)) ∧
    (flatRun exampleBackend 1 largeReadings exampleBlindings 100 120 0).checkCommitment
      exampleBackend = some false := by
  refine ⟨?_, ?_, by decide⟩
  · rw [exampleBackend_commit]
    decide
  · rw [exampleBackend_commit]
    decide

/-- C4 (as amended): `checkCommitment` reports success exactly when the two commitments
published for the user's own slot (`path.Core[0].C1/C2` in the tree variant,
`commits1[idx]` and `commits2[idx]` in the flat variant) are `Commit(w, r)` and
`Commit(x, r)` for the user's reading `x` and blinding `r`, where `w` is the `int64`
that the code computes for `x - delta + MAX_RANGE_END`. Hence it succeeds after an honest
run of either variant for a user for whom `x - delta + MAX_RANGE_END` is an `int64`,
and, when `Commit` is injective in the value on the 64-bit integers (as it is when the
order of `G` is `2^64` or more), it fails for a user whose reading `x` differs from the
reading the aggregator built the slot from (under the same blinding), both readings
being 64-bit integers as Go's `int` makes them. -/
theorem C4_individual_commitment_check {P : Type} [AddCommGroup P] [DecidableEq P]
    (B : Backend P) :
    (∀ (h : Heap P) (u : TreeUser P) (path : Path) (c0 : Nat),
      u.path = some path → path.Core[0]? = some c0 →
      (u.checkCommitment B h = some true ↔
        (h.cell c0).C1 = some (CommitG1 B
          (wrap64 (wrap64 (u.reading - u.delta) + B.MAX_RANGE_END)) u.r) ∧
        (h.cell c0).C2 = some (CommitG1 B u.reading u.r))) ∧
    (∀ u : FlatUser P,
      u.checkCommitment B = some true ↔
        u.commits1.bytes u.idx = some (CommitG1 B
          (wrap64 (wrap64 (u.reading - u.delta) + B.MAX_RANGE_END)) u.r) ∧
        u.commits2.bytes u.idx = some (CommitG1 B u.reading u.r)) ∧
    (∀ (n : Nat) (order : List Nat) (vs rs : Nat → Int) (gamma delta : Int) (h : Heap P)
        (fuel i : Nat),
      2 ≤ n → order.Perm (List.range n) → n ≤ fuel → i < n →
      fits64 (vs i - delta + B.MAX_RANGE_END) →
      ∃ u h2, treeRun B fuel h order n vs rs gamma delta i = some (u, h2) ∧
        u.checkCommitment B h2 = some true) ∧
    (∀ (n : Nat) (vs rs : Nat → Int) (gamma delta : Int) (i : Nat), i < n →
      fits64 (vs i - delta + B.MAX_RANGE_END) →
      (flatRun B n vs rs gamma delta i).checkCommitment B = some true) ∧
    ((∀ v w r : Int, fits64 v → fits64 w → CommitG1 B v r = CommitG1 B w r → v = w) →
      (∀ (n : Nat) (order : List Nat) (vs rs : Nat → Int) (gamma delta : Int)
          (h : Heap P) (fuel i : Nat) (x : Int),
        2 ≤ n → order.Perm (List.range n) → n ≤ fuel → i < n →
        fits64 x → fits64 (vs i) → x ≠ vs i →
        ∃ u h2, treeRun B fuel h order n vs rs gamma delta i = some (u, h2) ∧
          ({ u with reading := x } : TreeUser P).checkCommitment B h2 = some false) ∧
      (∀ (n : Nat) (vs rs : Nat → Int) (gamma delta : Int) (i : Nat) (x : Int),
        i < n → fits64 x → fits64 (vs i) → x ≠ vs i →
        ({ flatRun B n vs rs gamma delta i with reading := x } :
          FlatUser P).checkCommitment B = some false)) := by
  refine ⟨fun h u path c0 hp hc => TreeUser.checkCommitment_tree_iff B h u path c0 hp hc,
    fun u => FlatUser.checkCommitment_flat_iff B u, ?_, ?_, ?_⟩
  · intro n order vs rs gamma delta h fuel i hn hperm hfuel hi hf
    obtain ⟨h2, path, c0, croot, t, _, e, hc0, k1, k2, _⟩ :=
      treeRun_spec B n hn order hperm vs rs gamma delta h fuel hfuel i hi
    refine ⟨_, h2, e, (TreeUser.checkCommitment_tree_iff B h2 _ path c0 rfl hc0).2 ⟨?_, k2⟩⟩
    rw [k1]
    simp only [wrap64_threshold _ _ _ hf]
  · intro n vs rs gamma delta i hi hf
    rw [FlatUser.checkCommitment_flat_iff, flatRun_eq]
    constructor
    · rw [GoMap.bytes_range (fun i =>
        some (ProveGeneric B (vs i) (SetupGeneric 0 delta) (rs i)).P1V) n i hi]
      simp only [wrap64_threshold _ _ _ hf]
      rfl
    · rw [GoMap.bytes_range (fun i =>
        some (ProveGeneric B (vs i) (SetupGeneric 0 delta) (rs i)).P2V) n i hi]
      simp [ProveGeneric, SetupGeneric]
  · intro hinj
    constructor
    · intro n order vs rs gamma delta h fuel i x hn hperm hfuel hi hfx hfv hx
      obtain ⟨h2, path, c0, croot, t, _, e, hc0, k1, k2, _⟩ :=
        treeRun_spec B n hn order hperm vs rs gamma delta h fuel hfuel i hi
      refine ⟨_, h2, e, ?_⟩
      exact TreeUser.checkCommitment_tree_C2 B h2 _ path c0 _ _ rfl hc0 k1 k2
        (fun he => hx (hinj _ _ _ hfx hfv he))
    · intro n vs rs gamma delta i x hi hfx hfv hx
      rw [flatRun_eq]
      have b1 := GoMap.bytes_range (fun i =>
        some (ProveGeneric B (vs i) (SetupGeneric 0 delta) (rs i)).P1V) n i hi
      have b2 := GoMap.bytes_range (fun i =>
        some (ProveGeneric B (vs i) (SetupGeneric 0 delta) (rs i)).P2V) n i hi
      refine FlatUser.checkCommitment_flat_C2 B _ _ _ b1 b2 ?_
      simp only [ProveGeneric, SetupGeneric, sub_zero]
      exact fun he => hx (hinj _ _ _ hfx hfv he)

theorem C4_individual_commitment_check_witness :
    (∃ u h2, treeRun exampleBackend 3 (Heap.empty _) [0, 1, 2] 3 exampleReadings
        exampleBlindings 400 120 1 = some (u, h2) ∧
      u.checkCommitment exampleBackend h2 = some true) ∧
    (flatRun exampleBackend 3 exampleReadings exampleBlindings 500 120
      1).checkCommitment exampleBackend = some true ∧
    ({ flatRun exampleBackend 3 exampleReadings exampleBlindings 500 120 1 with
        reading := 99 } : FlatUser (Int × Int)).checkCommitment exampleBackend =
      some false :=
  ⟨(C4_individual_commitment_check exampleBackend).2.2.1 3 [0, 1, 2] exampleReadings
      exampleBlindings 400 120 (Heap.empty _) 3 1 (by decide) (by decide) (by decide)
      (by decide) (by unfold fits64; decide),
    (C4_individual_commitment_check exampleBackend).2.2.2.1 3 exampleReadings
      exampleBlindings 500 120 1 (by decide) (by unfold fits64; decide),
    ((C4_individual_commitment_check exampleBackend).2.2.2.2
      (fun v w r _ _ he => exampleBackend_injective v w r he)).2 3 exampleReadings
      exampleBlindings 500 120 1 99 (by decide) (by unfold fits64; decide)
      (by unfold fits64; decide) (by decide)⟩

/-- C7 (counterexample): for two users with the readings `2^63 - 1` and `1`, whose sum is
`2^63`, `processReadings` of the flat variant leaves `-2^63` in `c.sum`. -/
theorem C7_counterexample :
    ((List.range 2).map largeReadings).sum = 9223372036854775808 ∧
    ((⟨100, 120, 2, largeReadings, 0, exampleBlindings, ⟨[]⟩, ⟨[]⟩, ⟨[]⟩, none⟩ :
      FlatCompany (Int × Int)).processReadings exampleBackend).sum =
        -9223372036854775808 := by
  refine ⟨by decide, by decide⟩

/-- C7 (as amended): after `processReadings` of the flat variant for the users `0..n-1`,
`c.sum` is the sum of the readings as `int` arithmetic gives it (wrapped around into
`int64`), the aggregate proof is the one made from that value, the parameters
`SetupGeneric(gamma, delta * n)` with the product taken in `int64`, and the sum of all
blindings, and each of the maps `proofs`, `commits1`, `commits2` holds exactly one entry
per id `0..n-1`, made from `(readings[i], SetupGeneric(0, delta), rs[i])`. For readings
and `delta` in range (the absolute values of the readings add up to less than `2^63`,
`|delta| * n < 2^63`) `c.sum` is the sum of the readings and the aggregate
proof is made over that sum and `SetupGeneric(gamma, delta * n)`. For the readings 10,
20, 30 the sum is 60. -/
theorem C7_flat_aggregator {P : Type} [AddCommGroup P] (B : Backend P)
    (c : FlatCompany P) :
    ((c.processReadings B).sum = wrap64 ((List.range c.nUsers).map c.readings).sum ∧
      (c.processReadings B).sumProof =
        some (ProveGeneric B (wrap64 ((List.range c.nUsers).map c.readings).sum)
          (SetupGeneric c.gamma (wrap64 (c.delta * (c.nUsers : Int))))
          ((List.range c.nUsers).map c.rs).sum) ∧
      (c.processReadings B).proofs.entries.map Prod.fst =
        (List.range c.nUsers).map (fun (i : Nat) => (i : Int)) ∧
      (c.processReadings B).commits1.entries.map Prod.fst =
        (List.range c.nUsers).map (fun (i : Nat) => (i : Int)) ∧
      (c.processReadings B).commits2.entries.map Prod.fst =
        (List.range c.nUsers).map (fun (i : Nat) => (i : Int)) ∧
      ∀ i : Nat, i < c.nUsers →
        (c.processReadings B).proofs.get? (i : Int) =
          some (some (ProveGeneric B (c.readings i) (SetupGeneric 0 c.delta) (c.rs i))) ∧
        (c.processReadings B).commits1.get? (i : Int) =
          some (some (ProveGeneric B (c.readings i) (SetupGeneric 0 c.delta)
            (c.rs i)).P1V) ∧
        (c.processReadings B).commits2.get? (i : Int) =
          some (some (ProveGeneric B (c.readings i) (SetupGeneric 0 c.delta)
            (c.rs i)).P2V)) ∧
    (inRange c.nUsers c.readings c.delta →
      (c.processReadings B).sum = ((List.range c.nUsers).map c.readings).sum ∧
      (c.processReadings B).sumProof =
        some (ProveGeneric B ((List.range c.nUsers).map c.readings).sum
          (SetupGeneric c.gamma (c.delta * (c.nUsers : Int)))
          ((List.range c.nUsers).map c.rs).sum)) ∧
    ((⟨500, 120, 3, exampleReadings, 0, exampleBlindings, ⟨[]⟩, ⟨[]⟩, ⟨[]⟩, none⟩ :
      FlatCompany (Int × Int)).processReadings exampleBackend).sum = 60 := by
  refine ⟨?_, ?_, by decide⟩
  · rw [FlatCompany.processReadings_eq]
    refine ⟨rfl, rfl, ?_, ?_, ?_, ?_⟩
    · simp [List.map_map, Function.comp_def]
    · simp [List.map_map, Function.comp_def]
    · simp [List.map_map, Function.comp_def]
    · intro i hi
      exact ⟨GoMap.get?_range _ _ i hi, GoMap.get?_range _ _ i hi,
        GoMap.get?_range _ _ i hi⟩
  · intro hin
    rw [FlatCompany.processReadings_eq]
    simp only [hin.sum_fits, hin.thr_fits]
    exact ⟨trivial, trivial⟩

theorem C7_flat_aggregator_witness :
    ((⟨500, 120, 3, exampleReadings, 0, exampleBlindings, ⟨[]⟩, ⟨[]⟩, ⟨[]⟩, none⟩ :
      FlatCompany (Int × Int)).processReadings exampleBackend).commits2.get?
        ((1 : Nat) : Int) =
      some (some (ProveGeneric exampleBackend (exampleReadings 1) (SetupGeneric 0 120)
        (exampleBlindings 1)).P2V) :=
  ((C7_flat_aggregator exampleBackend
    ⟨500, 120, 3, exampleReadings, 0, exampleBlindings, ⟨[]⟩, ⟨[]⟩, ⟨[]⟩, none⟩).1.2.2.2.2.2
    1 (by decide)).2.2

/-! ## Tampering with a leaf -/

theorem PT.find_none_of_not_mem (k : Nat) :
    ∀ t : PT, k ∉ t.keys → t.find (k : Int) = none
  | PT.leaf p j, h => by
    simp only [PT.keys, List.mem_singleton] at h
    have : ¬ ((j : Int) = (k : Int)) := fun e => h (by exact_mod_cast e.symm)
    simp [PT.find, this]
  | PT.node p l r, h => by
    simp only [PT.keys, List.mem_append, not_or] at h
    simp [PT.find, PT.find_none_of_not_mem k l h.1, PT.find_none_of_not_mem k r h.2]

theorem PT.keys_parts (p : Nat) (l r : PT) (h : (PT.node p l r).keys.Nodup) :
    l.keys.Nodup ∧ r.keys.Nodup ∧ (∀ a ∈ l.keys, a ∉ r.keys) := by
  simp only [PT.keys, List.nodup_append] at h
  exact ⟨h.1, h.2.1, fun a ha => List.disjoint_left.1 h.2.2 ha⟩

theorem C10_path_shape_witness :
    ∃ (root : Nat) (h2 : Heap (Int × Int)) (leaf : Nat) (path : Path)
        (h3 : Heap (Int × Int)) (k : Nat),
      BuildTree exampleBackend 3 (Heap.empty _) [0, 1, 2] exampleReadings
        exampleBlindings 120 = some (root, h2) ∧
      GetLeaf 3 h2 root ((0 : Nat) : Int) = some (some leaf) ∧
      MerklePath 3 h2 root leaf = some (path, h3) ∧
      ancestor h2 k leaf = some root ∧ (∀ j, j < k → ancestor h2 j leaf ≠ some root) ∧
      path.Core.length = k + 1 ∧ path.Edge.length = k ∧
      (∀ j, j ≤ k → ∃ a c, ancestor h2 j leaf = some a ∧ path.Core[j]? = some c ∧
        (h3.cell c).dat = (h2.cell a).dat) ∧
      (∀ j, j < k → ∃ a s e, ancestor h2 j leaf = some a ∧ siblingOf h2 a = some s ∧
        path.Edge[j]? = some e ∧ (h3.cell e).dat = (h2.cell s).dat) :=
  C10_path_shape exampleBackend 3 (by decide) [0, 1, 2] (by decide) exampleReadings
    exampleBlindings 120 (Heap.empty _) 3 (by decide) 0 (by decide)

/-! ## Looking a leaf up -/

theorem PT.find_none_of_keys (i : Int) :
    ∀ t : PT, (∀ k ∈ t.keys, (k : Int) ≠ i) → t.find i = none
  | PT.leaf p k, h => by
    have : ¬ ((k : Int) = i) := h k (by simp [PT.keys])
    simp [PT.find, this]
  | PT.node p l r, h => by
    have hl := PT.find_none_of_keys i l (fun k hk => h k (by simp [PT.keys, hk]))
    have hr := PT.find_none_of_keys i r (fun k hk => h k (by simp [PT.keys, hk]))
    simp [PT.find, hl, hr]

theorem Up.keys_nodup {root x : PT} {c : List (PT × PT)} (hup : Up root x c)
    (hnd : root.keys.Nodup) : x.keys.Nodup := by
  induction hup with
  | top => exact hnd
  | left _ ih => exact (PT.keys_parts _ _ _ ih).1
  | right _ ih => exact (PT.keys_parts _ _ _ ih).2.1

theorem PT.find_some_of_mem (k : Nat) (t : PT) (hk : k ∈ t.keys) :
    ∃ q, t.find (k : Int) = some q := by
  obtain ⟨c, hc⟩ := PT.chain_of_mem k t hk
  obtain ⟨p, _, _, hf, _⟩ := PT.chain_up (k : Int) t c hc
  exact ⟨p, hf⟩

/-- In a tree whose leaves carry pairwise different ids, the search from the root finds
what the search from a subtree finds, for the ids of that subtree. -/
theorem Up.find_eq {root x : PT} {c : List (PT × PT)} (hup : Up root x c)
    (hnd : root.keys.Nodup) :
    ∀ k ∈ x.keys, root.find (k : Int) = x.find (k : Int) := by
  induction hup with
  | top => intro _ _; rfl
  | @left p l r c hpar ih =>
    intro k hk
    rw [ih k (by simp [PT.keys, hk])]
    obtain ⟨q, hq⟩ := PT.find_some_of_mem k l hk
    simp [PT.find, hq]
  | @right p l r c hpar ih =>
    intro k hk
    rw [ih k (by simp [PT.keys, hk])]
    have hn := hpar.keys_nodup hnd
    obtain ⟨_, _, hd⟩ := PT.keys_parts p l r hn
    have hkl : k ∉ l.keys := fun hl => hd k hl hk
    simp [PT.find, PT.find_none_of_not_mem k l hkl]

theorem Up.reach {P : Type} {h : Heap P} {root x : PT} {c : List (PT × PT)}
    (hup : Up root x c) (hs : Shape h root) : Reach h root.ptr x.ptr := by
  induction hup with
  | top => exact Reach.top
  | @left p l r c hpar ih =>
    obtain ⟨s1, s2, _⟩ := hpar.sub_shape hs
    exact Reach.left ih s1 s2
  | @right p l r c hpar ih =>
    obtain ⟨s1, _, s3, _⟩ := hpar.sub_shape hs
    exact Reach.right ih s1 s3

/-- C12: for `n ≥ 2` users with ids `0..n-1`, on the tree that `BuildTree` returns,
`GetLeaf(id)` returns for every `0 ≤ id < n` a node of the tree that is a leaf with
`Index = id`, holds the proof and the two commitments made from `readings[id]` and
`blindings[id]`, and is the only leaf of the tree with that `Index`; for every other
integer `GetLeaf` returns nil. -/
theorem C12_GetLeaf_by_index {P : Type} [AddCommGroup P] (B : Backend P) (n : Nat)
    (hn : 2 ≤ n) (order : List Nat) (hperm : order.Perm (List.range n))
    (vs rs : Nat → Int) (delta : Int) (h : Heap P) (fuel : Nat) (hfuel : n ≤ fuel) :
    ∃ (root : Nat) (h2 : Heap P),
      BuildTree B fuel h order vs rs delta = some (root, h2) ∧
      (∀ i : Nat, i < n → ∃ leaf : Nat,
        GetLeaf fuel h2 root (i : Int) = some (some leaf) ∧
        Reach h2 root leaf ∧ (h2.cell leaf).IsLeaf = true ∧
        (h2.cell leaf).Index = (i : Int) ∧
        (h2.cell leaf).Pi = some (ProveGeneric B (vs i) (SetupGeneric 0 delta) (rs i)) ∧
        (h2.cell leaf).C1 = some (CommitG1 B (vs i - delta + B.MAX_RANGE_END) (rs i)) ∧
        (h2.cell leaf).C2 = some (CommitG1 B (vs i) (rs i)) ∧
        ∀ q, Reach h2 root q → (h2.cell q).IsLeaf = true →
          (h2.cell q).Index = (i : Int) → q = leaf) ∧
      (∀ idx : Int, (idx < 0 ∨ (n : Int) ≤ idx) → GetLeaf fuel h2 root idx = some none) := by
  obtain ⟨t, h2, e2, hr, hnd, hlt, hk⟩ :=
    BuildTree_spec B vs rs delta n hn order hperm h fuel hfuel
  have hlen : t.keys.length = n := by rw [hk, List.length_range]
  have hdepth : t.depth < fuel := by
    have := t.depth_lt_length
    omega
  have hs := Repr.shape B vs rs delta t hr
  have hkn : t.keys.Nodup := by rw [hk]; exact List.nodup_range n
  refine ⟨t.ptr, h2, e2, ?_, ?_⟩
  · intro i hi
    obtain ⟨c, hc⟩ := PT.chain_of_mem i t (by rw [hk]; exact List.mem_range.2 hi)
    obtain ⟨p, k, hki, hfind, hup⟩ := PT.chain_up (i : Int) t c hc
    have hki1 : k = i := by exact_mod_cast hki
    subst hki1
    have hrl := hup.sub_repr hr
    have hsl := hup.sub_shape hs
    have hC1 := Repr.C1_eq B vs rs delta _ hrl trivial
    have hC2 := Repr.C2_eq B vs rs delta _ hrl trivial
    have hst : (h2.cell p).strip = PT.expect B vs rs delta (PT.leaf p k) := hrl
    have hPi : (h2.cell p).Pi =
        some (ProveGeneric B (vs k) (SetupGeneric 0 delta) (rs k)) :=
      congrArg Node.Pi hst
    simp only [PT.ptr_leaf, PT.val, PT.size, PT.seed, mul_one] at hC1 hC2
    refine ⟨p, ?_, hup.reach hs, hsl.1, hsl.2, hPi, hC1, hC2, ?_⟩
    · rw [GetLeaf_spec (k : Int) t fuel hs hdepth, hfind]
    · intro q hq hleaf hidx
      obtain ⟨x, cx, hupx, hx⟩ := Reach.sub hs hq
      have hsx := hupx.sub_shape hs
      match x, hupx, hx, hsx with
      | PT.node a l r, _, hx, hsx =>
        simp only [PT.ptr_node] at hx
        subst hx
        rw [hsx.1] at hleaf
        cases hleaf
      | PT.leaf a j, hupx, hx, hsx =>
        simp only [PT.ptr_leaf] at hx
        subst hx
        have hj : j = k := by
          have := hsx.2.symm.trans hidx
          exact_mod_cast this
        subst hj
        have h1 := hupx.find_eq hkn j (by simp [PT.keys])
        rw [hfind] at h1
        simp only [PT.find, if_true] at h1
        exact (Option.some.inj h1).symm
  · intro idx hidx
    rw [GetLeaf_spec idx t fuel hs hdepth, PT.find_none_of_keys idx t]
    intro k hkk
    rw [hk, List.mem_range] at hkk
    omega

theorem C12_GetLeaf_by_index_witness :
    ∃ (root : Nat) (h2 : Heap (Int × Int)),
      BuildTree exampleBackend 3 (Heap.empty _) [1, 2, 0] exampleReadings
        exampleBlindings 120 = some (root, h2) ∧
      (∀ i : Nat, i < 3 → ∃ leaf : Nat,
        GetLeaf 3 h2 root (i : Int) = some (some leaf) ∧
        Reach h2 root leaf ∧ (h2.cell leaf).IsLeaf = true ∧
        (h2.cell leaf).Index = (i : Int) ∧
        (h2.cell leaf).Pi = some (ProveGeneric exampleBackend (exampleReadings i)
          (SetupGeneric 0 120) (exampleBlindings i)) ∧
        (h2.cell leaf).C1 = some (CommitG1 exampleBackend
          (exampleReadings i - 120 + exampleBackend.MAX_RANGE_END) (exampleBlindings i)) ∧
        (h2.cell leaf).C2 = some (CommitG1 exampleBackend (exampleReadings i)
          (exampleBlindings i)) ∧
        ∀ q, Reach h2 root q → (h2.cell q).IsLeaf = true →
          (h2.cell q).Index = (i : Int) → q = leaf) ∧
      (∀ idx : Int, (idx < 0 ∨ ((3 : Nat) : Int) ≤ idx) →
        GetLeaf 3 h2 root idx = some none) :=
  C12_GetLeaf_by_index exampleBackend 3 (by decide) [1, 2, 0] (by decide)
    exampleReadings exampleBlindings 120 (Heap.empty _) 3 (by decide)

/-! ## The verdict of `VerifyStructure` on any path -/

theorem verifyCommitmentSum_eq {P : Type} [AddCommGroup P] [DecidableEq P]
    (B : Backend P) (h : Heap P) (r a b : Nat) (delta : Int) :
    verifyCommitmentSum B h r a b delta =
      if decodable h r && decodable h a && decodable h b then
        some (levelEqualities B h r a b)
      else none := by
  simp only [verifyCommitmentSum, verifyCommitmentSumWith, levelEqualities, decodable,
    pointAdd, pointEquals]
  cases (h.cell a).C1 <;> cases (h.cell b).C1 <;> cases (h.cell r).C1 <;>
    cases (h.cell a).C2 <;> cases (h.cell b).C2 <;> cases (h.cell r).C2 <;>
    simp
  rename_i c1a c1b c1r c2a c2b c2r
  by_cases hc : c2a + c2b = c2r <;> simp [hc]

theorem levelEqualities_decodable {P : Type} [AddCommGroup P] [DecidableEq P]
    (B : Backend P) (h : Heap P) (r a b : Nat)
    (he : levelEqualities B h r a b = true) :
    (decodable h r && decodable h a && decodable h b) = true := by
  revert he
  simp only [levelEqualities, decodable]
  cases (h.cell a).C1 <;> cases (h.cell b).C1 <;> cases (h.cell r).C1 <;>
    cases (h.cell a).C2 <;> cases (h.cell b).C2 <;> cases (h.cell r).C2 <;>
    simp

theorem VerifyStructure.loop_firstFail {P : Type} [AddCommGroup P] [DecidableEq P]
    (B : Backend P) (h : Heap P) (p : Path) (delta : Int) :
    ∀ (gas i : Nat), p.Edge.length ≤ gas + i →
      VerifyStructure.loop B h p delta gas i =
        firstFail ((List.range' i (p.Edge.length - i)).map (levelCheck B h p delta))
  | 0, i, hg => by
    have h0 : p.Edge.length - i = 0 := by omega
    have h1 : ¬ i < p.Edge.length := by omega
    simp [VerifyStructure.loop, h0, h1, firstFail]
  | gas + 1, i, hg => by
    by_cases hi : i < p.Edge.length
    · have h0 : p.Edge.length - i = (p.Edge.length - (i + 1)) + 1 := by omega
      have ih := VerifyStructure.loop_firstFail B h p delta gas (i + 1) (by omega)
      rw [VerifyStructure.loop, h0, List.range'_succ]
      simp only [hi, if_true, List.map_cons, levelCheck]
      cases p.Core[i+1]? <;> cases p.Core[i]? <;> cases p.Edge[i]? <;>
        simp only [firstFail]
      rename_i parent child sibling
      rw [ih]
      cases verifyCommitmentSum B h parent child sibling delta with
      | none => rfl
      | some v => cases v <;> simp only [firstFail, levelCheck]
    · have h0 : p.Edge.length - i = 0 := by omega
      simp [VerifyStructure.loop, h0, hi, firstFail]

theorem VerifyStructure_firstFail {P : Type} [AddCommGroup P] [DecidableEq P]
    (B : Backend P) (h : Heap P) (p : Path) (delta : Int) :
    VerifyStructure B h p delta =
      firstFail ((List.range p.Edge.length).map (levelCheck B h p delta)) := by
  rw [VerifyStructure, VerifyStructure.loop_firstFail B h p delta _ 0 (by omega),
    List.range_eq_range']
  rfl

theorem firstFail_true_iff :
    ∀ l : List (Option Bool), firstFail l = some true ↔ ∀ x ∈ l, x = some true
  | [] => by simp [firstFail]
  | none :: l => by simp [firstFail]
  | some false :: l => by simp [firstFail]
  | some true :: l => by simp [firstFail, firstFail_true_iff l]

theorem firstFail_false_at :
    ∀ (l : List (Option Bool)) (i : Nat), l[i]? = some (some false) →
      (∀ j, j < i → l[j]? = some (some true)) → firstFail l = some false
  | [], i, hi, _ => by simp at hi
  | x :: l, 0, hi, _ => by
    simp only [List.getElem?_cons_zero, Option.some.injEq] at hi
    subst hi
    rfl
  | x :: l, i + 1, hi, hj => by
    have h0 := hj 0 (by omega)
    simp only [List.getElem?_cons_zero, Option.some.injEq] at h0
    subst h0
    simp only [firstFail]
    exact firstFail_false_at l i (by simpa using hi)
      (fun j hji => by simpa using hj (j + 1) (by omega))

theorem levelCheck_eq {P : Type} [AddCommGroup P] [DecidableEq P] (B : Backend P)
    (h : Heap P) (p : Path) (delta : Int) (i parent child sibling : Nat)
    (h1 : p.Core[i+1]? = some parent) (h2 : p.Core[i]? = some child)
    (h3 : p.Edge[i]? = some sibling) :
    levelCheck B h p delta i =
      if decodable h parent && decodable h child && decodable h sibling then
        some (levelEqualities B h parent child sibling)
      else none := by
  simp only [levelCheck, h1, h2, h3, verifyCommitmentSum_eq]

/-- C13: for every path with `len(Core) = len(Edge) + 1`, over any heap and for any
`delta`, `VerifyStructure` returns `true` exactly when both level equalities hold for
every triple `(Core[i+1], Core[i], Edge[i])` with `i < len(Edge)`; it returns `false` as
soon as a level whose commitments decode fails while all levels before it hold, whatever
the later levels are; a path with an empty `Edge` is accepted. -/
theorem C13_VerifyStructure_levels {P : Type} [AddCommGroup P] [DecidableEq P]
    (B : Backend P) (h : Heap P) (p : Path) (delta : Int)
    (hlen : p.Core.length = p.Edge.length + 1) :
    (VerifyStructure B h p delta = some true ↔
      ∀ (i parent child sibling : Nat), p.Core[i+1]? = some parent →
        p.Core[i]? = some child → p.Edge[i]? = some sibling →
        levelEqualities B h parent child sibling = true) ∧
    (∀ (i parent child sibling : Nat), p.Core[i+1]? = some parent →
        p.Core[i]? = some child → p.Edge[i]? = some sibling →
        (∀ (j par ch sib : Nat), j < i → p.Core[j+1]? = some par → p.Core[j]? = some ch →
          p.Edge[j]? = some sib → levelEqualities B h par ch sib = true) →
        (decodable h parent && decodable h child && decodable h sibling) = true →
        levelEqualities B h parent child sibling = false →
        VerifyStructure B h p delta = some false) ∧
    (p.Edge = [] → VerifyStructure B h p delta = some true) := by
  have hex : ∀ i, i < p.Edge.length → ∃ parent child sibling,
      p.Core[i+1]? = some parent ∧ p.Core[i]? = some child ∧ p.Edge[i]? = some sibling :=
    fun i hi => ⟨_, _, _, List.getElem?_eq_getElem (by omega),
      List.getElem?_eq_getElem (by omega), List.getElem?_eq_getElem hi⟩
  rw [VerifyStructure_firstFail]
  refine ⟨?_, ?_, ?_⟩
  · rw [firstFail_true_iff]
    constructor
    · intro hall i parent child sibling h1 h2 h3
      have hi : i < p.Edge.length := by
        rcases Nat.lt_or_ge i p.Edge.length with hlt | hge
        · exact hlt
        · rw [List.getElem?_eq_none hge] at h3
          cases h3
      have hx := hall (levelCheck B h p delta i)
        (List.mem_map.2 ⟨i, List.mem_range.2 hi, rfl⟩)
      rw [levelCheck_eq B h p delta i parent child sibling h1 h2 h3] at hx
      split at hx
      · exact Option.some.inj hx
      · cases hx
    · intro hall x hx
      obtain ⟨i, hi, rfl⟩ := List.mem_map.1 hx
      obtain ⟨parent, child, sibling, h1, h2, h3⟩ := hex i (List.mem_range.1 hi)
      have he := hall i parent child sibling h1 h2 h3
      rw [levelCheck_eq B h p delta i parent child sibling h1 h2 h3,
        levelEqualities_decodable B h parent child sibling he, if_pos rfl, he]
  · intro i parent child sibling h1 h2 h3 hbefore hdec hfail
    have hi : i < p.Edge.length := by
      rcases Nat.lt_or_ge i p.Edge.length with hlt | hge
      · exact hlt
      · rw [List.getElem?_eq_none hge] at h3
        cases h3
    apply firstFail_false_at _ i
    · rw [List.getElem?_map, List.getElem?_range hi, Option.map_some',
        levelCheck_eq B h p delta i parent child sibling h1 h2 h3, hdec, if_pos rfl, hfail]
    · intro j hj
      obtain ⟨par, ch, sib, g1, g2, g3⟩ := hex j (by omega)
      have he := hbefore j par ch sib hj g1 g2 g3
      rw [List.getElem?_map, List.getElem?_range (by omega), Option.map_some',
        levelCheck_eq B h p delta j par ch sib g1 g2 g3,
        levelEqualities_decodable B h par ch sib he, if_pos rfl, he]
  · intro he
    rw [he]
    rfl

theorem C13_VerifyStructure_levels_witness :
    (VerifyStructure exampleBackend exampleHeap ⟨[0, 2], [1]⟩ 120 = some true ↔
      ∀ (i parent child sibling : Nat), (⟨[0, 2], [1]⟩ : Path).Core[i+1]? = some parent →
        (⟨[0, 2], [1]⟩ : Path).Core[i]? = some child →
        (⟨[0, 2], [1]⟩ : Path).Edge[i]? = some sibling →
        levelEqualities exampleBackend exampleHeap parent child sibling = true) ∧
    (∀ (i parent child sibling : Nat), (⟨[0, 2], [1]⟩ : Path).Core[i+1]? = some parent →
        (⟨[0, 2], [1]⟩ : Path).Core[i]? = some child →
        (⟨[0, 2], [1]⟩ : Path).Edge[i]? = some sibling →
        (∀ (j par ch sib : Nat), j < i → (⟨[0, 2], [1]⟩ : Path).Core[j+1]? = some par →
          (⟨[0, 2], [1]⟩ : Path).Core[j]? = some ch →
          (⟨[0, 2], [1]⟩ : Path).Edge[j]? = some sib →
          levelEqualities exampleBackend exampleHeap par ch sib = true) →
        (decodable exampleHeap parent && decodable exampleHeap child &&
          decodable exampleHeap sibling) = true →
        levelEqualities exampleBackend exampleHeap parent child sibling = false →
        VerifyStructure exampleBackend exampleHeap ⟨[0, 2], [1]⟩ 120 = some false) ∧
    ((⟨[0, 2], [1]⟩ : Path).Edge = [] →
      VerifyStructure exampleBackend exampleHeap ⟨[0, 2], [1]⟩ 120 = some true) :=
  C13_VerifyStructure_levels exampleBackend exampleHeap ⟨[0, 2], [1]⟩ 120 (by decide)

/-! ## The verdict of the aggregate-sum check -/

theorem unmarshalInto_none {α : Type} (b : Option α) : unmarshalInto b none = b := by
  cases b <;> rfl

/-- What a run of the tree `checkSumProof` that comes to its end has computed: each
sub-result is the value of its comparison. -/
theorem TreeUser.checkSumProof_tree_some {P : Type} [AddCommGroup P] [DecidableEq P]
    (B : Backend P) (h : Heap P) (u : TreeUser P) (r : TreeSumCheck)
    (hr : u.checkSumProof B h = some r) :
    ∃ (path : Path) (root : Nat) (sumProof : ProofBPRP P) (c1r c2r : P),
      u.path = some path ∧
      index? path.Core ((path.Core.length : Int) - 1) = some root ∧
      u.sumProof = some sumProof ∧
      (h.cell root).C1 = some c1r ∧ (h.cell root).C2 = some c2r ∧
      r.ok1 = decide (u.nUsers = (h.cell root).L) ∧
      r.ok2 = decide (sumProof.P1V = c1r) ∧
      r.ok3 = decide (sumProof.P2V + CommitG1 B (wrap64 (10 + u.gamma)) 10 =
        c2r + CommitG1 B 10 10) ∧
      r.ok4 = B.Verify sumProof ∧
      r.verdict = (if r.ok1 && r.ok2 && r.ok3 && r.ok4 then Verdict.canCharge
        else if r.ok1 && r.ok2 && r.ok3 then Verdict.cannotCharge else Verdict.failed) := by
  simp only [TreeUser.checkSumProof] at hr
  split at hr
  · cases hr
  · rename_i path hpath
    split at hr
    · cases hr
    · rename_i root hroot
      split at hr
      · cases hr
      · rename_i sumProof hsp
        revert hr
        cases hc1 : (h.cell root).C1 with
        | none =>
          cases hc2 : (h.cell root).C2 <;> simp [unmarshalInto, pointAdd, pointEquals]
        | some c1r =>
          cases hc2 : (h.cell root).C2 with
          | none => simp [unmarshalInto, pointAdd, pointEquals]
          | some c2r =>
            simp only [unmarshalInto, pointAdd, pointEquals, Option.some.injEq]
            intro hr
            subst hr
            exact ⟨path, root, sumProof, c1r, c2r, hpath, hroot, hsp, hc1, hc2, rfl, rfl,
              rfl, rfl, rfl⟩

/-- What a run of the flat `checkSumProof` that comes to its end has computed: each
sub-result is the value of its comparison. -/
theorem FlatUser.checkSumProof_flat_some {P : Type} [AddCommGroup P] [DecidableEq P]
    (B : Backend P) (u : FlatUser P) (r : FlatSumCheck)
    (hr : u.checkSumProof B = some r) :
    ∃ (sumProof : ProofBPRP P) (st : StarState P) (sumV1 Cstar1 sumV2 Cstar2 : P),
      u.sumProof = some sumProof ∧
      FlatUser.starLoop B u (List.range' 1 (u.commits2.len - 1))
        ⟨none, none, u.commits1.bytes 0, u.commits2.bytes 0⟩ = some st ∧
      backendAdd B (some sumProof.P1V) (some (CommitG1 B
        (wrap64 (wrap64 (10 - wrap64 (u.delta * u.nUsers)) +
          wrap64 (B.MAX_RANGE_END * u.nUsers))) 10)) = some sumV1 ∧
      backendAdd B st.Cstar1 (some (CommitG1 B
        (wrap64 (wrap64 (10 - wrap64 (u.delta * u.nUsers)) + B.MAX_RANGE_END)) 10)) =
          some Cstar1 ∧
      backendAdd B (some sumProof.P2V) (some (CommitG1 B 10 10)) = some sumV2 ∧
      backendAdd B st.Cstar2 (some (CommitG1 B (wrap64 (10 - u.gamma)) 10)) =
        some Cstar2 ∧
      r.ok1 = decide (sumV1 = Cstar1) ∧ r.ok2 = decide (sumV2 = Cstar2) ∧
      r.ok3 = B.Verify sumProof ∧
      r.verdict = (if r.ok1 && r.ok2 && r.ok3 then Verdict.canCharge
        else if r.ok1 && r.ok2 then Verdict.cannotCharge else Verdict.failed) := by
  simp only [FlatUser.checkSumProof, unmarshalInto_none] at hr
  split at hr
  · cases hr
  · rename_i sumProof hsp
    split at hr
    · cases hr
    · rename_i st hst
      split at hr
      · rename_i sumV1 Cstar1 sumV2 Cstar2 e1 e2 e3 e4
        simp only [pointEquals, Option.some.injEq] at hr
        subst hr
        exact ⟨sumProof, st, sumV1, Cstar1, sumV2, Cstar2, hsp, hst, e1, e2, e3, e4, rfl,
          rfl, rfl, rfl⟩
      · cases hr

/-- C18: whenever `checkSumProof` runs to its end, each sub-result is the value of its
comparison and the outcome printed is a function of the sub-results. Tree variant
(`ok1`: `nUsers == root.L`; `ok2`, commitment 1 matched: `sumProof.P1.V` equals the `C1`
of the last `Core` entry; `ok3`, commitment 2 matched: `sumProof.P2.V + eta2` equals
the `C2` of that entry plus `zeta2`; `ok4`: the verdict of `sumProof.Verify()`): "can
charge" exactly when all four hold, "CANNOT charge" exactly when the first three hold
and `ok4` does not, FAILED in every other case; in particular a declared `nUsers`
different from the `L` of the last `Core` entry gives FAILED. Flat variant (`ok1`,
commitment 1 matched: `sumProof.P1.V + eta1` equals the sum `Cstar1` of all `commits1`
plus `zeta1`; `ok2`, commitment 2 matched: the same for `P2.V`, `eta2`, `Cstar2`,
`zeta2`; `ok3`: the verdict of `sumProof.Verify()`): "can charge" exactly when all three
hold, "CANNOT charge" exactly when the first two hold and `ok3` does not, FAILED in
every other case. -/
theorem C18_sum_check_verdict {P : Type} [AddCommGroup P] [DecidableEq P]
    (B : Backend P) (h : Heap P) (u : TreeUser P) (r : TreeSumCheck)
    (hr : u.checkSumProof B h = some r) (fu : FlatUser P) (fr : FlatSumCheck)
    (hfr : fu.checkSumProof B = some fr) :
    (∃ (path : Path) (root : Nat) (sumProof : ProofBPRP P) (c1r c2r : P),
      u.path = some path ∧
      index? path.Core ((path.Core.length : Int) - 1) = some root ∧
      u.sumProof = some sumProof ∧
      (h.cell root).C1 = some c1r ∧ (h.cell root).C2 = some c2r ∧
      (r.ok1 = true ↔ u.nUsers = (h.cell root).L) ∧
      (r.ok2 = true ↔ sumProof.P1V = c1r) ∧
      (r.ok3 = true ↔ sumProof.P2V + CommitG1 B (wrap64 (10 + u.gamma)) 10 =
        c2r + CommitG1 B 10 10) ∧
      (r.ok4 = true ↔ B.Verify sumProof = true) ∧
      (r.verdict = Verdict.canCharge ↔
        (u.nUsers = (h.cell root).L ∧ sumProof.P1V = c1r ∧
          sumProof.P2V + CommitG1 B (wrap64 (10 + u.gamma)) 10 = c2r + CommitG1 B 10 10 ∧
          B.Verify sumProof = true)) ∧
      (r.verdict = Verdict.cannotCharge ↔
        (u.nUsers = (h.cell root).L ∧ sumProof.P1V = c1r ∧
          sumProof.P2V + CommitG1 B (wrap64 (10 + u.gamma)) 10 = c2r + CommitG1 B 10 10 ∧
          B.Verify sumProof = false)) ∧
      (r.verdict = Verdict.failed ↔
        ¬ (u.nUsers = (h.cell root).L ∧ sumProof.P1V = c1r ∧
          sumProof.P2V + CommitG1 B (wrap64 (10 + u.gamma)) 10 =
            c2r + CommitG1 B 10 10)) ∧
      (u.nUsers ≠ (h.cell root).L → r.verdict = Verdict.failed)) ∧
    (∃ (sumProof : ProofBPRP P) (st : StarState P) (sumV1 Cstar1 sumV2 Cstar2 : P),
      fu.sumProof = some sumProof ∧
      FlatUser.starLoop B fu (List.range' 1 (fu.commits2.len - 1))
        ⟨none, none, fu.commits1.bytes 0, fu.commits2.bytes 0⟩ = some st ∧
      backendAdd B (some sumProof.P1V) (some (CommitG1 B
        (wrap64 (wrap64 (10 - wrap64 (fu.delta * fu.nUsers)) +
          wrap64 (B.MAX_RANGE_END * fu.nUsers))) 10)) = some sumV1 ∧
      backendAdd B st.Cstar1 (some (CommitG1 B
        (wrap64 (wrap64 (10 - wrap64 (fu.delta * fu.nUsers)) + B.MAX_RANGE_END)) 10)) =
          some Cstar1 ∧
      backendAdd B (some sumProof.P2V) (some (CommitG1 B 10 10)) = some sumV2 ∧
      backendAdd B st.Cstar2 (some (CommitG1 B (wrap64 (10 - fu.gamma)) 10)) =
        some Cstar2 ∧
      (fr.ok1 = true ↔ sumV1 = Cstar1) ∧ (fr.ok2 = true ↔ sumV2 = Cstar2) ∧
      (fr.ok3 = true ↔ B.Verify sumProof = true) ∧
      (fr.verdict = Verdict.canCharge ↔
        (sumV1 = Cstar1 ∧ sumV2 = Cstar2 ∧ B.Verify sumProof = true)) ∧
      (fr.verdict = Verdict.cannotCharge ↔
        (sumV1 = Cstar1 ∧ sumV2 = Cstar2 ∧ B.Verify sumProof = false)) ∧
      (fr.verdict = Verdict.failed ↔ ¬ (sumV1 = Cstar1 ∧ sumV2 = Cstar2))) := by
  obtain ⟨path, root, sumProof, c1r, c2r, hpath, hroot, hsp, hc1, hc2, h1, h2, h3, h4,
    hv⟩ := TreeUser.checkSumProof_tree_some B h u r hr
  obtain ⟨fsp, st, sumV1, Cstar1, sumV2, Cstar2, hfsp, hst, e1, e2, e3, e4, f1, f2, f3,
    fv⟩ := FlatUser.checkSumProof_flat_some B fu fr hfr
  refine ⟨⟨path, root, sumProof, c1r, c2r, hpath, hroot, hsp, hc1, hc2, by simp [h1],
    by simp [h2], by simp [h3], by simp [h4], ?_, ?_, ?_, ?_⟩,
    fsp, st, sumV1, Cstar1, sumV2, Cstar2, hfsp, hst, e1, e2, e3, e4, by simp [f1],
    by simp [f2], by simp [f3], ?_, ?_, ?_⟩
  · rw [hv, h1, h2, h3, h4]
    by_cases a1 : u.nUsers = (h.cell root).L <;> by_cases a2 : sumProof.P1V = c1r <;>
      by_cases a3 : sumProof.P2V + CommitG1 B (wrap64 (10 + u.gamma)) 10 =
        c2r + CommitG1 B 10 10 <;> cases B.Verify sumProof <;> simp [a1, a2, a3]
  · rw [hv, h1, h2, h3, h4]
    by_cases a1 : u.nUsers = (h.cell root).L <;> by_cases a2 : sumProof.P1V = c1r <;>
      by_cases a3 : sumProof.P2V + CommitG1 B (wrap64 (10 + u.gamma)) 10 =
        c2r + CommitG1 B 10 10 <;> cases B.Verify sumProof <;> simp [a1, a2, a3]
  · rw [hv, h1, h2, h3, h4]
    by_cases a1 : u.nUsers = (h.cell root).L <;> by_cases a2 : sumProof.P1V = c1r <;>
      by_cases a3 : sumProof.P2V + CommitG1 B (wrap64 (10 + u.gamma)) 10 =
        c2r + CommitG1 B 10 10 <;> cases B.Verify sumProof <;> simp [a1, a2, a3]
  · intro hne
    rw [hv, h1]
    simp [hne]
  · rw [fv, f1, f2, f3]
    by_cases a1 : sumV1 = Cstar1 <;> by_cases a2 : sumV2 = Cstar2 <;>
      cases B.Verify fsp <;> simp [a1, a2]
  · rw [fv, f1, f2, f3]
    by_cases a1 : sumV1 = Cstar1 <;> by_cases a2 : sumV2 = Cstar2 <;>
      cases B.Verify fsp <;> simp [a1, a2]
  · rw [fv, f1, f2, f3]
    by_cases a1 : sumV1 = Cstar1 <;> by_cases a2 : sumV2 = Cstar2 <;>
      cases B.Verify fsp <;> simp [a1, a2]

theorem C18_sum_check_verdict_witness :
    (∃ (path : Path) (root : Nat) (sumProof : ProofBPRP (Int × Int)) (c1r c2r : Int × Int),
      exampleWrongCount.path = some path ∧
      index? path.Core ((path.Core.length : Int) - 1) = some root ∧
      exampleWrongCount.sumProof = some sumProof ∧
      (exampleHeap.cell root).C1 = some c1r ∧ (exampleHeap.cell root).C2 = some c2r ∧
      (false = true ↔ exampleWrongCount.nUsers = (exampleHeap.cell root).L) ∧
      (true = true ↔ sumProof.P1V = c1r) ∧
      (true = true ↔
        sumProof.P2V + CommitG1 exampleBackend (wrap64 (10 + exampleWrongCount.gamma)) 10 =
          c2r + CommitG1 exampleBackend 10 10) ∧
      (true = true ↔ exampleBackend.Verify sumProof = true) ∧
      (Verdict.failed = Verdict.canCharge ↔
        (exampleWrongCount.nUsers = (exampleHeap.cell root).L ∧ sumProof.P1V = c1r ∧
          sumProof.P2V +
              CommitG1 exampleBackend (wrap64 (10 + exampleWrongCount.gamma)) 10 =
            c2r + CommitG1 exampleBackend 10 10 ∧
          exampleBackend.Verify sumProof = true)) ∧
      (Verdict.failed = Verdict.cannotCharge ↔
        (exampleWrongCount.nUsers = (exampleHeap.cell root).L ∧ sumProof.P1V = c1r ∧
          sumProof.P2V +
              CommitG1 exampleBackend (wrap64 (10 + exampleWrongCount.gamma)) 10 =
            c2r + CommitG1 exampleBackend 10 10 ∧
          exampleBackend.Verify sumProof = false)) ∧
      (Verdict.failed = Verdict.failed ↔
        ¬ (exampleWrongCount.nUsers = (exampleHeap.cell root).L ∧ sumProof.P1V = c1r ∧
          sumProof.P2V +
              CommitG1 exampleBackend (wrap64 (10 + exampleWrongCount.gamma)) 10 =
            c2r + CommitG1 exampleBackend 10 10)) ∧
      (exampleWrongCount.nUsers ≠ (exampleHeap.cell root).L →
        Verdict.failed = Verdict.failed)) ∧
    (∃ (sumProof : ProofBPRP (Int × Int)) (st : StarState (Int × Int))
        (sumV1 Cstar1 sumV2 Cstar2 : Int × Int),
      exampleFlatUser.sumProof = some sumProof ∧
      FlatUser.starLoop exampleBackend exampleFlatUser
        (List.range' 1 (exampleFlatUser.commits2.len - 1))
        ⟨none, none, exampleFlatUser.commits1.bytes 0, exampleFlatUser.commits2.bytes 0⟩ =
          some st ∧
      backendAdd exampleBackend (some sumProof.P1V) (some (CommitG1 exampleBackend
        (wrap64 (wrap64 (10 - wrap64 (exampleFlatUser.delta * exampleFlatUser.nUsers)) +
          wrap64 (exampleBackend.MAX_RANGE_END * exampleFlatUser.nUsers))) 10)) =
          some sumV1 ∧
      backendAdd exampleBackend st.Cstar1 (some (CommitG1 exampleBackend
        (wrap64 (wrap64 (10 - wrap64 (exampleFlatUser.delta * exampleFlatUser.nUsers)) +
          exampleBackend.MAX_RANGE_END)) 10)) = some Cstar1 ∧
      backendAdd exampleBackend (some sumProof.P2V)
        (some (CommitG1 exampleBackend 10 10)) = some sumV2 ∧
      backendAdd exampleBackend st.Cstar2
        (some (CommitG1 exampleBackend (wrap64 (10 - exampleFlatUser.gamma)) 10)) =
          some Cstar2 ∧
      (true = true ↔ sumV1 = Cstar1) ∧ (true = true ↔ sumV2 = Cstar2) ∧
      (true = true ↔ exampleBackend.Verify sumProof = true) ∧
      (Verdict.canCharge = Verdict.canCharge ↔
        (sumV1 = Cstar1 ∧ sumV2 = Cstar2 ∧ exampleBackend.Verify sumProof = true)) ∧
      (Verdict.canCharge = Verdict.cannotCharge ↔
        (sumV1 = Cstar1 ∧ sumV2 = Cstar2 ∧ exampleBackend.Verify sumProof = false)) ∧
      (Verdict.canCharge = Verdict.failed ↔ ¬ (sumV1 = Cstar1 ∧ sumV2 = Cstar2))) :=
  C18_sum_check_verdict exampleBackend exampleHeap exampleWrongCount
    ⟨false, true, true, true, Verdict.failed⟩ (by decide) exampleFlatUser
    ⟨true, true, true, Verdict.canCharge⟩ (by decide)

/-! ## The verdict of `VerifyProofs` -/

/-- On nodes all of whose byte fields decode, a loop of `VerifyProofs` checks every node
against its own fields. -/
theorem VerifyProofs.loop_decodable {P : Type} [DecidableEq P] (B : Backend P)
    (h : Heap P) :
    ∀ (qs : List Nat) (st : ProofVars P),
      (∀ q ∈ qs, (h.cell q).Pi.isSome ∧ (h.cell q).C1.isSome ∧ (h.cell q).C2.isSome) →
      ∃ st1, VerifyProofs.loop B h qs st = some (st1, qs.all (nodeProofOk B h))
  | [], st, _ => ⟨st, rfl⟩
  | q :: qs, st, hq => by
    obtain ⟨h1, h2, h3⟩ := hq q (by simp)
    obtain ⟨pr, hpr⟩ := Option.isSome_iff_exists.1 h1
    obtain ⟨c1, hc1⟩ := Option.isSome_iff_exists.1 h2
    obtain ⟨c2, hc2⟩ := Option.isSome_iff_exists.1 h3
    have hb : VerifyProofs.body B h st q =
        some (⟨some pr, some c1, some c2, true⟩, nodeProofOk B h q) := by
      simp [VerifyProofs.body, nodeProofOk, hpr, hc1, hc2, unmarshalInto, pointEquals,
        verifyInPlace]
    rw [VerifyProofs.loop, hb, List.all_cons]
    cases hok : nodeProofOk B h q with
    | false => exact ⟨_, rfl⟩
    | true =>
      obtain ⟨st1, e1⟩ := VerifyProofs.loop_decodable B h qs
        ⟨some pr, some c1, some c2, true⟩ (fun x hx => hq x (by simp [hx]))
      exact ⟨st1, by simpa using e1⟩

/-- On a path all of whose nodes have byte fields that decode, `VerifyProofs` returns
`true` exactly when every node passes the three conditions on its own fields. -/
theorem VerifyProofs_decodable {P : Type} [DecidableEq P] (B : Backend P) (h : Heap P)
    (p : Path)
    (hd : ∀ q ∈ p.Core ++ p.Edge,
      (h.cell q).Pi.isSome ∧ (h.cell q).C1.isSome ∧ (h.cell q).C2.isSome) :
    VerifyProofs B h p = some ((p.Core ++ p.Edge).all (nodeProofOk B h)) := by
  obtain ⟨st1, e1⟩ := VerifyProofs.loop_decodable B h p.Core ⟨none, none, none, false⟩
    (fun q hq => hd q (by simp [hq]))
  obtain ⟨st2, e2⟩ := VerifyProofs.loop_decodable B h p.Edge st1
    (fun q hq => hd q (by simp [hq]))
  rw [VerifyProofs, e1, List.all_append]
  cases hc : p.Core.all (nodeProofOk B h) with
  | false => rfl
  | true => simp only [e2, Bool.true_and]

/-- C14 (failing input): over `exampleStale`, the path with `Core = [0, 2]` and
`Edge = [4]` has two valid `Core` nodes, while its `Edge` node `4` holds a copy of the
`Pi` of the node `2` and neither its `C1` nor its `C2` decodes, so that this node fails
the conditions on its own fields; yet `VerifyProofs` returns `true`: the proof of the
node `4` is compared with the commitments decoded for the node `2` before it. -/
theorem C14_VerifyProofs_accepts_stale_commitments :
    (exampleStale.cell 4).Pi = (exampleStale.cell 2).Pi ∧
    (exampleStale.cell 4).C1 = none ∧ (exampleStale.cell 4).C2 = none ∧
    nodeProofOk exampleBackend exampleStale 0 = true ∧
    nodeProofOk exampleBackend exampleStale 2 = true ∧
    nodeProofOk exampleBackend exampleStale 4 = false ∧
    VerifyProofs exampleBackend exampleStale ⟨[0, 2], [4]⟩ = some true := by
  decide

/-! ## Paths of inconsistent lengths -/

theorem firstFail_none_at :
    ∀ (l : List (Option Bool)) (i : Nat), l[i]? = some none →
      (∀ j, j < i → l[j]? = some (some true)) → firstFail l = none
  | [], i, hi, _ => by simp at hi
  | x :: l, 0, hi, _ => by
    simp only [List.getElem?_cons_zero, Option.some.injEq] at hi
    subst hi
    rfl
  | x :: l, i + 1, hi, hj => by
    have h0 := hj 0 (by omega)
    simp only [List.getElem?_cons_zero, Option.some.injEq] at h0
    subst h0
    simp only [firstFail]
    exact firstFail_none_at l i (by simpa using hi)
      (fun j hji => by simpa using hj (j + 1) (by omega))

/-- With more `Core` entries than `Edge` entries, `VerifyStructure` returns `true`
exactly when both level equalities hold on every level. -/
theorem VerifyStructure_true_iff {P : Type} [AddCommGroup P] [DecidableEq P]
    (B : Backend P) (h : Heap P) (p : Path) (delta : Int)
    (hlen : p.Edge.length < p.Core.length) :
    VerifyStructure B h p delta = some true ↔
      ∀ (i parent child sibling : Nat), p.Core[i+1]? = some parent →
        p.Core[i]? = some child → p.Edge[i]? = some sibling →
        levelEqualities B h parent child sibling = true := by
  have hex : ∀ i, i < p.Edge.length → ∃ parent child sibling,
      p.Core[i+1]? = some parent ∧ p.Core[i]? = some child ∧ p.Edge[i]? = some sibling :=
    fun i hi => ⟨_, _, _, List.getElem?_eq_getElem (by omega),
      List.getElem?_eq_getElem (by omega), List.getElem?_eq_getElem hi⟩
  rw [VerifyStructure_firstFail, firstFail_true_iff]
  constructor
  · intro hall i parent child sibling h1 h2 h3
    have hi : i < p.Edge.length := by
      rcases Nat.lt_or_ge i p.Edge.length with hlt | hge
      · exact hlt
      · rw [List.getElem?_eq_none hge] at h3
        cases h3
    have hx := hall (levelCheck B h p delta i)
      (List.mem_map.2 ⟨i, List.mem_range.2 hi, rfl⟩)
    rw [levelCheck_eq B h p delta i parent child sibling h1 h2 h3] at hx
    split at hx
    · exact Option.some.inj hx
    · cases hx
  · intro hall x hx
    obtain ⟨i, hi, rfl⟩ := List.mem_map.1 hx
    obtain ⟨parent, child, sibling, h1, h2, h3⟩ := hex i (List.mem_range.1 hi)
    have he := hall i parent child sibling h1 h2 h3
    rw [levelCheck_eq B h p delta i parent child sibling h1 h2 h3,
      levelEqualities_decodable B h parent child sibling he, if_pos rfl, he]

/-- C15 (counterexample): over `exampleHeap`, the path with `Core = [0, 2, 3]` and
`Edge = [1]` has inconsistent lengths and is accepted by `VerifyStructure`; the path
with `Core = [0]` and `Edge = [1]` has inconsistent lengths and makes `VerifyStructure`
abort on `Core[1]`. -/
theorem C15_counterexample :
    ((⟨[0, 2, 3], [1]⟩ : Path).Core.length ≠ (⟨[0, 2, 3], [1]⟩ : Path).Edge.length + 1 ∧
      VerifyStructure exampleBackend exampleHeap ⟨[0, 2, 3], [1]⟩ 120 = some true) ∧
    ((⟨[0], [1]⟩ : Path).Core.length ≠ (⟨[0], [1]⟩ : Path).Edge.length + 1 ∧
      VerifyStructure exampleBackend exampleHeap ⟨[0], [1]⟩ 120 = none) := by
  decide

/-- C15 (amended): on a path with `len(Core) ≠ len(Edge) + 1`, `VerifyStructure` has no
outcome of its own for the malformed path. Either `Core` is too long: then the entries
of `Core` beyond index `len(Edge)` are ignored, the result is that for the path cut to
`len(Edge) + 1` `Core` entries, and it is `true` exactly when both level equalities hold
on every level. Or `Core` is too short for a non-empty `Edge`: then the result is never
`true`, and the run aborts on an index out of range when every level that has its three
nodes holds. Or both `Core` and `Edge` are empty: then the path is accepted. -/
theorem C15_inconsistent_lengths {P : Type} [AddCommGroup P] [DecidableEq P]
    (B : Backend P) (h : Heap P) (p : Path) (delta : Int)
    (hne : p.Core.length ≠ p.Edge.length + 1) :
    (p.Edge.length + 1 < p.Core.length ∧
      VerifyStructure B h p delta =
        VerifyStructure B h ⟨p.Core.take (p.Edge.length + 1), p.Edge⟩ delta ∧
      (VerifyStructure B h p delta = some true ↔
        ∀ (i parent child sibling : Nat), p.Core[i+1]? = some parent →
          p.Core[i]? = some child → p.Edge[i]? = some sibling →
          levelEqualities B h parent child sibling = true)) ∨
    (p.Core.length ≤ p.Edge.length ∧ 0 < p.Edge.length ∧
      VerifyStructure B h p delta ≠ some true ∧
      ((∀ (i parent child sibling : Nat), p.Core[i+1]? = some parent →
          p.Core[i]? = some child → p.Edge[i]? = some sibling →
          levelEqualities B h parent child sibling = true) →
        VerifyStructure B h p delta = none)) ∨
    (p.Core = [] ∧ p.Edge = [] ∧ VerifyStructure B h p delta = some true) := by
  rcases Nat.lt_or_ge p.Edge.length p.Core.length with hlt | hge
  · left
    refine ⟨by omega, ?_, VerifyStructure_true_iff B h p delta hlt⟩
    rw [VerifyStructure_firstFail, VerifyStructure_firstFail]
    congr 1
    apply List.map_congr_left
    intro i hi
    have hi1 := List.mem_range.1 hi
    simp only [levelCheck, List.getElem?_take]
    rw [if_pos (by omega), if_pos (by omega)]
  · right
    rcases Nat.eq_zero_or_pos p.Edge.length with hz | hpos
    · right
      have hE : p.Edge = [] := List.length_eq_zero.1 hz
      have hC : p.Core = [] := List.length_eq_zero.1 (by omega)
      refine ⟨hC, hE, ?_⟩
      rw [VerifyStructure_firstFail, hE]
      rfl
    · left
      have hi : p.Core.length - 1 < p.Edge.length := by omega
      have hnone : levelCheck B h p delta (p.Core.length - 1) = none := by
        have h1 : p.Core[p.Core.length - 1 + 1]? = none :=
          List.getElem?_eq_none (by omega)
        simp [levelCheck, h1]
      refine ⟨hge, hpos, ?_, ?_⟩
      · rw [VerifyStructure_firstFail, Ne, firstFail_true_iff]
        intro hall
        have hx := hall _ (List.mem_map.2 ⟨_, List.mem_range.2 hi, rfl⟩)
        rw [hnone] at hx
        cases hx
      · intro hall
        rw [VerifyStructure_firstFail]
        apply firstFail_none_at _ (p.Core.length - 1)
        · rw [List.getElem?_map, List.getElem?_range hi, Option.map_some', hnone]
        · intro j hj
          obtain ⟨par, g1⟩ : ∃ x, p.Core[j+1]? = some x :=
            ⟨_, List.getElem?_eq_getElem (by omega)⟩
          obtain ⟨ch, g2⟩ : ∃ x, p.Core[j]? = some x :=
            ⟨_, List.getElem?_eq_getElem (by omega)⟩
          obtain ⟨sib, g3⟩ : ∃ x, p.Edge[j]? = some x :=
            ⟨_, List.getElem?_eq_getElem (by omega)⟩
          have he := hall j par ch sib g1 g2 g3
          rw [List.getElem?_map, List.getElem?_range (by omega), Option.map_some',
            levelCheck_eq B h p delta j par ch sib g1 g2 g3,
            levelEqualities_decodable B h par ch sib he, if_pos rfl, he]

theorem C15_inconsistent_lengths_witness :
    ((⟨[0, 2, 3], [1]⟩ : Path).Edge.length + 1 < (⟨[0, 2, 3], [1]⟩ : Path).Core.length ∧
      VerifyStructure exampleBackend exampleHeap ⟨[0, 2, 3], [1]⟩ 120 =
        VerifyStructure exampleBackend exampleHeap
          ⟨(⟨[0, 2, 3], [1]⟩ : Path).Core.take ((⟨[0, 2, 3], [1]⟩ : Path).Edge.length + 1),
            (⟨[0, 2, 3], [1]⟩ : Path).Edge⟩ 120 ∧
      (VerifyStructure exampleBackend exampleHeap ⟨[0, 2, 3], [1]⟩ 120 = some true ↔
        ∀ (i parent child sibling : Nat),
          (⟨[0, 2, 3], [1]⟩ : Path).Core[i+1]? = some parent →
          (⟨[0, 2, 3], [1]⟩ : Path).Core[i]? = some child →
          (⟨[0, 2, 3], [1]⟩ : Path).Edge[i]? = some sibling →
          levelEqualities exampleBackend exampleHeap parent child sibling = true)) ∨
    ((⟨[0, 2, 3], [1]⟩ : Path).Core.length ≤ (⟨[0, 2, 3], [1]⟩ : Path).Edge.length ∧
      0 < (⟨[0, 2, 3], [1]⟩ : Path).Edge.length ∧
      VerifyStructure exampleBackend exampleHeap ⟨[0, 2, 3], [1]⟩ 120 ≠ some true ∧
      ((∀ (i parent child sibling : Nat),
          (⟨[0, 2, 3], [1]⟩ : Path).Core[i+1]? = some parent →
          (⟨[0, 2, 3], [1]⟩ : Path).Core[i]? = some child →
          (⟨[0, 2, 3], [1]⟩ : Path).Edge[i]? = some sibling →
          levelEqualities exampleBackend exampleHeap parent child sibling = true) →
        VerifyStructure exampleBackend exampleHeap ⟨[0, 2, 3], [1]⟩ 120 = none)) ∨
    ((⟨[0, 2, 3], [1]⟩ : Path).Core = [] ∧ (⟨[0, 2, 3], [1]⟩ : Path).Edge = [] ∧
      VerifyStructure exampleBackend exampleHeap ⟨[0, 2, 3], [1]⟩ 120 = some true) :=
  C15_inconsistent_lengths exampleBackend exampleHeap ⟨[0, 2, 3], [1]⟩ 120 (by decide)

/-! ## The checks that `checkProofs` runs -/

/-- The `checkProofs` of `cmd/merkle/main.go` never reports on the third check. -/
theorem TreeUser.checkProofs_check3 {P : Type} [AddCommGroup P] [DecidableEq P]
    (B : Backend P) (h : Heap P) (u : TreeUser P) (r : Report)
    (hr : u.checkProofs B h = some r) :
    r.check3 = none ∧ r.check1 = u.checkCommitment B h ∧
      r.check2 = (u.checkSumProof B h).map TreeSumCheck.verdict := by
  simp only [TreeUser.checkProofs] at hr
  cases h1 : u.checkCommitment B h with
  | none => rw [h1] at hr; cases hr
  | some c1 =>
    cases h2 : u.checkSumProof B h with
    | none => rw [h1, h2] at hr; cases hr
    | some c2 =>
      rw [h1, h2] at hr
      simp only [Option.some.injEq] at hr
      subst hr
      exact ⟨rfl, rfl, rfl⟩

/-- The `checkProofs` of `transparent_pricing_merkle.go` reports on all three checks. -/
theorem TreeUser.checkProofsDemo_all {P : Type} [AddCommGroup P] [DecidableEq P]
    (B : Backend P) (h : Heap P) (u : TreeUser P) (r : Report)
    (hr : u.checkProofsDemo B h = some r) :
    r.check1 = u.checkCommitment B h ∧
      r.check2 = (u.checkSumProof B h).map TreeSumCheck.verdict ∧
      r.check3 = u.checkRangeProofs B h ∧ r.check1.isSome ∧ r.check2.isSome ∧
      r.check3.isSome := by
  simp only [TreeUser.checkProofsDemo] at hr
  cases h1 : u.checkCommitment B h with
  | none => rw [h1] at hr; cases hr
  | some c1 =>
    cases h2 : u.checkSumProof B h with
    | none => rw [h1, h2] at hr; cases hr
    | some c2 =>
      cases h3 : u.checkRangeProofs B h with
      | none => rw [h1, h2, h3] at hr; cases hr
      | some c3 =>
        rw [h1, h2, h3] at hr
        simp only [Option.some.injEq] at hr
        subst hr
        exact ⟨rfl, rfl, rfl, rfl, rfl, rfl⟩

/-- The `checkProofs` of `bp/transparent_pricing_bp.go` reports on all three checks. -/
theorem FlatUser.checkProofs_all {P : Type} [AddCommGroup P] [DecidableEq P]
    (B : Backend P) (u : FlatUser P) (r : Report)
    (hr : u.checkProofs B = some r) :
    r.check1 = u.checkCommitment B ∧
      r.check2 = (u.checkSumProof B).map FlatSumCheck.verdict ∧
      r.check3 = u.checkRangeProofs B ∧ r.check1.isSome ∧ r.check2.isSome ∧
      r.check3.isSome := by
  simp only [FlatUser.checkProofs] at hr
  cases h1 : u.checkCommitment B with
  | none => rw [h1] at hr; cases hr
  | some c1 =>
    cases h2 : u.checkSumProof B with
    | none => rw [h1, h2] at hr; cases hr
    | some c2 =>
      cases h3 : u.checkRangeProofs B with
      | none => rw [h1, h2, h3] at hr; cases hr
      | some c3 =>
        rw [h1, h2, h3] at hr
        simp only [Option.some.injEq] at hr
        subst hr
        exact ⟨rfl, rfl, rfl, rfl, rfl, rfl⟩

/-- C17 (failing input): for the record `exampleRecord` over `exampleHeap`, whose path
does not pass `VerifyStructure`, the range-proof check `checkRangeProofs` fails; the
`checkProofs` of `cmd/merkle/main.go` reports check 1 as succeeded and check 2 as "can
charge" and does not run check 3 at all, while the `checkProofs` of
`transparent_pricing_merkle.go` reports check 3 as failed on the same record, and the
`checkProofs` of the flat variant runs all three checks on a record of its own. -/
theorem C17_cli_checkProofs_skips_range_proofs :
    VerifyStructure exampleBackend exampleHeap ⟨[0, 2], [0]⟩ 120 = some false ∧
    exampleRecord.checkRangeProofs exampleBackend exampleHeap = some false ∧
    exampleRecord.checkProofs exampleBackend exampleHeap =
      some ⟨some true, some Verdict.canCharge, none⟩ ∧
    exampleRecord.checkProofsDemo exampleBackend exampleHeap =
      some ⟨some true, some Verdict.canCharge, some false⟩ ∧
    (flatRun exampleBackend 2 exampleReadings exampleBlindings 500 120 0).checkProofs
      exampleBackend = some ⟨some true, some Verdict.canCharge, some true⟩ := by
  decide

/-! ## The number of nodes that `BuildTree` makes -/

theorem PT.inner_add_one : ∀ t : PT, t.inner + 1 = t.keys.length
  | PT.leaf _ _ => rfl
  | PT.node _ l r => by
    have hl := PT.inner_add_one l
    have hr := PT.inner_add_one r
    simp only [PT.inner, PT.keys, List.length_append]
    omega

theorem countNodes_spec {P : Type} {h : Heap P} :
    ∀ (t : PT) (fuel : Nat), Shape h t → t.depth < fuel →
      countNodes fuel h t.ptr = some (t.keys.length, t.inner)
  | PT.leaf p k, fuel + 1, hs, _ => by
    simp [countNodes, hs.1, PT.keys, PT.inner]
  | PT.node p l r, fuel + 1, hs, hd => by
    obtain ⟨s1, s2, s3, _, _, s6, s7⟩ := hs
    have hdl : l.depth < fuel := by simp only [PT.depth] at hd; omega
    have hdr : r.depth < fuel := by simp only [PT.depth] at hd; omega
    simp [countNodes, s1, s2, s3, countNodes_spec l fuel s6 hdl,
      countNodes_spec r fuel s7 hdr, PT.keys, PT.inner]

theorem BuildTree.loop_next {P : Type} [AddCommGroup P] (B : Backend P) (vs rs : Nat → Int)
    (d : Int) (len : Nat) :
    ∀ (ks : List Nat) (st st1 : LeafSlices × Heap P),
      BuildTree.loop B vs rs d len ks st = some st1 →
      st1.2.next = st.2.next + ks.length ∧ st1.1.leaves.length = st.1.leaves.length
  | [], st, st1, he => by
    simp only [BuildTree.loop, Option.some.injEq] at he
    subst he
    exact ⟨rfl, rfl⟩
  | k :: ks, st, st1, he => by
    simp only [BuildTree.loop] at he
    cases hs : BuildTree.step B vs rs d len st k with
    | none => rw [hs] at he; cases he
    | some st2 =>
      rw [hs] at he
      obtain ⟨n1, l1⟩ := BuildTree.loop_next B vs rs d len ks st2 st1 he
      simp only [BuildTree.step] at hs
      split at hs
      · simp only [Option.some.injEq] at hs
        subst hs
        simp only [buildLeaf, Heap.modify_next, Heap.alloc_next, List.length_set] at n1 l1
        exact ⟨by simp only [List.length_cons]; omega, l1⟩
      · cases hs

theorem nonNil_length : ∀ (l : List (Option Nat)) (l1 : List Nat),
    nonNil l = some l1 → l1.length = l.length
  | [], l1, he => by
    simp only [nonNil, Option.some.injEq] at he
    subst he
    rfl
  | none :: _, l1, he => by simp [nonNil] at he
  | some p :: ps, l1, he => by
    simp only [nonNil] at he
    cases hq : nonNil ps with
    | none => rw [hq] at he; cases he
    | some qs =>
      rw [hq] at he
      simp only [Option.some.injEq] at he
      subst he
      simp [nonNil_length ps qs hq]

theorem Heap.alloc_link_dat {P : Type} (h : Heap P) (nd : Node P) (a b : Nat)
    (v : Option Nat) (q : Nat) (hq : q < h.next) :
    ((((h.alloc nd).2.modify a (fun x => { x with Parent := v })).modify b
      (fun x => { x with Parent := v })).cell q).dat = (h.cell q).dat := by
  rw [Heap.modify_dat _ _ _ (fun n => Node.dat_setParent n _),
    Heap.modify_dat _ _ _ (fun n => Node.dat_setParent n _),
    Heap.alloc_cell, if_neg (Nat.ne_of_lt hq)]

/-- What a run of the loop of `buildIntermediate` from index `i` on adds to the heap and
to the next level: one new node for every two nodes left, none for an odd last node,
which is handed on as it is; the `C1`, `C2`, `Pi` and `L` of the nodes that were there
before stay. -/
theorem buildIntermediateLoop_count {P : Type} [AddCommGroup P] (B : Backend P) (d : Int)
    (ns : List Nat) (vs ls rs : List Int) :
    ∀ (gas i : Nat) (acc : Level) (h : Heap P) (res : Sum Nat Level) (h1 : Heap P),
      buildIntermediateLoop B d ns vs ls rs gas i acc h = some (res, h1) →
      (∀ q, q < h.next → (h1.cell q).dat = (h.cell q).dat) ∧
      match res with
      | Sum.inl _ => ns.length = 2 ∧ h1.next + i = h.next + 1
      | Sum.inr lv =>
        h1.next = h.next + (ns.length - i) / 2 ∧
        lv.nodes.length = acc.nodes.length + (ns.length - i + 1) / 2 ∧
        ((ns.length - i) % 2 = 1 → lv.nodes.getLast? = ns.getLast?) ∧
        (ns.length ≤ i → lv = acc)
  | 0, i, acc, h, res, h1, he => by
    simp only [buildIntermediateLoop] at he
    split at he
    · cases he
    · rename_i hi
      simp only [Option.some.injEq, Prod.mk.injEq] at he
      obtain ⟨rfl, rfl⟩ := he
      have h0 : ns.length - i = 0 := by omega
      exact ⟨fun _ _ => rfl, by simp [h0]⟩
  | gas + 1, i, acc, h, res, h1, he => by
    rw [buildIntermediateLoop] at he
    by_cases hi : i < ns.length
    · rw [if_pos hi] at he
      by_cases hi1 : i + 1 = ns.length
      · rw [if_pos hi1] at he
        split at he
        · rename_i n v l r hn hv hl hr
          by_cases h2 : ns.length = 2
          · rw [if_pos h2] at he
            simp only [Option.some.injEq, Prod.mk.injEq] at he
            obtain ⟨rfl, rfl⟩ := he
            exact ⟨fun _ _ => rfl, h2, by omega⟩
          · rw [if_neg h2] at he
            obtain ⟨fr, hres⟩ := buildIntermediateLoop_count B d ns vs ls rs gas (i + 2) _ h
              res h1 he
            refine ⟨fr, ?_⟩
            match res, hres with
            | Sum.inl _, hres => exact absurd hres.1 h2
            | Sum.inr lv, hres =>
              obtain ⟨r1, r2, _, r4⟩ := hres
              have hlv := r4 (by omega)
              subst hlv
              refine ⟨by rw [r1]; omega, ?_, ?_, fun hle => absurd hle (by omega)⟩
              · simp only [List.length_append, List.length_singleton]
                omega
              · intro _
                have e1 : (acc.nodes ++ [n]).getLast? = some n := by simp
                have e2 : ns.getLast? = some n := by
                  rw [List.getLast?_eq_getElem?, ← hi1]
                  simpa using hn
                exact e1.trans e2.symm
        · cases he
      · rw [if_neg hi1] at he
        split at he
        · rename_i v0 v1 r0 r1 leftNode rightNode l0 l1 _ _ _ _ _ _ _ _
          have hfr := fun q (hq : q < h.next) =>
            Heap.alloc_link_dat h
              { Left := some leftNode, Right := some rightNode,
                C1 := some (ProveGeneric B (wrap64 (v0 + v1))
                  (SetupGeneric 0 (wrap64 (d * (l0 + l1)))) (r0 + r1)).P1V,
                C2 := some (ProveGeneric B (wrap64 (v0 + v1))
                  (SetupGeneric 0 (wrap64 (d * (l0 + l1)))) (r0 + r1)).P2V,
                Pi := some (ProveGeneric B (wrap64 (v0 + v1))
                  (SetupGeneric 0 (wrap64 (d * (l0 + l1)))) (r0 + r1)),
                L := l0 + l1, IsLeaf := false, Height := (h.cell leftNode).Height + 1 }
              leftNode rightNode (some h.next) q hq
          simp only [Heap.alloc_fst] at he
          by_cases h2 : ns.length = 2
          · rw [if_pos h2] at he
            simp only [Option.some.injEq, Prod.mk.injEq] at he
            obtain ⟨rfl, rfl⟩ := he
            refine ⟨hfr, h2, ?_⟩
            simp only [Heap.modify_next, Heap.alloc_next]
            omega
          · rw [if_neg h2] at he
            obtain ⟨fr, hres⟩ := buildIntermediateLoop_count B d ns vs ls rs gas (i + 2) _ _
              res h1 he
            simp only [Heap.modify_next, Heap.alloc_next] at fr hres
            refine ⟨fun q hq => by rw [fr q (by omega), hfr q hq], ?_⟩
            match res, hres with
            | Sum.inl _, hres => exact absurd hres.1 h2
            | Sum.inr lv, hres =>
              obtain ⟨r1, r2, r3, _⟩ := hres
              refine ⟨by rw [r1]; omega, ?_, ?_, fun hle => absurd hle (by omega)⟩
              · rw [r2]
                simp only [List.length_append, List.length_singleton]
                omega
              · intro hodd
                exact r3 (by omega)
        · cases he
    · rw [if_neg hi] at he
      simp only [Option.some.injEq, Prod.mk.injEq] at he
      obtain ⟨rfl, rfl⟩ := he
      have h0 : ns.length - i = 0 := by omega
      exact ⟨fun _ _ => rfl, by simp [h0]⟩

theorem buildIntermediate_next {P : Type} [AddCommGroup P] (B : Backend P) (d : Int) :
    ∀ (fuel : Nat) (h : Heap P) (ns : List Nat) (vs ls rs : List Int) (r : Nat)
      (h1 : Heap P),
      buildIntermediate B fuel h ns vs ls rs d = some (r, h1) →
      h1.next + 1 = h.next + ns.length
  | 0, h, ns, vs, ls, rs, r, h1, he => by simp [buildIntermediate] at he
  | fuel + 1, h, ns, vs, ls, rs, r, h1, he => by
    rw [buildIntermediate] at he
    cases hl : buildIntermediateLoop B d ns vs ls rs ns.length 0 ⟨[], [], [], []⟩ h with
    | none => rw [hl] at he; cases he
    | some res =>
      obtain ⟨res, h2⟩ := res
      obtain ⟨_, hres⟩ := buildIntermediateLoop_count B d ns vs ls rs _ _ _ _ _ _ hl
      rw [hl] at he
      cases res with
      | inl n =>
        simp only [Option.some.injEq, Prod.mk.injEq] at he
        obtain ⟨_, rfl⟩ := he
        simp only at hres
        omega
      | inr lv =>
        simp only at he hres
        have ih := buildIntermediate_next B d fuel h2 lv.nodes lv.values lv.sizes
          lv.seeds r h1 he
        obtain ⟨r1, r2, _, _⟩ := hres
        simp only [List.length_nil, Nat.sub_zero, Nat.zero_add] at r1 r2
        omega

/-- The whole of `BuildTree` allocates `2 * len - 1` nodes for `len` users. -/
theorem BuildTree_next {P : Type} [AddCommGroup P] (B : Backend P) (fuel : Nat)
    (h : Heap P) (order : List Nat) (vs rs : Nat → Int) (d : Int) (root : Nat)
    (h2 : Heap P) (he : BuildTree B fuel h order vs rs d = some (root, h2)) :
    h2.next + 1 = h.next + 2 * order.length := by
  simp only [BuildTree] at he
  split at he
  · cases he
  · rename_i st h1 hloop
    split at he
    · cases he
    · rename_i leaves hnn
      obtain ⟨n1, l1⟩ := BuildTree.loop_next B vs rs d _ order _ _ hloop
      have l2 := nonNil_length _ _ hnn
      have n2 := buildIntermediate_next B d fuel h1 leaves _ _ _ root h2 he
      simp only [List.length_replicate] at n1 l1
      omega

/-- On a level with any number of nodes other than two, the loop of `buildIntermediate`
runs to its end and hands a next level on. -/
theorem buildIntermediateLoop_total {P : Type} [AddCommGroup P] (B : Backend P) (d : Int)
    (ns : List Nat) (vs ls rs : List Int) (h2 : ns.length ≠ 2)
    (hv : vs.length = ns.length) (hl : ls.length = ns.length)
    (hr : rs.length = ns.length) :
    ∀ (gas i : Nat) (acc : Level) (h : Heap P), ns.length ≤ i + 2 * gas →
      ∃ (lv : Level) (h1 : Heap P),
        buildIntermediateLoop B d ns vs ls rs gas i acc h = some (Sum.inr lv, h1)
  | 0, i, acc, h, hg => by
    have hi : ¬ i < ns.length := by omega
    exact ⟨acc, h, by simp [buildIntermediateLoop, hi]⟩
  | gas + 1, i, acc, h, hg => by
    rw [buildIntermediateLoop]
    by_cases hi : i < ns.length
    · obtain ⟨n0, hn0⟩ : ∃ x, ns[i]? = some x := ⟨_, List.getElem?_eq_getElem hi⟩
      obtain ⟨v0, hv0⟩ : ∃ x, vs[i]? = some x := ⟨_, List.getElem?_eq_getElem (by omega)⟩
      obtain ⟨l0, hl0⟩ : ∃ x, ls[i]? = some x := ⟨_, List.getElem?_eq_getElem (by omega)⟩
      obtain ⟨r0, hr0⟩ : ∃ x, rs[i]? = some x := ⟨_, List.getElem?_eq_getElem (by omega)⟩
      by_cases hi1 : i + 1 = ns.length
      · simp only [hi, if_true, hi1, hn0, hv0, hl0, hr0, h2, if_false]
        exact buildIntermediateLoop_total B d ns vs ls rs h2 hv hl hr gas (i + 2) _ h
          (by omega)
      · obtain ⟨n1, hn1⟩ : ∃ x, ns[i+1]? = some x :=
          ⟨_, List.getElem?_eq_getElem (by omega)⟩
        obtain ⟨v1, hv1⟩ : ∃ x, vs[i+1]? = some x :=
          ⟨_, List.getElem?_eq_getElem (by omega)⟩
        obtain ⟨l1, hl1⟩ : ∃ x, ls[i+1]? = some x :=
          ⟨_, List.getElem?_eq_getElem (by omega)⟩
        obtain ⟨r1, hr1⟩ : ∃ x, rs[i+1]? = some x :=
          ⟨_, List.getElem?_eq_getElem (by omega)⟩
        simp only [hi, if_true, hi1, if_false, hn0, hv0, hl0, hr0, hn1, hv1, hl1, hr1, h2]
        exact buildIntermediateLoop_total B d ns vs ls rs h2 hv hl hr gas (i + 2) _ _
          (by omega)
    · exact ⟨acc, h, by simp [hi]⟩

theorem Repr.Pi_some {P : Type} [AddCommGroup P] (B : Backend P) (vs rs : Nat → Int)
    (d : Int) {h : Heap P} (t : PT) (hr : Repr B vs rs d h t) :
    ∃ pr, (h.cell t.ptr).Pi = some pr := by
  have h1 := congrArg Node.Pi (Repr.strip_eq B vs rs d t hr)
  rw [Node.strip_Pi] at h1
  cases t <;> exact ⟨_, h1⟩

/-- C19: for `n ≥ 2` users with ids `0..n-1`, `BuildTree` allocates exactly `2n - 1`
nodes; the tree it returns has `n` leaves and `n - 1` internal nodes, and every node of
it holds a range proof. On a level of odd length the loop of `buildIntermediate` makes
one new node for each pair only, and the last node of the next level is the very last
node of the level itself, with its `C1`, `C2`, `Pi` and `L` as they were. -/
theorem C19_proof_count {P : Type} [AddCommGroup P] (B : Backend P) (n : Nat)
    (hn : 2 ≤ n) (order : List Nat) (hperm : order.Perm (List.range n))
    (vs rs : Nat → Int) (delta : Int) (h : Heap P) (fuel : Nat) (hfuel : n ≤ fuel) :
    (∃ (root : Nat) (h2 : Heap P),
      BuildTree B fuel h order vs rs delta = some (root, h2) ∧
      h2.next = h.next + (2 * n - 1) ∧
      countNodes fuel h2 root = some (n, n - 1) ∧
      (∀ q, Reach h2 root q → ∃ pr, (h2.cell q).Pi = some pr)) ∧
    (∀ (ns : List Nat) (vs1 ls rs1 : List Int) (h1 : Heap P),
      ns.length % 2 = 1 → vs1.length = ns.length → ls.length = ns.length →
      rs1.length = ns.length →
      ∃ (lv : Level) (h2 : Heap P),
        buildIntermediateLoop B delta ns vs1 ls rs1 ns.length 0 ⟨[], [], [], []⟩ h1 =
          some (Sum.inr lv, h2) ∧
        lv.nodes.length = (ns.length + 1) / 2 ∧ h2.next = h1.next + ns.length / 2 ∧
        lv.nodes.getLast? = ns.getLast? ∧
        ∀ q, q < h1.next → (h2.cell q).dat = (h1.cell q).dat) := by
  constructor
  · obtain ⟨t, h2, e2, hr, hnd, hlt, hk⟩ :=
      BuildTree_spec B vs rs delta n hn order hperm h fuel hfuel
    have hlen : t.keys.length = n := by rw [hk, List.length_range]
    have hdepth : t.depth < fuel := by
      have := t.depth_lt_length
      omega
    have hs := Repr.shape B vs rs delta t hr
    have hnext := BuildTree_next B fuel h order vs rs delta _ _ e2
    have hol : order.length = n := by simpa using hperm.length_eq
    have hin := t.inner_add_one
    refine ⟨t.ptr, h2, e2, by omega, ?_, ?_⟩
    · rw [countNodes_spec t fuel hs hdepth, hlen]
      congr 2
      omega
    · intro q hq
      obtain ⟨x, c, hup, hx⟩ := Reach.sub hs hq
      rw [← hx]
      exact Repr.Pi_some B vs rs delta x (hup.sub_repr hr)
  · intro ns vs1 ls rs1 h1 hodd hv hl hr
    obtain ⟨lv, h2, e⟩ := buildIntermediateLoop_total B delta ns vs1 ls rs1 (by omega) hv hl
      hr ns.length 0 ⟨[], [], [], []⟩ h1 (by omega)
    obtain ⟨fr, r1, r2, r3, _⟩ :=
      buildIntermediateLoop_count B delta ns vs1 ls rs1 _ _ _ _ _ _ e
    simp only [List.length_nil, Nat.sub_zero, Nat.zero_add] at r1 r2 r3
    exact ⟨lv, h2, e, r2, r1, r3 hodd, fr⟩

theorem C19_proof_count_witness :
    (∃ (root : Nat) (h2 : Heap (Int × Int)),
      BuildTree exampleBackend 3 (Heap.empty _) [2, 1, 0] exampleReadings
        exampleBlindings 120 = some (root, h2) ∧
      h2.next = (Heap.empty (Int × Int)).next + (2 * 3 - 1) ∧
      countNodes 3 h2 root = some (3, 3 - 1) ∧
      (∀ q, Reach h2 root q → ∃ pr, (h2.cell q).Pi = some pr)) ∧
    (∀ (ns : List Nat) (vs1 ls rs1 : List Int) (h1 : Heap (Int × Int)),
      ns.length % 2 = 1 → vs1.length = ns.length → ls.length = ns.length →
      rs1.length = ns.length →
      ∃ (lv : Level) (h2 : Heap (Int × Int)),
        buildIntermediateLoop exampleBackend 120 ns vs1 ls rs1 ns.length 0
          ⟨[], [], [], []⟩ h1 = some (Sum.inr lv, h2) ∧
        lv.nodes.length = (ns.length + 1) / 2 ∧ h2.next = h1.next + ns.length / 2 ∧
        lv.nodes.getLast? = ns.getLast? ∧
        ∀ q, q < h1.next → (h2.cell q).dat = (h1.cell q).dat) :=
  C19_proof_count exampleBackend 3 (by decide) [2, 1, 0] (by decide) exampleReadings
    exampleBlindings 120 (Heap.empty _) 3 (by decide)

/-! ## The height of the tree -/

theorem PT.hgt_nonneg : ∀ t : PT, 0 ≤ t.hgt
  | PT.leaf _ _ => by simp [PT.hgt]
  | PT.node _ l _ => by
    have := PT.hgt_nonneg l
    simp only [PT.hgt]
    omega

theorem PT.depth_le_hgt : ∀ t : PT, t.good → (t.depth : Int) ≤ t.hgt
  | PT.leaf _ _, _ => by simp [PT.depth, PT.hgt]
  | PT.node _ l r, hg => by
    obtain ⟨h1, h2, h3⟩ := hg
    have hl := PT.depth_le_hgt l h2
    have hr := PT.depth_le_hgt r h3
    simp only [PT.depth, PT.hgt]
    rcases Nat.le_total l.depth r.depth with hle | hle
    · rw [Nat.max_eq_right hle]
      push_cast
      omega
    · rw [Nat.max_eq_left hle]
      push_cast
      omega

theorem Up.sub_good {root x : PT} {c : List (PT × PT)} (hup : Up root x c)
    (hg : root.good) : x.good := by
  induction hup with
  | top => exact hg
  | left _ ih => exact ih.2.1
  | right _ ih => exact ih.2.2

theorem LevelInv.pairUp : ∀ (ts : List PT) (q : Nat) (k : Int),
    LevelInv k ts → LevelInv (k + 1) (pairUp q ts)
  | [], _, _, _ => trivial
  | [t], _, _, h => ⟨by have := h.1; omega, h.2⟩
  | [a, b], q, k, h => by
    obtain ⟨h1, h2, h3, h4⟩ := h
    refine ⟨?_, ?_, h2, h4⟩
    · simp only [PT.hgt]
      omega
    · omega
  | a :: b :: c :: rest, q, k, h => by
    obtain ⟨h1, h2, h3, h4, h5⟩ := h
    have ih := LevelInv.pairUp (c :: rest) (q + 1) k h5
    have hn : (PT.node q a b).hgt = k + 1 := by simp only [PT.hgt]; omega
    have hg : (PT.node q a b).good := ⟨by omega, h2, h4⟩
    match rest, ih with
    | [], ih => exact ⟨hn, hg, ih⟩
    | d :: rest1, ih => exact ⟨hn, hg, ih⟩

theorem LevelInv.of_leaves : ∀ ts : List PT, (∀ t ∈ ts, ∃ p k, t = PT.leaf p k) →
    LevelInv 0 ts
  | [], _ => trivial
  | [t], h => by
    obtain ⟨p, k, rfl⟩ := h t (by simp)
    exact ⟨by simp [PT.hgt], trivial⟩
  | a :: b :: rest, h => by
    obtain ⟨p, k, rfl⟩ := h a (by simp)
    exact ⟨rfl, trivial, LevelInv.of_leaves (b :: rest) (fun t ht => h t (by simp [ht]))⟩

theorem keysAll_length_ge : ∀ ts : List PT, ts.length ≤ (keysAll ts).length
  | [] => by simp [keysAll]
  | t :: ts => by
    have h1 := t.inner_add_one
    have h2 := keysAll_length_ge ts
    simp only [keysAll, List.length_append, List.length_cons]
    omega

/-- As many leaf ids as trees: every tree is a single leaf. -/
theorem leaves_of_count : ∀ ts : List PT, (keysAll ts).length = ts.length →
    ∀ t ∈ ts, ∃ p k, t = PT.leaf p k
  | [], _, t, ht => by simp at ht
  | a :: ts, hc, t, ht => by
    have h1 := a.inner_add_one
    have h2 := keysAll_length_ge ts
    simp only [keysAll, List.length_append, List.length_cons] at hc
    rcases List.mem_cons.1 ht with rfl | ht1
    · match t, h1 with
      | PT.leaf p k, _ => exact ⟨p, k, rfl⟩
      | PT.node p l r, h1 =>
        simp only [PT.inner] at h1
        omega
    · exact leaves_of_count ts (by omega) t ht1

/-- The height of what the recursion of `buildIntermediate` returns for a level `k` of
`m` trees over `n` leaves in all, `(m - 1) * 2^k < n ≤ m * 2^k`. -/
theorem reduce_height (n : Nat) :
    ∀ (fuel q : Nat) (ts : List PT) (k : Nat) (t : PT),
      LevelInv (k : Int) ts → 2 ≤ ts.length → (ts.length - 1) * 2 ^ k < n →
      n ≤ ts.length * 2 ^ k → reduce fuel q ts = some t →
      ∃ H : Nat, t.hgt = (H : Int) ∧ t.good ∧ 2 ^ (H - 1) < n ∧ n ≤ 2 ^ H
  | 0, _, _, _, _, _, _, _, _, he => by simp [reduce] at he
  | fuel + 1, q, ts, k, t, hinv, h2, hlo, hhi, he => by
    by_cases hlen : ts.length = 2
    · match ts, hlen, hinv, hlo, hhi, he with
      | [a, b], _, hinv, hlo, hhi, he =>
        simp only [reduce, Option.some.injEq] at he
        subst he
        obtain ⟨h1, hg1, h3, hg2⟩ := hinv
        refine ⟨k + 1, ?_, ⟨by omega, hg1, hg2⟩, ?_, ?_⟩
        · simp only [PT.hgt, h1]
          push_cast
          rfl
        · simpa using hlo
        · rw [pow_succ]
          simpa [Nat.mul_comm] using hhi
    · rw [reduce_of_ne fuel q ts hlen] at he
      have hinv1 := LevelInv.pairUp ts q k hinv
      have hl1 := length_pairUp q ts
      refine reduce_height n fuel _ (pairUp q ts) (k + 1) t (by exact_mod_cast hinv1)
        (by omega) ?_ ?_ he
      · rw [hl1, pow_succ]
        have h3 : ((ts.length + 1) / 2 - 1) * 2 ≤ ts.length - 1 := by omega
        calc ((ts.length + 1) / 2 - 1) * (2 ^ k * 2)
            = (((ts.length + 1) / 2 - 1) * 2) * 2 ^ k := by ring
          _ ≤ (ts.length - 1) * 2 ^ k := Nat.mul_le_mul_right _ h3
          _ < n := hlo
      · rw [hl1, pow_succ]
        have h3 : ts.length ≤ (ts.length + 1) / 2 * 2 := by omega
        calc n ≤ ts.length * 2 ^ k := hhi
          _ ≤ ((ts.length + 1) / 2 * 2) * 2 ^ k := Nat.mul_le_mul_right _ h3
          _ = (ts.length + 1) / 2 * (2 ^ k * 2) := by ring

/-- The tree that `BuildTree` returns is what the recursion on trees makes of `n`
single leaves. -/
theorem BuildTree_reduce {P : Type} [AddCommGroup P] (B : Backend P) (vs rs : Nat → Int)
    (d : Int) (n : Nat) (hn : 2 ≤ n) (order : List Nat)
    (hperm : order.Perm (List.range n)) (h : Heap P) (fuel : Nat) (hfuel : n ≤ fuel) :
    ∃ (ts : List PT) (q : Nat) (t : PT) (h2 : Heap P),
      ts.length = n ∧ (∀ x ∈ ts, ∃ p k, x = PT.leaf p k) ∧ reduce fuel q ts = some t ∧
      BuildTree B fuel h order vs rs d = some (t.ptr, h2) ∧ Repr B vs rs d h2 t ∧
      t.ptrs.Nodup ∧ (∀ q ∈ t.ptrs, q < h2.next) ∧ t.keys = List.range n := by
  obtain ⟨ts, h1, hf, hk, hl, _, hb⟩ := BuildTree_leaves B vs rs d n order hperm h
  obtain ⟨t, ht, htk⟩ := reduce_some fuel h1.next ts (by omega) (by omega)
  have hspec := buildIntermediate_spec B vs rs d fuel ts h1 hf
  rw [ht] at hspec
  obtain ⟨h2, e2, ⟨f1, f2, f3⟩, _⟩ := hspec
  refine ⟨ts, h1.next, t, h2, hl, ?_, ht, by rw [hb, e2], f1 t (by simp), ?_, ?_,
    by rw [htk, hk]⟩
  · exact leaves_of_count ts (by rw [hk, List.length_range, hl])
  · simpa [ptrsAll] using f2
  · simpa [ptrsAll] using f3

/-- C20: for `n ≥ 2` users with ids `0..n-1`, the root that `BuildTree` returns has
`Height = H` with `2^(H-1) < n ≤ 2^H`; every internal node of the tree has a left and a
right child and its `Height` is one more than the larger of their `Height`s; and for the
leaf of every user `MerklePath` returns a path with at most `H` entries in `Edge`. -/
theorem C20_logarithmic_height {P : Type} [AddCommGroup P] (B : Backend P) (n : Nat)
    (hn : 2 ≤ n) (order : List Nat) (hperm : order.Perm (List.range n))
    (vs rs : Nat → Int) (delta : Int) (h : Heap P) (fuel : Nat) (hfuel : n ≤ fuel) :
    ∃ (root : Nat) (h2 : Heap P) (H : Nat),
      BuildTree B fuel h order vs rs delta = some (root, h2) ∧
      (h2.cell root).Height = (H : Int) ∧ 2 ^ (H - 1) < n ∧ n ≤ 2 ^ H ∧
      (∀ q, Reach h2 root q → (h2.cell q).IsLeaf = false →
        ∃ l r, (h2.cell q).Left = some l ∧ (h2.cell q).Right = some r ∧
          (h2.cell q).Height = 1 + max (h2.cell l).Height (h2.cell r).Height) ∧
      (∀ i : Nat, i < n → ∃ (leaf : Nat) (path : Path) (h3 : Heap P),
        GetLeaf fuel h2 root (i : Int) = some (some leaf) ∧
        MerklePath fuel h2 root leaf = some (path, h3) ∧ path.Edge.length ≤ H) := by
  obtain ⟨ts, q0, t, h2, hl, hleaves, hred, e2, hr, hnd, hlt, hk⟩ :=
    BuildTree_reduce B vs rs delta n hn order hperm h fuel hfuel
  obtain ⟨H, hH, hgood, hlo, hhi⟩ := reduce_height n fuel q0 ts 0 t
    (LevelInv.of_leaves ts hleaves) (by omega) (by simp; omega) (by simp; omega) hred
  have hlen : t.keys.length = n := by rw [hk, List.length_range]
  have hdepth : t.depth < fuel := by
    have := t.depth_lt_length
    omega
  have hs := Repr.shape B vs rs delta t hr
  refine ⟨t.ptr, h2, H, e2, ?_, hlo, hhi, ?_, ?_⟩
  · rw [Repr.Height_eq B vs rs delta t hr, hH]
  · intro q hq hleaf
    obtain ⟨x, c, hup, hx⟩ := Reach.sub hs hq
    have hrx := hup.sub_repr hr
    have hsx := hup.sub_shape hs
    have hgx := hup.sub_good hgood
    match x, hx, hrx, hsx, hgx with
    | PT.leaf p k, hx, _, hsx, _ =>
      simp only [PT.ptr_leaf] at hx
      subst hx
      rw [hsx.1] at hleaf
      cases hleaf
    | PT.node p a b, hx, hrx, hsx, hgx =>
      simp only [PT.ptr_node] at hx
      subst hx
      have e0 := Repr.Height_eq B vs rs delta _ hrx
      have ea := Repr.Height_eq B vs rs delta a hrx.2.2.2.1
      have eb := Repr.Height_eq B vs rs delta b hrx.2.2.2.2
      simp only [PT.ptr_node, PT.hgt] at e0
      refine ⟨a.ptr, b.ptr, hsx.2.1, hsx.2.2.1, ?_⟩
      rw [e0, ea, eb, max_eq_left hgx.1]
      omega
  · intro i hi
    obtain ⟨c, hc⟩ := PT.chain_of_mem i t (by rw [hk]; exact List.mem_range.2 hi)
    obtain ⟨p, k, _, hfind, hup⟩ := PT.chain_up (i : Int) t c hc
    have hcl := hup.length_le
    have hdh := t.depth_le_hgt hgood
    obtain ⟨path, h3, e3, _, _, hE⟩ := MerklePath_spec h2 t hs hnd hlt hup fuel (by omega)
    simp only [PT.ptr_leaf] at e3
    have hEl : path.Edge.length = c.length := by simpa using congrArg List.length hE
    refine ⟨p, path, h3, ?_, e3, ?_⟩
    · rw [GetLeaf_spec (i : Int) t fuel hs hdepth, hfind]
    · rw [hH] at hdh
      have : (t.depth : Int) ≤ (H : Int) := hdh
      omega

theorem C20_logarithmic_height_witness :
    ∃ (root : Nat) (h2 : Heap (Int × Int)) (H : Nat),
      BuildTree exampleBackend 5 (Heap.empty _) [3, 0, 4, 1, 2] exampleReadings
        exampleBlindings 120 = some (root, h2) ∧
      (h2.cell root).Height = (H : Int) ∧ 2 ^ (H - 1) < 5 ∧ 5 ≤ 2 ^ H ∧
      (∀ q, Reach h2 root q → (h2.cell q).IsLeaf = false →
        ∃ l r, (h2.cell q).Left = some l ∧ (h2.cell q).Right = some r ∧
          (h2.cell q).Height = 1 + max (h2.cell l).Height (h2.cell r).Height) ∧
      (∀ i : Nat, i < 5 → ∃ (leaf : Nat) (path : Path) (h3 : Heap (Int × Int)),
        GetLeaf 5 h2 root (i : Int) = some (some leaf) ∧
        MerklePath 5 h2 root leaf = some (path, h3) ∧ path.Edge.length ≤ H) :=
  C20_logarithmic_height exampleBackend 5 (by decide) [3, 0, 4, 1, 2] (by decide)
    exampleReadings exampleBlindings 120 (Heap.empty _) 5 (by decide)

/-! ## The links of a path -/

/-- One round of the loop of `MerklePath`, coming up from a left child: the cells that
the round writes. -/
theorem MerklePath.loop_left_links {P : Type} (root : Nat) (fuel : Nat) (h : Heap P)
    (cNode pN r : Nat) (init : List Nat) (lastc : Nat) (edge : List Nat)
    (hroot : cNode ≠ root) (hpar : (h.cell cNode).Parent = some pN)
    (hleft : (h.cell pN).Left = some cNode) (hright : (h.cell pN).Right = some r)
    (hp : pN < h.next) (hr : r < h.next) (hl : lastc < h.next) :
    ∃ h7 : Heap P,
      MerklePath.loop root (fuel + 1) h cNode (init ++ [lastc]) edge =
        MerklePath.loop root fuel h7 pN (init ++ [lastc] ++ [h.next])
          (edge ++ [h.next + 1]) ∧
      h7.next = h.next + 2 ∧
      (∀ q, q < h.next → q ≠ lastc → h7.cell q = h.cell q) ∧
      ((h7.cell lastc).Parent = some h.next ∧ (h7.cell lastc).Left = (h.cell lastc).Left ∧
        (h7.cell lastc).Right = (h.cell lastc).Right) ∧
      ((h7.cell h.next).Parent = none ∧ (h7.cell h.next).Left = some lastc ∧
        (h7.cell h.next).Right = some (h.next + 1)) ∧
      ((h7.cell (h.next + 1)).Parent = none ∧ (h7.cell (h.next + 1)).Left = none ∧
        (h7.cell (h.next + 1)).Right = none) := by
  have hpn : pN ≠ h.next := Nat.ne_of_lt hp
  have hrn : r ≠ h.next := Nat.ne_of_lt hr
  have hln : lastc ≠ h.next := Nat.ne_of_lt hl
  have hln1 : lastc ≠ h.next + 1 := by omega
  rw [MerklePath.loop]
  simp only [hroot, if_false, hpar, CopyNode, Heap.alloc_fst, Heap.alloc_cell, hpn,
    hleft, if_true, hright, index?_last, index?_prev, Heap.alloc_next, hrn]
  refine ⟨_, rfl, ?_, ?_, ?_, ?_, ?_⟩
  · simp
  · intro q hq hql
    have h1 : q ≠ h.next := Nat.ne_of_lt hq
    have h2 : q ≠ h.next + 1 := by omega
    simp [Heap.modify_cell, Heap.alloc_cell, CopyNode, h1, h2, hql]
  · simp [Heap.modify_cell, Heap.alloc_cell, hln, hln1]
  · simp [Heap.modify_cell, Heap.alloc_cell, hln.symm]
  · simp [Heap.modify_cell, Heap.alloc_cell, hln1.symm]

/-- One round of the loop of `MerklePath`, coming up from a right child: the cells that
the round writes. -/
theorem MerklePath.loop_right_links {P : Type} (root : Nat) (fuel : Nat) (h : Heap P)
    (cNode pN l : Nat) (init : List Nat) (lastc : Nat) (edge : List Nat)
    (hroot : cNode ≠ root) (hpar : (h.cell cNode).Parent = some pN)
    (hleft : (h.cell pN).Left = some l) (hne : cNode ≠ l)
    (hright : (h.cell pN).Right = some cNode)
    (hp : pN < h.next) (hlv : l < h.next) (hl : lastc < h.next) :
    ∃ h7 : Heap P,
      MerklePath.loop root (fuel + 1) h cNode (init ++ [lastc]) edge =
        MerklePath.loop root fuel h7 pN (init ++ [lastc] ++ [h.next])
          (edge ++ [h.next + 1]) ∧
      h7.next = h.next + 2 ∧
      (∀ q, q < h.next → q ≠ lastc → h7.cell q = h.cell q) ∧
      ((h7.cell lastc).Parent = some h.next ∧ (h7.cell lastc).Left = (h.cell lastc).Left ∧
        (h7.cell lastc).Right = (h.cell lastc).Right) ∧
      ((h7.cell h.next).Parent = none ∧ (h7.cell h.next).Right = some lastc ∧
        (h7.cell h.next).Left = some (h.next + 1)) ∧
      ((h7.cell (h.next + 1)).Parent = none ∧ (h7.cell (h.next + 1)).Left = none ∧
        (h7.cell (h.next + 1)).Right = none) := by
  have hpn : pN ≠ h.next := Nat.ne_of_lt hp
  have hlvn : l ≠ h.next := Nat.ne_of_lt hlv
  have hln : lastc ≠ h.next := Nat.ne_of_lt hl
  have hln1 : lastc ≠ h.next + 1 := by omega
  rw [MerklePath.loop]
  simp only [hroot, if_false, hpar, CopyNode, Heap.alloc_fst, Heap.alloc_cell, hpn,
    hleft, Option.some.injEq, hne, if_true, hright, index?_last, index?_prev,
    Heap.alloc_next, hlvn]
  refine ⟨_, rfl, ?_, ?_, ?_, ?_, ?_⟩
  · simp
  · intro q hq hql
    have h1 : q ≠ h.next := Nat.ne_of_lt hq
    have h2 : q ≠ h.next + 1 := by omega
    simp [Heap.modify_cell, Heap.alloc_cell, h1, h2, hql]
  · simp [Heap.modify_cell, Heap.alloc_cell, hln, hln1]
  · simp [Heap.modify_cell, Heap.alloc_cell, hln.symm]
  · simp [Heap.modify_cell, Heap.alloc_cell, hln1.symm]

theorem nodup_two_fresh {a : Nat} {cs es : List Nat} (hnd : (cs ++ es).Nodup)
    (hge : ∀ q ∈ cs ++ es, a + 2 ≤ q) : ((a :: cs) ++ ((a + 1) :: es)).Nodup := by
  have hperm : ((a :: cs) ++ ((a + 1) :: es)).Perm (a :: (a + 1) :: (cs ++ es)) := by
    simp only [List.cons_append]
    exact List.Perm.cons _ List.perm_middle
  rw [hperm.nodup_iff, List.nodup_cons, List.nodup_cons]
  refine ⟨?_, ?_, hnd⟩
  · intro hm
    rcases List.mem_cons.1 hm with he | hm1
    · omega
    · have := hge a hm1
      omega
  · intro hm
    have := hge (a + 1) hm
    omega

/-- The loop of `MerklePath`, started at a subtree `x` of the tree the heap `H0` holds
with `lastc` the copy made last: the copies it appends are fresh nodes, pairwise
different, linked among themselves as `Chain` says, and no cell of `H0` is written. -/
theorem MerklePath.loop_links {P : Type} (H0 : Heap P) (root : PT) (hs : Shape H0 root)
    (hnd : root.ptrs.Nodup) (hlt : ∀ q ∈ root.ptrs, q < H0.next)
    {x : PT} {c : List (PT × PT)} (hup : Up root x c) :
    ∀ (fuel : Nat) (h : Heap P) (init : List Nat) (lastc : Nat) (edge : List Nat),
      c.length < fuel → H0.next ≤ lastc → lastc < h.next →
      (∀ q, q < H0.next → h.cell q = H0.cell q) → (h.cell lastc).Parent = none →
      ∃ (cs es : List Nat) (h1 : Heap P),
        MerklePath.loop root.ptr fuel h x.ptr (init ++ [lastc]) edge =
          some (⟨init ++ [lastc] ++ cs, edge ++ es⟩, h1) ∧
        (∀ q, q < h.next → q ≠ lastc → h1.cell q = h.cell q) ∧
        (h1.cell lastc).Left = (h.cell lastc).Left ∧
        (h1.cell lastc).Right = (h.cell lastc).Right ∧
        Chain H0 h1 x.ptr lastc cs es (c.map (fun s => s.1.ptr)) ∧
        (∀ q ∈ cs ++ es, h.next ≤ q ∧ q < h1.next) ∧ (cs ++ es).Nodup ∧
        h.next ≤ h1.next := by
  induction hup with
  | top =>
    intro fuel h init lastc edge hfuel _ _ _ hpn
    obtain ⟨f, rfl⟩ : ∃ f, fuel = f + 1 := ⟨fuel - 1, by simp at hfuel; omega⟩
    exact ⟨[], [], h, by simp [MerklePath.loop], fun _ _ _ => rfl, rfl, rfl,
      by simpa [Chain] using hpn, by simp, by simp, Nat.le_refl _⟩
  | @left p l r c hpar ih =>
    intro fuel h init lastc edge hfuel hlast hlh hfr hpn
    obtain ⟨f, rfl⟩ : ∃ f, fuel = f + 1 := ⟨fuel - 1, by simp at hfuel; omega⟩
    have hsp : Shape H0 (PT.node p l r) := hpar.sub_shape hs
    obtain ⟨_, s2, s3, s4, _, _, _⟩ := hsp
    have hup : Up root l ((PT.node p l r, r) :: c) := Up.left hpar
    have hne : l.ptr ≠ root.ptr := hup.ptr_ne_root hnd (by simp)
    have hpl : p < H0.next := hlt p (hpar.ptrs_subset p (by simp [PT.ptrs]))
    have hll : l.ptr < H0.next := hlt _ (hup.ptrs_subset _ l.ptr_mem_ptrs)
    have hrl : r.ptr < H0.next :=
      hlt _ (hpar.ptrs_subset _ (by simp [PT.ptrs, PT.kids]))
    obtain ⟨h7, e7, n7, fr7, ⟨a1, a2, a3⟩, ⟨b1, b2, b3⟩, ⟨d1, d2, d3⟩⟩ :=
      MerklePath.loop_left_links root.ptr f h l.ptr p r.ptr init lastc edge hne
        (by rw [hfr _ hll, s4]) (by rw [hfr _ hpl, s2]) (by rw [hfr _ hpl, s3])
        (by omega) (by omega) hlh
    obtain ⟨cs, es, h1, e1, fr1, l1, r1, ch1, rng1, nd1, n1⟩ :=
      ih f h7 (init ++ [lastc]) h.next (edge ++ [h.next + 1])
        (by simp at hfuel; omega) (by omega) (by omega)
        (fun q hq => by rw [fr7 q (by omega) (by omega), hfr q hq]) b1
    have k1 : h1.cell lastc = h7.cell lastc := fr1 _ (by omega) (by omega)
    have k2 : h1.cell (h.next + 1) = h7.cell (h.next + 1) := fr1 _ (by omega) (by omega)
    refine ⟨h.next :: cs, (h.next + 1) :: es, h1, ?_, ?_, ?_, ?_, ?_, ?_, ?_, by omega⟩
    · simp only [PT.ptr_node] at e1
      rw [e7, e1]
      simp
    · intro q hq hql
      rw [fr1 q (by omega) (by omega), fr7 q hq hql]
    · rw [k1, a2]
    · rw [k1, a3]
    · simp only [List.map_cons, Chain, PT.ptr_node]
      refine ⟨by rw [k1, a1], ⟨by rw [k2, d1], by rw [k2, d2], by rw [k2, d3]⟩, ?_, ch1⟩
      rw [if_pos s2, l1, r1]
      exact ⟨b2, b3⟩
    · intro q hq
      simp only [List.cons_append, List.mem_cons, List.mem_append] at hq
      rcases hq with rfl | hq | rfl | hq
      · omega
      · have := rng1 q (by simp [hq])
        omega
      · omega
      · have := rng1 q (by simp [hq])
        omega
    · exact nodup_two_fresh nd1 (fun q hq => by have := rng1 q hq; omega)
  | @right p l r c hpar ih =>
    intro fuel h init lastc edge hfuel hlast hlh hfr hpn
    obtain ⟨f, rfl⟩ : ∃ f, fuel = f + 1 := ⟨fuel - 1, by simp at hfuel; omega⟩
    have hsp : Shape H0 (PT.node p l r) := hpar.sub_shape hs
    obtain ⟨_, s2, s3, _, s5, _, _⟩ := hsp
    have hup : Up root r ((PT.node p l r, l) :: c) := Up.right hpar
    have hne : r.ptr ≠ root.ptr := hup.ptr_ne_root hnd (by simp)
    have hpl : p < H0.next := hlt p (hpar.ptrs_subset p (by simp [PT.ptrs]))
    have hrl : r.ptr < H0.next := hlt _ (hup.ptrs_subset _ r.ptr_mem_ptrs)
    have hll : l.ptr < H0.next :=
      hlt _ (hpar.ptrs_subset _ (by simp [PT.ptrs, PT.kids]))
    have hlr : r.ptr ≠ l.ptr := by
      have h1 := hpar.nodup hnd
      rw [PT.ptrs_node, List.nodup_cons, List.nodup_append] at h1
      intro he
      exact List.disjoint_left.1 h1.2.2.2 l.ptr_mem_ptrs (he ▸ r.ptr_mem_ptrs)
    obtain ⟨h7, e7, n7, fr7, ⟨a1, a2, a3⟩, ⟨b1, b2, b3⟩, ⟨d1, d2, d3⟩⟩ :=
      MerklePath.loop_right_links root.ptr f h r.ptr p l.ptr init lastc edge hne
        (by rw [hfr _ hrl, s5]) (by rw [hfr _ hpl, s2]) hlr (by rw [hfr _ hpl, s3])
        (by omega) (by omega) hlh
    obtain ⟨cs, es, h1, e1, fr1, l1, r1, ch1, rng1, nd1, n1⟩ :=
      ih f h7 (init ++ [lastc]) h.next (edge ++ [h.next + 1])
        (by simp at hfuel; omega) (by omega) (by omega)
        (fun q hq => by rw [fr7 q (by omega) (by omega), hfr q hq]) b1
    have k1 : h1.cell lastc = h7.cell lastc := fr1 _ (by omega) (by omega)
    have k2 : h1.cell (h.next + 1) = h7.cell (h.next + 1) := fr1 _ (by omega) (by omega)
    have hnl : ¬ (H0.cell p).Left = some r.ptr := by
      rw [s2]
      intro he
      exact hlr (Option.some.inj he).symm
    refine ⟨h.next :: cs, (h.next + 1) :: es, h1, ?_, ?_, ?_, ?_, ?_, ?_, ?_, by omega⟩
    · simp only [PT.ptr_node] at e1
      rw [e7, e1]
      simp
    · intro q hq hql
      rw [fr1 q (by omega) (by omega), fr7 q hq hql]
    · rw [k1, a2]
    · rw [k1, a3]
    · simp only [List.map_cons, Chain, PT.ptr_node]
      refine ⟨by rw [k1, a1], ⟨by rw [k2, d1], by rw [k2, d2], by rw [k2, d3]⟩, ?_, ch1⟩
      rw [if_neg hnl, l1, r1]
      exact ⟨b2, b3⟩
    · intro q hq
      simp only [List.cons_append, List.mem_cons, List.mem_append] at hq
      rcases hq with rfl | hq | rfl | hq
      · omega
      · have := rng1 q (by simp [hq])
        omega
      · omega
      · have := rng1 q (by simp [hq])
        omega
    · exact nodup_two_fresh nd1 (fun q hq => by have := rng1 q hq; omega)

/-- The path that `MerklePath` returns for a subtree `x` of the tree the heap holds: the
copies are fresh nodes linked among themselves, and the heap of the tree is as it was. -/
theorem MerklePath_links {P : Type} (h : Heap P) (root : PT) (hs : Shape h root)
    (hnd : root.ptrs.Nodup) (hlt : ∀ q ∈ root.ptrs, q < h.next)
    {x : PT} {c : List (PT × PT)} (hup : Up root x c) (fuel : Nat)
    (hfuel : c.length < fuel) :
    ∃ (cs es : List Nat) (h1 : Heap P),
      MerklePath fuel h root.ptr x.ptr = some (⟨h.next :: cs, es⟩, h1) ∧
      (∀ q, q < h.next → h1.cell q = h.cell q) ∧
      (h1.cell h.next).Left = none ∧ (h1.cell h.next).Right = none ∧
      Chain h h1 x.ptr h.next cs es (c.map (fun s => s.1.ptr)) ∧
      (∀ q ∈ cs ++ es, h.next + 1 ≤ q ∧ q < h1.next) ∧ (cs ++ es).Nodup := by
  obtain ⟨cs, es, h1, e1, fr1, l1, r1, ch1, rng1, nd1, _⟩ :=
    MerklePath.loop_links h root hs hnd hlt hup fuel
      ((CopyNode h x.ptr).2.modify (CopyNode h x.ptr).1
        (fun n => { n with IsLeaf := true })) [] h.next [] hfuel (Nat.le_refl _)
      (by simp [CopyNode])
      (fun q hq => by simp [Heap.modify_cell, Heap.alloc_cell, CopyNode, Nat.ne_of_lt hq])
      (by simp [Heap.modify_cell, Heap.alloc_cell, CopyNode])
  refine ⟨cs, es, h1, ?_, ?_, ?_, ?_, ch1, ?_, nd1⟩
  · simp only [MerklePath]
    simpa [CopyNode] using e1
  · intro q hq
    rw [fr1 q (by simp [CopyNode]; omega) (Nat.ne_of_lt hq)]
    simp [Heap.modify_cell, Heap.alloc_cell, CopyNode, Nat.ne_of_lt hq]
  · rw [l1]
    simp [Heap.modify_cell, Heap.alloc_cell, CopyNode]
  · rw [r1]
    simp [Heap.modify_cell, Heap.alloc_cell, CopyNode]
  · intro q hq
    have := rng1 q hq
    simpa [CopyNode] using this

theorem Chain.lengths {P : Type} {H0 h1 : Heap P} :
    ∀ (pars cs es : List Nat) (xp prev : Nat), Chain H0 h1 xp prev cs es pars →
      cs.length = pars.length ∧ es.length = pars.length
  | [], [], [], _, _, _ => ⟨rfl, rfl⟩
  | par :: pars, c0 :: cs, e0 :: es, xp, prev, hc => by
    obtain ⟨_, _, _, h4⟩ := hc
    have := Chain.lengths pars cs es par c0 h4
    simp only [List.length_cons]
    omega
  | [], _ :: _, _, _, _, hc => by simp [Chain] at hc
  | [], [], _ :: _, _, _, hc => by simp [Chain] at hc
  | _ :: _, [], _, _, _, hc => by simp [Chain] at hc
  | _ :: _, _ :: _, [], _, _, hc => by simp [Chain] at hc

/-- Every copy on the way points up to the copy that follows it, the last one nowhere. -/
theorem Chain.parents {P : Type} {H0 h1 : Heap P} :
    ∀ (pars cs es : List Nat) (xp prev : Nat), Chain H0 h1 xp prev cs es pars →
      ∀ (j c0 : Nat), (prev :: cs)[j]? = some c0 →
        (h1.cell c0).Parent = (prev :: cs)[j+1]?
  | [], [], [], _, prev, hc, j, c0, hj => by
    cases j with
    | zero =>
      simp only [List.getElem?_cons_zero, Option.some.injEq] at hj
      subst hj
      simpa [Chain] using hc
    | succ j => simp at hj
  | par :: pars, c1 :: cs, e0 :: es, xp, prev, hc, j, c0, hj => by
    obtain ⟨h1p, _, _, h4⟩ := hc
    cases j with
    | zero =>
      simp only [List.getElem?_cons_zero, Option.some.injEq] at hj
      subst hj
      simpa using h1p
    | succ j =>
      rw [List.getElem?_cons_succ] at hj ⊢
      exact Chain.parents pars cs es par c1 h4 j c0 hj
  | [], _ :: _, _, _, _, hc, _, _, _ => by simp [Chain] at hc
  | [], [], _ :: _, _, _, hc, _, _, _ => by simp [Chain] at hc
  | _ :: _, [], _, _, _, hc, _, _, _ => by simp [Chain] at hc
  | _ :: _, _ :: _, [], _, _, hc, _, _, _ => by simp [Chain] at hc

/-- The copies of the siblings have no links. -/
theorem Chain.edges {P : Type} {H0 h1 : Heap P} :
    ∀ (pars cs es : List Nat) (xp prev : Nat), Chain H0 h1 xp prev cs es pars →
      ∀ e ∈ es, (h1.cell e).Parent = none ∧ (h1.cell e).Left = none ∧
        (h1.cell e).Right = none
  | [], [], [], _, _, _, e, he => by simp at he
  | par :: pars, c1 :: cs, e0 :: es, xp, prev, hc, e, he => by
    obtain ⟨_, h2, _, h4⟩ := hc
    rcases List.mem_cons.1 he with rfl | he1
    · exact h2
    · exact Chain.edges pars cs es par c1 h4 e he1
  | [], _ :: _, _, _, _, hc, _, _ => by simp [Chain] at hc
  | [], [], _ :: _, _, _, hc, _, _ => by simp [Chain] at hc
  | _ :: _, [], _, _, _, hc, _, _ => by simp [Chain] at hc
  | _ :: _, _ :: _, [], _, _, hc, _, _ => by simp [Chain] at hc

/-- The copy of a parent has the copy of the child on the way and the copy of its sibling
as children, each on the side it has in the tree. -/
theorem Chain.sides {P : Type} {H0 h1 : Heap P} :
    ∀ (pars cs es : List Nat) (xp prev : Nat), Chain H0 h1 xp prev cs es pars →
      ∀ (j c0 a b : Nat), (prev :: cs)[j+1]? = some c0 → (xp :: pars)[j]? = some a →
        (xp :: pars)[j+1]? = some b →
        if (H0.cell b).Left = some a then
          (h1.cell c0).Left = (prev :: cs)[j]? ∧ (h1.cell c0).Right = es[j]?
        else (h1.cell c0).Right = (prev :: cs)[j]? ∧ (h1.cell c0).Left = es[j]?
  | [], [], [], _, _, _, j, c0, a, b, hj, _, _ => by simp at hj
  | par :: pars, c1 :: cs, e0 :: es, xp, prev, hc, j, c0, a, b, hj, ha, hb => by
    obtain ⟨_, _, h3, h4⟩ := hc
    cases j with
    | zero =>
      simp only [List.getElem?_cons_succ, List.getElem?_cons_zero, Option.some.injEq,
        Nat.zero_add] at hj ha hb
      subst hj ha hb
      simpa using h3
    | succ j =>
      rw [List.getElem?_cons_succ] at hj ha hb
      rw [List.getElem?_cons_succ, List.getElem?_cons_succ]
      exact Chain.sides pars cs es par c1 h4 j c0 a b hj ha hb
  | [], _ :: _, _, _, _, hc, _, _, _, _, _, _, _ => by simp [Chain] at hc
  | [], [], _ :: _, _, _, hc, _, _, _, _, _, _, _ => by simp [Chain] at hc
  | _ :: _, [], _, _, _, hc, _, _, _, _, _, _, _ => by simp [Chain] at hc
  | _ :: _, _ :: _, [], _, _, hc, _, _, _, _, _, _, _ => by simp [Chain] at hc

/-- C11: for the tree built by `BuildTree` (`n ≥ 2` users) and the leaf of any user `i`,
`MerklePath` leaves every node that was allocated before the call, so every node of the
live tree, unchanged in every field; the entries of the returned path are fresh nodes,
pairwise different; `Core[j].Parent` is `Core[j+1]` (nil for the last entry); `Core[0]`
has no children; `Core[j+1]` has `Core[j]` and `Edge[j]` as its `Left` and `Right`, on
the sides that the `j`-th node on the way up from the leaf and its sibling have in the
live tree; the entries of `Edge` have no links at all. -/
theorem C11_path_independence {P : Type} [AddCommGroup P] (B : Backend P) (n : Nat)
    (hn : 2 ≤ n) (order : List Nat) (hperm : order.Perm (List.range n))
    (vs rs : Nat → Int) (delta : Int) (h : Heap P) (fuel : Nat) (hfuel : n ≤ fuel)
    (i : Nat) (hi : i < n) :
    ∃ (root : Nat) (h2 : Heap P) (leaf : Nat) (path : Path) (h3 : Heap P),
      BuildTree B fuel h order vs rs delta = some (root, h2) ∧
      GetLeaf fuel h2 root (i : Int) = some (some leaf) ∧
      MerklePath fuel h2 root leaf = some (path, h3) ∧
      (∀ q, q < h2.next → h3.cell q = h2.cell q) ∧
      (∀ q, Reach h2 root q → q < h2.next) ∧
      (∀ q ∈ path.Core ++ path.Edge, h2.next ≤ q ∧ q < h3.next) ∧
      (path.Core ++ path.Edge).Nodup ∧
      (∀ (j c : Nat), path.Core[j]? = some c → (h3.cell c).Parent = path.Core[j+1]?) ∧
      (∀ c : Nat, path.Core[0]? = some c →
        (h3.cell c).Left = none ∧ (h3.cell c).Right = none) ∧
      (∀ (j c a b : Nat), path.Core[j+1]? = some c → ancestor h2 j leaf = some a →
        ancestor h2 (j + 1) leaf = some b →
        if (h2.cell b).Left = some a then
          (h3.cell c).Left = path.Core[j]? ∧ (h3.cell c).Right = path.Edge[j]?
        else (h3.cell c).Right = path.Core[j]? ∧ (h3.cell c).Left = path.Edge[j]?) ∧
      (∀ e ∈ path.Edge, (h3.cell e).Parent = none ∧ (h3.cell e).Left = none ∧
        (h3.cell e).Right = none) := by
  obtain ⟨t, h2, e2, hr, hnd, hlt, hk⟩ :=
    BuildTree_spec B vs rs delta n hn order hperm h fuel hfuel
  have hlen : t.keys.length = n := by rw [hk, List.length_range]
  have hdepth : t.depth < fuel := by
    have := t.depth_lt_length
    omega
  obtain ⟨ch, hc⟩ := PT.chain_of_mem i t (by rw [hk]; exact List.mem_range.2 hi)
  obtain ⟨p, k, _, hfind, hup⟩ := PT.chain_up (i : Int) t ch hc
  have hcl : ch.length < fuel := by
    have := hup.length_le
    omega
  have hs := Repr.shape B vs rs delta t hr
  obtain ⟨cs, es, h3, e3, fr, l0, r0, hchain, rng, nd⟩ :=
    MerklePath_links h2 t hs hnd hlt hup fuel hcl
  simp only [PT.ptr_leaf] at e3 hchain
  obtain ⟨lc, le⟩ := Chain.lengths _ _ _ _ _ hchain
  simp only [List.length_map] at lc le
  have hlist : (p :: ch.map (fun s => s.1.ptr)) =
      (PT.leaf p k :: ch.map Prod.fst).map PT.ptr := by
    simp [List.map_map, Function.comp_def]
  have hanc : ∀ (j a : Nat), j ≤ ch.length → ancestor h2 j p = some a →
      (p :: ch.map (fun s => s.1.ptr))[j]? = some a := by
    intro j a hj ha
    obtain ⟨y, hy⟩ : ∃ y, (PT.leaf p k :: ch.map Prod.fst)[j]? = some y :=
      ⟨_, List.getElem?_eq_getElem (by simp; omega)⟩
    have h1 := hup.ancestor_eq hs hnd j y hy
    simp only [PT.ptr_leaf] at h1
    rw [h1] at ha
    rw [hlist, List.getElem?_map, hy, ← Option.some.inj ha]
    rfl
  refine ⟨t.ptr, h2, p, ⟨h2.next :: cs, es⟩, h3, e2, ?_, e3, fr, ?_, ?_, ?_, ?_, ?_, ?_,
    ?_⟩
  · rw [GetLeaf_spec (i : Int) t fuel hs hdepth, hfind]
  · intro q hq
    obtain ⟨x, c, hupx, hx⟩ := Reach.sub hs hq
    exact hx ▸ hlt _ (hupx.ptrs_subset _ x.ptr_mem_ptrs)
  · intro q hq
    simp only [List.cons_append, List.mem_cons] at hq
    rcases hq with rfl | hq
    · have := Chain.lengths _ _ _ _ _ hchain
      refine ⟨Nat.le_refl _, ?_⟩
      rcases Nat.eq_zero_or_pos cs.length with hz | hpos
      · have hcs : cs = [] := List.length_eq_zero.1 hz
        have hes : es = [] := List.length_eq_zero.1 (by omega)
        subst hcs hes
        have hch : ch = [] := List.length_eq_zero.1 (by omega)
        subst hch
        cases hup
        simp only [MerklePath, CopyNode, Heap.alloc_fst, PT.ptr_leaf] at e3
        cases fuel with
        | zero => omega
        | succ f =>
          simp only [MerklePath.loop, if_true, Option.some.injEq, Prod.mk.injEq] at e3
          rw [← e3.2]
          simp
      · obtain ⟨c0, cs1, rfl⟩ := List.exists_cons_of_length_pos hpos
        have := rng c0 (by simp)
        omega
    · have := rng q hq
      omega
  · simp only [List.cons_append, List.nodup_cons]
    refine ⟨?_, nd⟩
    intro hm
    have := rng _ hm
    omega
  · intro j c hj
    exact Chain.parents _ _ _ _ _ hchain j c hj
  · intro c hc0
    simp only [List.getElem?_cons_zero, Option.some.injEq] at hc0
    subst hc0
    exact ⟨l0, r0⟩
  · intro j c a b hj ha hb
    have hjl : j + 1 ≤ ch.length := by
      rcases Nat.lt_or_ge j cs.length with hlt1 | hge
      · omega
      · rw [List.getElem?_cons_succ, List.getElem?_eq_none hge] at hj
        cases hj
    exact Chain.sides _ _ _ _ _ hchain j c a b hj (hanc j a (by omega) ha)
      (hanc (j + 1) b hjl hb)
  · intro e he
    exact Chain.edges _ _ _ _ _ hchain e he

theorem C11_path_independence_witness :
    ∃ (root : Nat) (h2 : Heap (Int × Int)) (leaf : Nat) (path : Path)
        (h3 : Heap (Int × Int)),
      BuildTree exampleBackend 3 (Heap.empty _) [1, 0, 2] exampleReadings
        exampleBlindings 120 = some (root, h2) ∧
      GetLeaf 3 h2 root ((1 : Nat) : Int) = some (some leaf) ∧
      MerklePath 3 h2 root leaf = some (path, h3) ∧
      (∀ q, q < h2.next → h3.cell q = h2.cell q) ∧
      (∀ q, Reach h2 root q → q < h2.next) ∧
      (∀ q ∈ path.Core ++ path.Edge, h2.next ≤ q ∧ q < h3.next) ∧
      (path.Core ++ path.Edge).Nodup ∧
      (∀ (j c : Nat), path.Core[j]? = some c → (h3.cell c).Parent = path.Core[j+1]?) ∧
      (∀ c : Nat, path.Core[0]? = some c →
        (h3.cell c).Left = none ∧ (h3.cell c).Right = none) ∧
      (∀ (j c a b : Nat), path.Core[j+1]? = some c → ancestor h2 j leaf = some a →
        ancestor h2 (j + 1) leaf = some b →
        if (h2.cell b).Left = some a then
          (h3.cell c).Left = path.Core[j]? ∧ (h3.cell c).Right = path.Edge[j]?
        else (h3.cell c).Right = path.Core[j]? ∧ (h3.cell c).Left = path.Edge[j]?) ∧
      (∀ e ∈ path.Edge, (h3.cell e).Parent = none ∧ (h3.cell e).Left = none ∧
        (h3.cell e).Right = none) :=
  C11_path_independence exampleBackend 3 (by decide) [1, 0, 2] (by decide)
    exampleReadings exampleBlindings 120 (Heap.empty _) 3 (by decide) 1 (by decide)

/-! ## Errors of the backend -/

/-- One more node on the heap, made without an error of `SetupGeneric`. -/
theorem Clean.step {P : Type} {F : FaultyBackend P} {d : Int} {a : Nat} {h h1 : Heap P}
    (hs : Clean F d a h) (hn : h1.next = h.next + 1)
    (hfr : ∀ q, q < h.next → (h1.cell q).dat = (h.cell q).dat) (nd : Node P)
    (hnew : (h1.cell h.next).dat = nd.dat)
    (hok : nd.L = 1 ∨ F.setupErr 0 (wrap64 (d * nd.L)) = false) : Clean F d a h1 := by
  intro q haq hq
  have key : ∀ m : Node P, m.L = m.dat.2.2.2 := fun _ => rfl
  rcases Nat.lt_or_ge q h.next with hlt | hge
  · rw [key (h1.cell q), hfr q hlt, ← key]
    exact hs q haq hlt
  · have hq1 : q = h.next := by omega
    subst hq1
    rw [key (h1.cell h.next), hnew, ← key]
    exact hok

/-- The offsets added on the two sides of the `C1` comparison differ by the commitment to
`MAX_RANGE_END` under the blinding `0`, whatever `dummy` is. -/
theorem dummy_cancel {P : Type} [AddCommGroup P] (B : Backend P) (dummy : Int) (x y : P) :
    x + CommitG1 B (dummy - B.MAX_RANGE_END) dummy = y + CommitG1 B dummy dummy ↔
      x = y + CommitG1 B B.MAX_RANGE_END 0 := by
  have hsplit : CommitG1 B dummy dummy =
      CommitG1 B B.MAX_RANGE_END 0 + CommitG1 B (dummy - B.MAX_RANGE_END) dummy := by
    rw [CommitG1_add]
    congr 1 <;> ring
  rw [hsplit, ← add_assoc]
  exact add_left_inj _

/-- Whatever the value of `dummy` and of `delta`, `verifyCommitmentSum` computes the
check without the offset. -/
theorem verifyCommitmentSumWith_plain {P : Type} [AddCommGroup P] [DecidableEq P]
    (B : Backend P) (dummy : Int) (h : Heap P) (r a b : Nat) (delta : Int) :
    verifyCommitmentSumWith B dummy h r a b delta = plainLevelCheck B h r a b := by
  simp only [verifyCommitmentSumWith, plainLevelCheck, pointAdd, pointEquals]
  cases (h.cell a).C1 <;> cases (h.cell b).C1 <;> cases (h.cell r).C1 <;>
    cases (h.cell a).C2 <;> cases (h.cell b).C2 <;> cases (h.cell r).C2 <;>
    simp
  rename_i c1a c1b c1r c2a c2b c2r
  by_cases hc : c2a + c2b = c2r <;> simp [hc, dummy_cancel]

theorem plainLevelCheck_congr {P : Type} [AddCommGroup P] [DecidableEq P]
    (B : Backend P) (h h1 : Heap P) (r a b : Nat)
    (hC1 : ∀ q, (h1.cell q).C1 = (h.cell q).C1)
    (hC2 : ∀ q, (h1.cell q).C2 = (h.cell q).C2) :
    plainLevelCheck B h1 r a b = plainLevelCheck B h r a b := by
  simp only [plainLevelCheck, hC1, hC2]

theorem Heap.modify_L_C1 {P : Type} (h : Heap P) (p : Nat) (l : Int) (q : Nat) :
    ((h.modify p (fun x => { x with L := l })).cell q).C1 = (h.cell q).C1 ∧
    ((h.modify p (fun x => { x with L := l })).cell q).C2 = (h.cell q).C2 := by
  rw [Heap.modify_cell]
  split
  · rename_i hq
    subst hq
    exact ⟨rfl, rfl⟩
  · exact ⟨rfl, rfl⟩

/-- C22: in the commitment model, for all nodes `root`, `na`, `nb` of any heap and every
`delta`, `verifyCommitmentSum` returns `true` exactly when the six commitments decode,
`na.C2 + nb.C2 = root.C2` and `na.C1 + nb.C1 = root.C1 + Commit(MAX_RANGE_END, 0)`; its
result, an abort included, is the same for every value of the constant `dummy` and for
every `delta`, and stays the same when the `L` fields of the three nodes are changed. -/
theorem C22_dummy_offset {P : Type} [AddCommGroup P] [DecidableEq P] (B : Backend P)
    (h : Heap P) (root na nb : Nat) (delta : Int) :
    (verifyCommitmentSum B h root na nb delta = some true ↔
      ∃ (c1r c2r c1a c2a c1b c2b : P),
        (h.cell root).C1 = some c1r ∧ (h.cell root).C2 = some c2r ∧
        (h.cell na).C1 = some c1a ∧ (h.cell na).C2 = some c2a ∧
        (h.cell nb).C1 = some c1b ∧ (h.cell nb).C2 = some c2b ∧
        c2a + c2b = c2r ∧ c1a + c1b = c1r + CommitG1 B B.MAX_RANGE_END 0) ∧
    (∀ (c1r c2r c1a c2a c1b c2b : P),
        (h.cell root).C1 = some c1r → (h.cell root).C2 = some c2r →
        (h.cell na).C1 = some c1a → (h.cell na).C2 = some c2a →
        (h.cell nb).C1 = some c1b → (h.cell nb).C2 = some c2b →
        verifyCommitmentSum B h root na nb delta =
          some (decide (c2a + c2b = c2r) &&
            decide (c1a + c1b = c1r + CommitG1 B B.MAX_RANGE_END 0))) ∧
    (∀ (dummy delta1 : Int),
      verifyCommitmentSumWith B dummy h root na nb delta1 =
        verifyCommitmentSum B h root na nb delta) ∧
    (∀ (l1 l2 l3 : Int),
      verifyCommitmentSum B
          (((h.modify root (fun x => { x with L := l1 })).modify na
            (fun x => { x with L := l2 })).modify nb (fun x => { x with L := l3 }))
          root na nb delta =
        verifyCommitmentSum B h root na nb delta) := by
  refine ⟨?_, ?_, ?_, ?_⟩
  · rw [verifyCommitmentSum, verifyCommitmentSumWith_plain, plainLevelCheck]
    constructor
    · intro he
      cases h1 : (h.cell na).C1 <;> cases h2 : (h.cell nb).C1 <;>
        cases h3 : (h.cell root).C1 <;> cases h4 : (h.cell na).C2 <;>
        cases h5 : (h.cell nb).C2 <;> cases h6 : (h.cell root).C2 <;>
        simp only [h1, h2, h3, h4, h5, h6] at he <;> try cases he
      rename_i c1a c1b c1r c2a c2b c2r
      simp only [Option.some.injEq, Bool.and_eq_true, decide_eq_true_eq] at he
      exact ⟨c1r, c2r, c1a, c2a, c1b, c2b, rfl, rfl, rfl, rfl, rfl, rfl, he.1, he.2⟩
    · rintro ⟨c1r, c2r, c1a, c2a, c1b, c2b, h3, h6, h1, h4, h2, h5, e2, e1⟩
      simp [h1, h2, h3, h4, h5, h6, e1, e2]
  · intro c1r c2r c1a c2a c1b c2b h3 h6 h1 h4 h2 h5
    rw [verifyCommitmentSum, verifyCommitmentSumWith_plain, plainLevelCheck]
    simp only [h1, h2, h3, h4, h5, h6]
  · intro dummy delta1
    simp only [verifyCommitmentSum, verifyCommitmentSumWith_plain]
  · intro l1 l2 l3
    simp only [verifyCommitmentSum, verifyCommitmentSumWith_plain]
    apply plainLevelCheck_congr
    · intro q
      rw [(Heap.modify_L_C1 _ nb l3 q).1, (Heap.modify_L_C1 _ na l2 q).1,
        (Heap.modify_L_C1 _ root l1 q).1]
    · intro q
      rw [(Heap.modify_L_C1 _ nb l3 q).2, (Heap.modify_L_C1 _ na l2 q).2,
        (Heap.modify_L_C1 _ root l1 q).2]

/-! ## Stale values in `VerifyProofs` -/

/-- For a node none of whose fields decodes, a round of a loop of `VerifyProofs` works on
the variables as the round before left them. -/
theorem VerifyProofs.body_undecodable {P : Type} [DecidableEq P] (B : Backend P)
    (h : Heap P) (st : ProofVars P) (q : Nat) (hq : undecodable h q = true) :
    VerifyProofs.body B h st q = VerifyProofs.onVars B st := by
  simp only [undecodable, Bool.and_eq_true, Option.isNone_iff_eq_none] at hq
  obtain ⟨⟨h1, h2⟩, h3⟩ := hq
  simp only [VerifyProofs.body, VerifyProofs.onVars, h1, h2, h3, unmarshalInto,
    Option.isSome_none, Bool.false_eq_true, if_false]

/-- A round of a loop of `VerifyProofs` that goes on has called `Verify()` on the value
that it leaves in `proof`. -/
theorem VerifyProofs.body_verified {P : Type} [DecidableEq P] (B : Backend P)
    (h : Heap P) (st st1 : ProofVars P) (q : Nat) (ok : Bool)
    (hb : VerifyProofs.body B h st q = some (st1, ok)) : st1.verified = true := by
  unfold VerifyProofs.body at hb
  simp only at hb
  split at hb
  · exact absurd hb (by simp)
  · split at hb
    · simp only [Option.some.injEq, Prod.mk.injEq] at hb
      rw [← hb.1]
    · exact absurd hb (by simp)

/-- On variables that hold no proof, or a proof that has been through `Verify()`, the
round for a node none of whose fields decodes does not pass. -/
theorem VerifyProofs.body_stale_fails {P : Type} [DecidableEq P] (B : Backend P)
    (h : Heap P) (st st1 : ProofVars P) (q : Nat)
    (hst : st.proof = none ∨ st.verified = true) (hq : undecodable h q = true) :
    VerifyProofs.body B h st q ≠ some (st1, true) := by
  rw [VerifyProofs.body_undecodable B h st q hq]
  unfold VerifyProofs.onVars
  intro hb
  split at hb
  · exact absurd hb (by simp)
  · rename_i pr hpr
    have hv : st.verified = true := by
      rcases hst with h0 | h0
      · rw [h0] at hpr
        exact absurd hpr (by simp)
      · exact h0
    split at hb
    · simp [verifyInPlace, hv] at hb
    · exact absurd hb (by simp)

/-- A loop of `VerifyProofs` over nodes one of which has no field that decodes does not run
to its end, and the loop leaves variables on which `Verify()` has been called. -/
theorem VerifyProofs.loop_stale_fails {P : Type} [DecidableEq P] (B : Backend P)
    (h : Heap P) :
    ∀ (qs : List Nat) (st st1 : ProofVars P),
      (st.proof = none ∨ st.verified = true) →
      VerifyProofs.loop B h qs st = some (st1, true) →
      (st1.proof = none ∨ st1.verified = true) ∧ ∀ e ∈ qs, undecodable h e = false
  | [], st, st1, hst, hl => by
    simp only [VerifyProofs.loop, Option.some.injEq, Prod.mk.injEq, and_true] at hl
    subst hl
    exact ⟨hst, fun e he => absurd he (by simp)⟩
  | q :: qs, st, st1, hst, hl => by
    rw [VerifyProofs.loop] at hl
    cases hb : VerifyProofs.body B h st q with
    | none => simp [hb] at hl
    | some x =>
      obtain ⟨st2, ok⟩ := x
      rw [hb] at hl
      cases ok with
      | false => simp at hl
      | true =>
        simp only at hl
        have hv := VerifyProofs.body_verified B h st st2 q true hb
        obtain ⟨g1, g2⟩ := VerifyProofs.loop_stale_fails B h qs st2 st1 (Or.inr hv) hl
        refine ⟨g1, ?_⟩
        intro e he
        rcases List.mem_cons.1 he with rfl | he1
        · cases hu : undecodable h e with
          | false => rfl
          | true => exact absurd hb (VerifyProofs.body_stale_fails B h st st2 e hst hu)
        · exact g2 e he1

/-- A path that `VerifyProofs` accepts has no node none of whose fields decodes. -/
theorem VerifyProofs_no_undecodable {P : Type} [DecidableEq P] (B : Backend P)
    (h : Heap P) (p : Path) (hv : VerifyProofs B h p = some true) :
    ∀ e ∈ p.Core ++ p.Edge, undecodable h e = false := by
  unfold VerifyProofs at hv
  cases hc : VerifyProofs.loop B h p.Core ⟨none, none, none, false⟩ with
  | none => simp [hc] at hv
  | some x =>
    obtain ⟨st, ok⟩ := x
    rw [hc] at hv
    cases ok with
    | false => simp at hv
    | true =>
      simp only at hv
      obtain ⟨g1, g2⟩ := VerifyProofs.loop_stale_fails B h p.Core _ st (Or.inl rfl) hc
      cases he : VerifyProofs.loop B h p.Edge st with
      | none => simp [he] at hv
      | some y =>
        obtain ⟨st2, ok2⟩ := y
        rw [he] at hv
        simp only [Option.some.injEq] at hv
        subst hv
        obtain ⟨_, g4⟩ := VerifyProofs.loop_stale_fails B h p.Edge st st2 g1 he
        intro e hmem
        rcases List.mem_append.1 hmem with h1 | h1
        · exact g2 e h1
        · exact g4 e h1

/-- A node `e` whose `Pi` holds the bytes of the valid node `a` and whose `C1` and `C2`
do not decode passes `VerifyProofs` right after `a`, in `Core` and in `Edge`. -/
theorem VerifyProofs_stale_commits {P : Type} [DecidableEq P] (B : Backend P)
    (h : Heap P) (a e : Nat) (ha : nodeProofOk B h a = true)
    (hpi : (h.cell e).Pi = (h.cell a).Pi) (hc1 : (h.cell e).C1 = none)
    (hc2 : (h.cell e).C2 = none) :
    nodeProofOk B h e = false ∧ VerifyProofs B h ⟨[a, e], []⟩ = some true ∧
      VerifyProofs B h ⟨[a], [e]⟩ = some true := by
  unfold nodeProofOk at ha
  cases hp : (h.cell a).Pi with
  | none => simp [hp] at ha
  | some pr =>
    cases k1 : (h.cell a).C1 with
    | none => simp [hp, k1] at ha
    | some c1 =>
      cases k2 : (h.cell a).C2 with
      | none => simp [hp, k1, k2] at ha
      | some c2 =>
        simp only [hp, k1, k2, Bool.and_eq_true, decide_eq_true_eq] at ha
        obtain ⟨⟨e1, e2⟩, e3⟩ := ha
        rw [hp] at hpi
        refine ⟨by simp [nodeProofOk, hc1], ?_, ?_⟩
        · simp [VerifyProofs, VerifyProofs.loop, VerifyProofs.body, unmarshalInto,
            pointEquals, verifyInPlace, hp, k1, k2, hpi, hc1, hc2, e1, e2, e3]
        · simp [VerifyProofs, VerifyProofs.loop, VerifyProofs.body, unmarshalInto,
            pointEquals, verifyInPlace, hp, k1, k2, hpi, hc1, hc2, e1, e2, e3]

/-- C24 (counterexample): node `3` of the example heap has no field that decodes and node
`0` is valid, yet `VerifyProofs` rejects the paths with node `3` placed after node `0`, in
`Core` and in `Edge`: the round for node `3` calls `Verify()` a second time on the proof
decoded for node `0`. -/
theorem C24_counterexample :
    undecodable exampleHeap 3 = true ∧ nodeProofOk exampleBackend exampleHeap 0 = true ∧
    VerifyProofs exampleBackend exampleHeap ⟨[0, 3], []⟩ = some false ∧
    VerifyProofs exampleBackend exampleHeap ⟨[0], [3]⟩ = some false := by
  decide

/-- C24 (amended): `VerifyProofs` declares `proof`, `commit1`, `commit2` once and drops
the decode errors, so a node whose bytes do not decode is checked against the values that
the rounds before left in the variables. (1) A node none of whose fields `Pi`, `C1`, `C2`
decodes fails the conditions on its own fields, and its round runs the three comparisons
on the variables as they stand, `Verify()` being called on the proof of the node before
it once more. (2) That second call fails, so that no path with such a node in `Core` or
in `Edge` is accepted. (3) The stale commitments are accepted: a node `e` whose `C1` and
`C2` do not decode and whose `Pi` holds the bytes of the `Pi` of a valid node `a` fails
the conditions on its own fields, and the paths with `e` placed after `a`, in `Core` or
in `Edge`, are accepted. -/
theorem C24_stale_decode {P : Type} [DecidableEq P] (B : Backend P) (h : Heap P) :
    (∀ (st : ProofVars P) (e : Nat), undecodable h e = true →
      nodeProofOk B h e = false ∧
      VerifyProofs.body B h st e = VerifyProofs.onVars B st) ∧
    (∀ (p : Path) (e : Nat), e ∈ p.Core ++ p.Edge → undecodable h e = true →
      VerifyProofs B h p ≠ some true) ∧
    (∀ a e : Nat, nodeProofOk B h a = true → (h.cell e).Pi = (h.cell a).Pi →
      (h.cell e).C1 = none → (h.cell e).C2 = none →
      nodeProofOk B h e = false ∧ VerifyProofs B h ⟨[a, e], []⟩ = some true ∧
      VerifyProofs B h ⟨[a], [e]⟩ = some true) := by
  refine ⟨?_, ?_, ?_⟩
  · intro st e he
    refine ⟨?_, VerifyProofs.body_undecodable B h st e he⟩
    simp only [undecodable, Bool.and_eq_true, Option.isNone_iff_eq_none] at he
    simp [nodeProofOk, he.1.1]
  · intro p e hmem he hv
    have := VerifyProofs_no_undecodable B h p hv e hmem
    rw [he] at this
    exact absurd this (by simp)
  · intro a e ha hpi hc1 hc2
    exact VerifyProofs_stale_commits B h a e ha hpi hc1 hc2

theorem C24_stale_decode_witness :
    (nodeProofOk exampleBackend exampleStale 2 = true ∧
      (exampleStale.cell 4).Pi = (exampleStale.cell 2).Pi ∧
      (exampleStale.cell 4).C1 = none ∧ (exampleStale.cell 4).C2 = none) ∧
    (nodeProofOk exampleBackend exampleStale 4 = false ∧
      VerifyProofs exampleBackend exampleStale ⟨[2, 4], []⟩ = some true ∧
      VerifyProofs exampleBackend exampleStale ⟨[2], [4]⟩ = some true) :=
  ⟨by decide,
    (C24_stale_decode exampleBackend exampleStale).2.2 2 4 (by decide) (by decide)
      (by decide) (by decide)⟩

/-! ## Independence of the order of iteration -/

theorem PT.skel_val (vs : Nat → Int) : ∀ t : PT, t.skel.val vs = t.wval vs
  | PT.leaf _ _ => rfl
  | PT.node _ l r => by simp [PT.skel, ST.val, PT.wval, PT.skel_val vs l, PT.skel_val vs r]

theorem PT.skel_seed (rs : Nat → Int) : ∀ t : PT, t.skel.seed rs = t.seed rs
  | PT.leaf _ _ => rfl
  | PT.node _ l r => by
    simp [PT.skel, ST.seed, PT.seed, PT.skel_seed rs l, PT.skel_seed rs r]

theorem PT.skel_size : ∀ t : PT, t.skel.size = t.size
  | PT.leaf _ _ => rfl
  | PT.node _ l r => by simp [PT.skel, ST.size, PT.size, PT.skel_size l, PT.skel_size r]

theorem PT.skel_hgt : ∀ t : PT, t.skel.hgt = t.hgt
  | PT.leaf _ _ => rfl
  | PT.node _ l _ => by simp [PT.skel, ST.hgt, PT.hgt, PT.skel_hgt l]

theorem pairUp_skel : ∀ (q : Nat) (ts : List PT),
    (pairUp q ts).map PT.skel = pairST (ts.map PT.skel)
  | _, [] => rfl
  | _, [_] => rfl
  | q, a :: b :: rest => by
    simp [pairUp, pairST, PT.skel, pairUp_skel (q + 1) rest]

theorem reduceST_of_ne (fuel : Nat) (ts : List ST) (hne : ts.length ≠ 2) :
    reduceST (fuel + 1) ts = reduceST fuel (pairST ts) := by
  match ts, hne with
  | [], _ => rfl
  | [_], _ => rfl
  | [_, _], hne => exact absurd rfl hne
  | _ :: _ :: _ :: _, _ => rfl

/-- The recursion of `buildIntermediate` pairs the shapes from left to right, level by
level. -/
theorem reduce_skel : ∀ (fuel q : Nat) (ts : List PT) (t : PT),
    reduce fuel q ts = some t → reduceST fuel (ts.map PT.skel) = some t.skel
  | 0, _, _, _, he => by simp [reduce] at he
  | fuel + 1, q, ts, t, he => by
    by_cases hlen : ts.length = 2
    · obtain ⟨a, b, rfl⟩ := List.length_eq_two.1 hlen
      simp only [reduce, Option.some.injEq] at he
      subst he
      rfl
    · rw [reduce_of_ne fuel q ts hlen] at he
      rw [reduceST_of_ne fuel _ (by simpa using hlen), ← pairUp_skel q ts]
      exact reduce_skel fuel _ _ t he

theorem length_pairST : ∀ ts : List ST, (pairST ts).length = (ts.length + 1) / 2
  | [] => rfl
  | [_] => by simp [pairST]
  | a :: b :: rest => by
    simp only [pairST, List.length_cons, length_pairST rest]
    omega

/-- More rounds than needed give the same tree. -/
theorem reduceST_mono : ∀ (f f1 : Nat) (ts : List ST) (T : ST),
    reduceST f ts = some T → f ≤ f1 → reduceST f1 ts = some T
  | 0, _, _, _, he, _ => by simp [reduceST] at he
  | f + 1, 0, _, _, _, hle => by omega
  | f + 1, f1 + 1, ts, T, he, hle => by
    by_cases hlen : ts.length = 2
    · obtain ⟨a, b, rfl⟩ := List.length_eq_two.1 hlen
      simpa [reduceST] using he
    · rw [reduceST_of_ne f ts hlen] at he
      rw [reduceST_of_ne f1 ts hlen]
      exact reduceST_mono f f1 _ T he (by omega)

/-- With two shapes or more, as many rounds as there are shapes are enough. -/
theorem reduceST_some : ∀ (fuel : Nat) (ts : List ST), 2 ≤ ts.length → ts.length ≤ fuel →
    ∃ T, reduceST fuel ts = some T
  | 0, ts, h2, hf => by omega
  | fuel + 1, ts, h2, hf => by
    by_cases hlen : ts.length = 2
    · obtain ⟨a, b, rfl⟩ := List.length_eq_two.1 hlen
      exact ⟨_, rfl⟩
    · rw [reduceST_of_ne fuel ts hlen]
      exact reduceST_some fuel (pairST ts) (by rw [length_pairST]; omega)
        (by rw [length_pairST]; omega)

/-- What `readTree` reads for a tree that `BuildTree` has built is the tree that the
readings, the blindings and `d` determine for its shape. -/
theorem readTree_spec {P : Type} [AddCommGroup P] (B : Backend P) (vs rs : Nat → Int)
    (d : Int) {h : Heap P} :
    ∀ (t : PT) (fuel : Nat), Repr B vs rs d h t → t.depth < fuel →
      readTree fuel h t.ptr = some (t.skel.toDT B vs rs d)
  | PT.leaf p k, fuel + 1, hr, _ => by
    have hst : (h.cell p).strip = PT.expect B vs rs d (PT.leaf p k) := hr
    have e1 : (h.cell p).IsLeaf = true := congrArg Node.IsLeaf hst
    have e2 : (h.cell p).Index = (k : Int) := congrArg Node.Index hst
    have e3 : (h.cell p).Height = 0 := congrArg Node.Height hst
    have e4 : (h.cell p).L = 1 := congrArg Node.L hst
    have e5 := congrArg Node.C1 hst
    have e6 := congrArg Node.C2 hst
    have e7 := congrArg Node.Pi hst
    rw [Node.strip_C1] at e5
    rw [Node.strip_C2] at e6
    rw [Node.strip_Pi] at e7
    simp only [readTree, PT.ptr_leaf, e1, if_true, e2, e3, e4, e5, e6, e7, PT.skel, ST.toDT,
      PT.expect]
  | PT.node p l r, fuel + 1, hr, hd => by
    obtain ⟨hst, _, _, rl, rr⟩ := hr
    have hdl : l.depth < fuel := by simp only [PT.depth] at hd; omega
    have hdr : r.depth < fuel := by simp only [PT.depth] at hd; omega
    have e1 : (h.cell p).IsLeaf = false := congrArg Node.IsLeaf hst
    have e2 : (h.cell p).Left = some l.ptr := congrArg Node.Left hst
    have e3 : (h.cell p).Right = some r.ptr := congrArg Node.Right hst
    have e4 := congrArg Node.Height hst
    have e5 := congrArg Node.L hst
    have e6 := congrArg Node.C1 hst
    have e7 := congrArg Node.C2 hst
    have e8 := congrArg Node.Pi hst
    rw [Node.strip_Height] at e4
    rw [Node.strip_L] at e5
    rw [Node.strip_C1] at e6
    rw [Node.strip_C2] at e7
    rw [Node.strip_Pi] at e8
    simp only [readTree, PT.ptr_node, e1, e2, e3, e4, e5, e6, e7, e8,
      readTree_spec B vs rs d l fuel rl hdl, readTree_spec B vs rs d r fuel rr hdr,
      PT.skel, ST.toDT, PT.expect, PT.skel_val, PT.skel_seed, PT.skel_size, PT.skel_hgt]
    simp

theorem skel_of_leaves : ∀ ts : List PT, (∀ t ∈ ts, ∃ p k, t = PT.leaf p k) →
    ts.map PT.skel = (keysAll ts).map ST.leaf
  | [], _ => rfl
  | a :: ts, hl => by
    obtain ⟨p, k, rfl⟩ := hl a (by simp)
    simp [keysAll, PT.keys, PT.skel, skel_of_leaves ts (fun t ht => hl t (by simp [ht]))]

/-- The tree that `BuildTree` returns, whatever the order of iteration and the heap it
starts from: its shape is what pairing the leaves `0..n-1` from left to right gives. -/
theorem BuildTree_shape {P : Type} [AddCommGroup P] (B : Backend P) (vs rs : Nat → Int)
    (d : Int) (n : Nat) (hn : 2 ≤ n) (order : List Nat)
    (hperm : order.Perm (List.range n)) (h : Heap P) (fuel : Nat) (hfuel : n ≤ fuel)
    (T : ST) (hT : reduceST n ((List.range n).map ST.leaf) = some T) :
    ∃ (root : Nat) (h2 : Heap P),
      BuildTree B fuel h order vs rs d = some (root, h2) ∧
      leafIndices fuel h2 root = some ((List.range n).map (fun (k : Nat) => (k : Int))) ∧
      readTree fuel h2 root = some (T.toDT B vs rs d) := by
  obtain ⟨ts, q0, t, h2, hl, hleaves, hred, e2, hr, hnd, hlt, hk⟩ :=
    BuildTree_reduce B vs rs d n hn order hperm h fuel hfuel
  have hlen : t.keys.length = n := by rw [hk, List.length_range]
  have hdepth : t.depth < fuel := by
    have := t.depth_lt_length
    omega
  have hs := Repr.shape B vs rs d t hr
  obtain ⟨t1, ht1, hk1⟩ := reduce_some fuel q0 ts (by omega) (by omega)
  rw [hred] at ht1
  have ht : t1 = t := (Option.some.inj ht1).symm
  subst ht
  have hsk := reduce_skel fuel q0 ts t1 hred
  rw [skel_of_leaves ts hleaves, ← hk1, hk] at hsk
  have hT1 := reduceST_mono n fuel _ T hT hfuel
  rw [hsk] at hT1
  have hTe : T = t1.skel := (Option.some.inj hT1).symm
  refine ⟨t1.ptr, h2, e2, ?_, ?_⟩
  · rw [leafIndices_spec t1 fuel hs hdepth, hk]
  · rw [readTree_spec B vs rs d t1 fuel hr hdepth, hTe]

/-- C21: for `n ≥ 2` users with ids `0..n-1`, any readings, blindings and `delta`: pairing
the leaves `0, 1, ..., n-1` from left to right, level by level, gives a shape `T`; and for
any two orders in which the map iteration may yield the ids, and any two heaps to start
from, `BuildTree` returns trees whose leaves, read from left to right, carry the `Index`
values `0, 1, ..., n-1` in ascending order, and which, addresses left out, are both the
tree `T.toDT` that the readings, the blindings and `delta` alone determine for `T` (its
committed values and thresholds are the 64-bit sums and products that the code computes,
wrap-around included): same shape and, node by node, same `Height`, `L`, `C1`, `C2` and
`Pi`. -/
theorem C21_order_independence {P : Type} [AddCommGroup P] (B : Backend P) (n : Nat)
    (hn : 2 ≤ n) (vs rs : Nat → Int) (delta : Int) (fuel : Nat) (hfuel : n ≤ fuel)
    (order1 order2 : List Nat) (hp1 : order1.Perm (List.range n))
    (hp2 : order2.Perm (List.range n)) (h1 h2 : Heap P) :
    ∃ (T : ST) (r1 r2 : Nat) (g1 g2 : Heap P),
      reduceST n ((List.range n).map ST.leaf) = some T ∧
      BuildTree B fuel h1 order1 vs rs delta = some (r1, g1) ∧
      BuildTree B fuel h2 order2 vs rs delta = some (r2, g2) ∧
      leafIndices fuel g1 r1 = some ((List.range n).map (fun (k : Nat) => (k : Int))) ∧
      leafIndices fuel g2 r2 = some ((List.range n).map (fun (k : Nat) => (k : Int))) ∧
      readTree fuel g1 r1 = some (T.toDT B vs rs delta) ∧
      readTree fuel g2 r2 = some (T.toDT B vs rs delta) ∧
      readTree fuel g1 r1 = readTree fuel g2 r2 := by
  obtain ⟨T, hT⟩ := reduceST_some n ((List.range n).map ST.leaf) (by simpa using hn)
    (by simp)
  obtain ⟨r1, g1, e1, l1, t1⟩ :=
    BuildTree_shape B vs rs delta n hn order1 hp1 h1 fuel hfuel T hT
  obtain ⟨r2, g2, e2, l2, t2⟩ :=
    BuildTree_shape B vs rs delta n hn order2 hp2 h2 fuel hfuel T hT
  exact ⟨T, r1, r2, g1, g2, hT, e1, e2, l1, l2, t1, t2, by rw [t1, t2]⟩

theorem C21_order_independence_witness :
    ∃ (T : ST) (r1 r2 : Nat) (g1 g2 : Heap (Int × Int)),
      reduceST 5 ((List.range 5).map ST.leaf) = some T ∧
      BuildTree exampleBackend 5 (Heap.empty _) [0, 1, 2, 3, 4] exampleReadings
        exampleBlindings 120 = some (r1, g1) ∧
      BuildTree exampleBackend 5 exampleHeap [3, 1, 4, 0, 2] exampleReadings
        exampleBlindings 120 = some (r2, g2) ∧
      leafIndices 5 g1 r1 = some ((List.range 5).map (fun (k : Nat) => (k : Int))) ∧
      leafIndices 5 g2 r2 = some ((List.range 5).map (fun (k : Nat) => (k : Int))) ∧
      readTree 5 g1 r1 = some (T.toDT exampleBackend exampleReadings exampleBlindings 120) ∧
      readTree 5 g2 r2 = some (T.toDT exampleBackend exampleReadings exampleBlindings 120) ∧
      readTree 5 g1 r1 = readTree 5 g2 r2 :=
  C21_order_independence exampleBackend 5 (by decide) exampleReadings exampleBlindings 120
    5 (by decide) [0, 1, 2, 3, 4] [3, 1, 4, 0, 2] (by decide) (by decide) (Heap.empty _)
    exampleHeap

/-! ## The reach of a replaced commitment -/

end Zkrp
